import Mathlib

/-!
# Verification of `cache/cache.go`, `maps/diff.go` and `http/param.go`

The definitions of the three packages come first, the theorems after them.

# Loadable LRU cache (`cache/cache.go`)

An embedding of `LoadableLRUCache`: the calls run one after the other (a single
goroutine), and, in the section on interleaved executions, the atomic actions of
several goroutines in any order.

* Entries are heap objects: the container stores pointers (`Ptr`) and the heap
  maps a pointer to the entry it addresses, so that a mutation of an entry made
  by `getOrLoad` is seen through the container exactly when that entry is still
  in it.
* `interface{}` values and `error` values are options, `none` being `nil`.
* The loader is a Go closure: its result may depend on the calls it has served
  so far, so it takes the list of keys it was invoked with before.
* The caller's `onEvicted` callback is observed through the log `evicted` of the
  arguments it was invoked with, the loader through the log `calls`.
* `mu` (the `sync.RWMutex`) has no effect in a sequential run and is left out there;
  in an interleaved execution a critical section is one atomic action, and the hook
  invocations it makes are the pending ones of the goroutine that holds the lock.
-/

set_option linter.unusedSectionVars false

namespace cache

/-! ## The container `lru.Cache` -/

namespace lru

/-- Modelled from the spec: the bounded recency container `lru.Cache` of
`github.com/golang/groupcache/lru`, which `cache.go` imports and which is not part of
this repository. `ll` is the recency list, most recently used first; it stands for both
the linked list and the key index of the container (a key occurs at most once).
`OnEvicted` tells whether an eviction hook is registered. `MaxEntries` is the capacity;
zero means no limit. -/
structure Cache (K α : Type) where
  MaxEntries : Int
  OnEvicted : Bool
  ll : List (K × α)

variable {K α : Type} [DecidableEq K]

/-- Modelled from the spec: `lru.New`, an empty container of the given capacity
with no eviction hook. -/
def New (maxEntries : Int) : Cache K α :=
  { MaxEntries := maxEntries, OnEvicted := false, ll := [] }

/-- Modelled from the spec: `Len`, the number of items held. -/
def Cache.Len (c : Cache K α) : Nat := c.ll.length

/-- Modelled from the spec: the keys held, most recently used first. -/
def Cache.keys (c : Cache K α) : List K := c.ll.map Prod.fst

/-- Modelled from the spec: the hook invocations that dropping the items `dropped`
(in that order) performs: one per item when a hook is registered, none otherwise
("the container's low-level eviction hook fires for every entry it physically drops"). -/
def Cache.hook (c : Cache K α) (dropped : List (K × α)) : List (K × α) :=
  if c.OnEvicted then dropped else []

/-- Modelled from the spec: `Get`. A hit moves the item to the front of the recency
list ("access to an existing key updates its recency position") and returns its value;
a miss changes nothing. -/
def Cache.Get (c : Cache K α) (key : K) : Cache K α × Option α :=
  match c.ll.find? (fun kv => kv.1 = key) with
  | some kv => ({ c with ll := kv :: c.ll.filter (fun x => x.1 ≠ key) }, some kv.2)
  | none => (c, none)

/-- Modelled from the spec: `RemoveOldest`, which drops the least recently used item
(the back of the recency list) if there is one. Returns the container and the hook
invocations made. -/
def Cache.RemoveOldest (c : Cache K α) : Cache K α × List (K × α) :=
  match c.ll.getLast? with
  | some kv => ({ c with ll := c.ll.dropLast }, c.hook [kv])
  | none => (c, [])

/-- Modelled from the spec: `Add`. A key already held is moved to the front with the
new value; otherwise the item is pushed to the front and, when the capacity is not zero
and the count exceeds it, the least recently used item is evicted ("insertion may trigger
eviction of the least-recently-used item when the count exceeds capacity"). -/
def Cache.Add (c : Cache K α) (key : K) (value : α) : Cache K α × List (K × α) :=
  match c.ll.find? (fun kv => kv.1 = key) with
  | some _ => ({ c with ll := (key, value) :: c.ll.filter (fun x => x.1 ≠ key) }, [])
  | none =>
    let c1 : Cache K α := { c with ll := (key, value) :: c.ll }
    if c1.MaxEntries ≠ 0 ∧ (c1.Len : Int) > c1.MaxEntries then c1.RemoveOldest else (c1, [])

/-- Modelled from the spec: `Remove`, which drops the item of the key if it is held. -/
def Cache.Remove (c : Cache K α) (key : K) : Cache K α × List (K × α) :=
  match c.ll.find? (fun kv => kv.1 = key) with
  | some kv => ({ c with ll := c.ll.filter (fun x => x.1 ≠ key) }, c.hook [kv])
  | none => (c, [])

/-- Modelled from the spec: `Clear`, which drops every item. The hook is invoked once
per item; the library ranges over a Go map, so the order of these invocations is not
fixed, and the model takes the recency order. -/
def Cache.Clear (c : Cache K α) : Cache K α × List (K × α) :=
  ({ c with ll := [] }, c.hook c.ll)

end lru

/-! ## Entries -/

/-- Entry status constants (`invalid`, `loading`, `active`). -/
inductive Status where
  | invalid
  | loading
  | active
  deriving DecidableEq, Repr

/-- A Go `error` value returned by `Get`: either the error the loader returned, or the
one built by `fmt.Errorf("can't load value of key: [%s]", e.key)`. -/
inductive error (K E : Type) where
  | fromLoader (e : E)
  | errorf (key : K)
  deriving DecidableEq, Repr

/-- A pointer to an entry (`*entry`). -/
abbrev Ptr := Nat

/-- The struct `entry`. `signal` is the channel: `true` once it has been closed. -/
structure entry (K V E : Type) where
  key : K
  value : Option V
  status : Status
  signal : Bool
  err : Option (error K E)

/-- Function `newEntry`: status `invalid` (the zero value), open signal channel. -/
def newEntry {K V E : Type} (key : K) : entry K V E :=
  { key := key, value := none, status := Status.invalid, signal := false, err := none }

/-- The type `Loader`, given the keys it has been invoked with so far. -/
abbrev Loader (K V E : Type) := List K → K → Option V × Option E

/-! ## The cache -/

/-- Struct `LoadableLRUCache` together with the part of the program state it acts on: the heap
of entries (`heap p` is `none` while `p` is not allocated, `next` is the first pointer not
yet allocated), the log `calls` of loader invocations and the log `evicted` of
`onEvicted` invocations. -/
structure LoadableLRUCache (K V E : Type) where
  data : lru.Cache K Ptr
  loader : Loader K V E
  heap : Ptr → Option (entry K V E)
  next : Ptr
  calls : List K
  evicted : List (K × Option V)

variable {K V E : Type} [DecidableEq K]

/-- The function returned by `onEntryEvicted(onEvicted)`, applied to `(key, value)`:
`onEvicted(key, e.value)` is invoked when the status of the entry is `active`. (The
container only ever holds pointers to allocated entries; on any other pointer the
callback is not invoked.) -/
def onEntryEvicted (c : LoadableLRUCache K V E) (kv : K × Ptr) : LoadableLRUCache K V E :=
  match c.heap kv.2 with
  | some e =>
    if e.status = Status.active then { c with evicted := c.evicted ++ [(kv.1, e.value)] } else c
  | none => c

/-- Runs the registered hook on the hook invocations a container operation made, in
order. The container operations do not touch the entries, so running the hook right after
the operation is the same as running it inside. -/
def fire (c : LoadableLRUCache K V E) (hooked : List (K × Ptr)) : LoadableLRUCache K V E :=
  hooked.foldl onEntryEvicted c

/-- Function `NewLoadableLRUCache`: the container is `lru.New(maxEntries)`. -/
def NewLoadableLRUCache (loader : Loader K V E) (maxEntries : Int) : LoadableLRUCache K V E :=
  { data := lru.New maxEntries, loader := loader, heap := fun _ => none,
    next := 0, calls := [], evicted := [] }

/-- Function `NewLoadableLRUCacheWithOnEvicted`: the container is
`&lru.Cache{MaxEntries: maxEntries, OnEvicted: onEntryEvicted(onEvicted)}`, whose list and
index are nil, which the container treats as empty. -/
def NewLoadableLRUCacheWithOnEvicted (loader : Loader K V E) (maxEntries : Int) :
    LoadableLRUCache K V E :=
  { data := { MaxEntries := maxEntries, OnEvicted := true, ll := [] }, loader := loader,
    heap := fun _ => none, next := 0, calls := [], evicted := [] }

/-- Method `Remove`: `c.data.Remove(key)`. -/
def Remove (c : LoadableLRUCache K V E) (key : K) : LoadableLRUCache K V E :=
  fire { c with data := (c.data.Remove key).1 } (c.data.Remove key).2

/-- Method `RemoveOldest`: `c.data.RemoveOldest()`. -/
def RemoveOldest (c : LoadableLRUCache K V E) : LoadableLRUCache K V E :=
  fire { c with data := c.data.RemoveOldest.1 } c.data.RemoveOldest.2

/-- The loop `for i := 0; i < n; i++ { c.data.RemoveOldest() }` with `n - i = k`. -/
def removeOldestLoop : Nat → LoadableLRUCache K V E → LoadableLRUCache K V E
  | 0, c => c
  | k + 1, c => removeOldestLoop k (RemoveOldest c)

/-- Method `RemoveOldestN`: the loop body runs `n` times, not at all when `n ≤ 0`. -/
def RemoveOldestN (c : LoadableLRUCache K V E) (n : Int) : LoadableLRUCache K V E :=
  removeOldestLoop n.toNat c

/-- Method `Clear`: `c.data.Clear()`. -/
def Clear (c : LoadableLRUCache K V E) : LoadableLRUCache K V E :=
  fire { c with data := c.data.Clear.1 } c.data.Clear.2

/-- Method `getEntry`: looks the key up and, on a miss, looks it up again (under the write lock)
and on a second miss allocates `newEntry(key)` and adds it to the container. Returns the
new state and the pointer to the entry. -/
def getEntry (c : LoadableLRUCache K V E) (key : K) : LoadableLRUCache K V E × Ptr :=
  match c.data.Get key with
  | (d, some p) => ({ c with data := d }, p)
  | (d, none) =>
    let c1 : LoadableLRUCache K V E := { c with data := d }
    match c1.data.Get key with
    | (d2, some p) => ({ c1 with data := d2 }, p)
    | (d2, none) =>
      let p := c1.next
      let c2 : LoadableLRUCache K V E :=
        { c1 with data := d2, heap := Function.update c1.heap p (some (newEntry key)),
                  next := p + 1 }
      (fire { c2 with data := (c2.data.Add key p).1 } (c2.data.Add key p).2, p)

/-- Writes entry `e` at pointer `p`. -/
def store (c : LoadableLRUCache K V E) (p : Ptr) (e : entry K V E) : LoadableLRUCache K V E :=
  { c with heap := Function.update c.heap p (some e) }

/-- Method `getOrLoad` on the entry at pointer `p`, in a sequential run. The result is `none`
when the call does not return: it waits on a signal channel that no other goroutine is
there to close, or it would close a channel that is closed already (or `p` is dangling,
which `Get` never passes). In the `invalid` case the compare-and-swap succeeds, since no
other goroutine can have changed the status since it was read. -/
def getOrLoad (c : LoadableLRUCache K V E) (p : Ptr) :
    Option ((Option V × Option (error K E)) × LoadableLRUCache K V E) :=
  match c.heap p with
  | none => none
  | some e =>
    match e.status with
    | Status.invalid =>
      let c1 := store c p { e with status := Status.loading }
      let r := c1.loader c1.calls e.key
      let c2 : LoadableLRUCache K V E := { c1 with calls := c1.calls ++ [e.key] }
      let value := r.1
      let err : Option (error K E) :=
        if value.isNone && r.2.isNone then some (error.errorf e.key)
        else r.2.map error.fromLoader
      let e3 : entry K V E := { e with status := Status.loading, value := value, err := err }
      let c3 := store c2 p e3
      let c4 :=
        if err.isNone then store c3 p { e3 with status := Status.active }
        else Remove c3 e.key
      match c4.heap p with
      | none => none
      | some e4 =>
        if e4.signal then none
        else some ((value, err), store c4 p { e4 with signal := true })
    | Status.loading =>
      if e.signal then some ((e.value, e.err), c) else none
    | Status.active => some ((e.value, e.err), c)

/-- Method `Get`: `e := c.getEntry(key); return e.getOrLoad(c)`. -/
def Get (c : LoadableLRUCache K V E) (key : K) :
    Option ((Option V × Option (error K E)) × LoadableLRUCache K V E) :=
  getOrLoad (getEntry c key).1 (getEntry c key).2

/-- The calls of the public interface. -/
inductive Op (K : Type) where
  | Get (key : K)
  | Remove (key : K)
  | RemoveOldest
  | RemoveOldestN (n : Int)
  | Clear

/-- One call; `none` when the call does not return. -/
def step (c : LoadableLRUCache K V E) : Op K → Option (LoadableLRUCache K V E)
  | Op.Get key => (Get c key).map Prod.snd
  | Op.Remove key => some (Remove c key)
  | Op.RemoveOldest => some (RemoveOldest c)
  | Op.RemoveOldestN n => some (RemoveOldestN c n)
  | Op.Clear => some (Clear c)

/-- A sequence of calls, one after the other. -/
def run (c : LoadableLRUCache K V E) : List (Op K) → Option (LoadableLRUCache K V E)
  | [] => some c
  | op :: ops => (step c op).bind fun c1 => run c1 ops

/-- The keys the cache holds, most recently used first. -/
def keys (c : LoadableLRUCache K V E) : List K := c.data.keys

/-- The number of entries the cache holds. -/
def Len (c : LoadableLRUCache K V E) : Nat := c.data.Len

/-- The states of a sequential run: a fresh cache from either constructor, and every
state a returning call leads to from such a state. -/
inductive Reachable : LoadableLRUCache K V E → Prop
  | new (loader : Loader K V E) (maxEntries : Int) :
      Reachable (NewLoadableLRUCache loader maxEntries)
  | newWithOnEvicted (loader : Loader K V E) (maxEntries : Int) :
      Reachable (NewLoadableLRUCacheWithOnEvicted loader maxEntries)
  | step {c c1 : LoadableLRUCache K V E} (op : Op K) :
      Reachable c → step c op = some c1 → Reachable c1

/-! ## Auxiliary notions used to state the properties -/

/-- The `onEvicted` invocations (at most one) that the hook makes for a dropped item,
read off the heap: `(key, e.value)` when the entry is `active`. -/
def notified (heap : Ptr → Option (entry K V E)) (kv : K × Ptr) : List (K × Option V) :=
  match heap kv.2 with
  | some e => if e.status = Status.active then [(kv.1, e.value)] else []
  | none => []

/-- Structural well-formedness of a state: a key is held at most once, and every item of
the container points to an allocated entry for its key. Nothing is said about the status
of the entries. -/
structure WF (c : LoadableLRUCache K V E) : Prop where
  nodup : (keys c).Nodup
  alloc : ∀ k p, (k, p) ∈ c.data.ll → p < c.next
  entry : ∀ k p, (k, p) ∈ c.data.ll → ∃ e, c.heap p = some e ∧ e.key = k

/-- The invariant of sequential runs, between calls: the state is well-formed, every
entry held is `active` with a non-nil value, a nil error and a closed signal channel, and
a positive capacity bounds the number of entries. -/
structure Inv (c : LoadableLRUCache K V E) : Prop where
  wf : WF c
  active : ∀ k p, (k, p) ∈ c.data.ll → ∃ e, c.heap p = some e ∧
    e.status = Status.active ∧ e.value.isSome = true ∧ e.err = none
  bound : 0 < c.data.MaxEntries → (Len c : Int) ≤ c.data.MaxEntries

/-- The error `getOrLoad` ends up with for the loader result `r` on `key`: the
`fmt.Errorf` error when both the value and the error are nil, the error of the loader
otherwise. -/
def loadErr (key : K) (r : Option V × Option E) : Option (error K E) :=
  if r.1.isNone && r.2.isNone then some (error.errorf key) else r.2.map error.fromLoader

/-- Whether adding one more key exceeds the capacity (`MaxEntries != 0` and the new
length is larger than `MaxEntries`). -/
def overflows (c : LoadableLRUCache K V E) : Prop :=
  c.data.MaxEntries ≠ 0 ∧ ((c.data.ll.length + 1 : Nat) : Int) > c.data.MaxEntries

instance (c : LoadableLRUCache K V E) : Decidable (overflows c) := by
  unfold overflows; infer_instance

/-- The items dropped for capacity when one more key is added: the least recently used
one when the capacity is exceeded. -/
def overflowed (c : LoadableLRUCache K V E) : List (K × Ptr) :=
  if overflows c then c.data.ll.getLast?.toList else []

/-- The items of the container a call drops from it, in the order in which the hook is
run on them. (An entry that `Get` creates and drops again within the same call is not
among them: it is never `active` when dropped.) -/
def dropped (c : LoadableLRUCache K V E) : Op K → List (K × Ptr)
  | Op.Get key => if key ∈ keys c then [] else overflowed c
  | Op.Remove key => (c.data.ll.find? (fun kv => kv.1 = key)).toList
  | Op.RemoveOldest => c.data.ll.getLast?.toList
  | Op.RemoveOldestN n => (c.data.ll.drop (c.data.ll.length - n.toNat)).reverse
  | Op.Clear => c.data.ll

/-! ## A concrete run, used to instantiate the theorems -/

/-- A loader that succeeds on every key. -/
def exLoader : Loader String String String := fun _ k => (some ("value of " ++ k), none)

/-- A fresh cache of capacity two with an eviction callback. -/
def exCache0 : LoadableLRUCache String String String :=
  NewLoadableLRUCacheWithOnEvicted exLoader 2

/-- The state after `Get("a")` on `exCache0`. -/
def exCache1 : LoadableLRUCache String String String :=
  ((Get exCache0 "a").map Prod.snd).getD exCache0

/-- The state after `Get("a")`, `Get("b")`, `Get("a")` on `exCache0`. -/
def exCache2 : LoadableLRUCache String String String :=
  (run exCache1 [Op.Get "b", Op.Get "a"]).getD exCache1

/-- The state after `Get("c")` on `exCache2`, which evicts `"b"`. -/
def exCache3 : LoadableLRUCache String String String :=
  (run exCache2 [Op.Get "c"]).getD exCache2

/-- A loader that returns `(nil, nil)` on its first call and succeeds afterwards. -/
def exLoaderNilFirst : Loader String String String := fun served k =>
  if served.length = 0 then (none, none) else (some ("value of " ++ k), none)

/-- A loader that fails on every key. -/
def exLoaderFailing : Loader String String String := fun _ _ => (none, some "boom")

/-- A state as it can be while another goroutine is loading `"b"`: the entry of `"a"`
is `active`, that of `"b"` is `loading`. -/
def exCacheLoading : LoadableLRUCache String String String :=
  { data := { MaxEntries := 2, OnEvicted := true, ll := [("b", 1), ("a", 0)] },
    loader := exLoader,
    heap := fun p =>
      if p = 0 then some {
        key := "a", value := some "value of a", status := Status.active, signal := true,
        err := none }
      else if p = 1 then some {
        key := "b", value := none, status := Status.loading, signal := false, err := none }
      else none,
    next := 2, calls := ["a", "b"], evicted := [] }

/-- A loader that fails on `"c"` and succeeds on every other key. -/
def exLoaderFailC : Loader String String String := fun _ k =>
  if k = "c" then (none, some "boom") else (some ("value of " ++ k), none)

/-- A full cache of capacity two with an eviction callback: the state after `Get("a")`,
`Get("b")` on a fresh cache whose loader is `exLoaderFailC`. -/
def exCacheFull : LoadableLRUCache String String String :=
  (run (NewLoadableLRUCacheWithOnEvicted exLoaderFailC 2) [Op.Get "a", Op.Get "b"]).getD
    (NewLoadableLRUCacheWithOnEvicted exLoaderFailC 2)

/-- The state after the failing `Get("c")` on `exCacheFull`. -/
def exCacheFullAfter : LoadableLRUCache String String String :=
  ((Get exCacheFull "c").map Prod.snd).getD exCacheFull

/-- The state after `Get("a")`, `Get("b")` on `exCache0`: a full cache whose least
recently used key is `"a"`. -/
def exCacheAB : LoadableLRUCache String String String :=
  (run exCache0 [Op.Get "a", Op.Get "b"]).getD exCache0

/-! ## Interleaved executions

Several goroutines call the cache at once. An execution is a sequence of atomic actions:

* a critical section of `mu` (`getEntry`, `Remove`, `RemoveOldest`, `RemoveOldestN`,
  `Clear`, and the `c.Remove(e.key)` of a failed load) changes the container in one
  action and leaves the hook invocations it makes *pending*; the goroutine holds the lock
  until the last of them is made, so a critical section starts only when none is pending;
* each hook invocation is an action of its own: the hook reads the status of the entry
  when it runs, which is after the item was dropped;
* the actions of `getOrLoad` that take no lock (the successful compare-and-swap, the
  return of the loader with the stores to `e.value` and `e.err`, the activation, the
  close of the channel) run at any time, also between a drop and the hook invocation
  for it. `Stage` records how far the goroutine that won the compare-and-swap of an entry
  has got. The status loads and the waits on the channel change nothing and are left out.
-/

/-- Where the goroutine that won the compare-and-swap on an entry stands in `getOrLoad`:
`idle` before the compare-and-swap and after the close of the channel, `claimed` once the
compare-and-swap succeeded, `loaded` once `e.value` and `e.err` are stored, `settled`
once the status is `active` or `c.Remove(e.key)` has dropped the key. -/
inductive Stage where
  | idle
  | claimed
  | loaded
  | settled
  deriving DecidableEq, Repr

/-- The state of an interleaved execution: the cache, the hook invocations that the
goroutine holding `mu` has still to make, and the stage of the loading goroutine of each
entry. -/
structure Conc (K V E : Type) where
  cache : LoadableLRUCache K V E
  pending : List (K × Ptr)
  stage : Ptr → Stage

/-- Method `getEntry` with the hook invocations of `c.data.Add` returned instead of run.
The lookup under the read lock changes the container only on a hit, in which case the
method returns; so the critical section under the write lock, run on its own after a
missed lookup, is this function as well. -/
def getEntryLocked (c : LoadableLRUCache K V E) (key : K) :
    (LoadableLRUCache K V E × Ptr) × List (K × Ptr) :=
  match c.data.Get key with
  | (d, some p) => (({ c with data := d }, p), [])
  | (d, none) =>
    let c1 : LoadableLRUCache K V E := { c with data := d }
    match c1.data.Get key with
    | (d2, some p) => (({ c1 with data := d2 }, p), [])
    | (d2, none) =>
      let p := c1.next
      let c2 : LoadableLRUCache K V E :=
        { c1 with data := d2, heap := Function.update c1.heap p (some (newEntry key)),
                  next := p + 1 }
      (({ c2 with data := (c2.data.Add key p).1 }, p), (c2.data.Add key p).2)

/-- The loop `for i := 0; i < n; i++ { c.data.RemoveOldest() }` with `n - i = k` on the
container, with the hook invocations returned in order. -/
def removeOldestLocked : Nat → lru.Cache K Ptr → lru.Cache K Ptr × List (K × Ptr)
  | 0, d => (d, [])
  | k + 1, d =>
    ((removeOldestLocked k d.RemoveOldest.1).1,
      d.RemoveOldest.2 ++ (removeOldestLocked k d.RemoveOldest.1).2)

/-- The atomic actions of an interleaved execution. -/
inductive Action (K : Type) where
  | getEntry (key : K)
  | Remove (key : K)
  | RemoveOldest
  | RemoveOldestN (n : Int)
  | Clear
  | hook
  | cas (p : Ptr)
  | load (p : Ptr)
  | activate (p : Ptr)
  | removeFailed (p : Ptr)
  | close (p : Ptr)

/-- One atomic action; `none` when the action cannot be taken in the state (the lock is
held, the compare-and-swap fails, the goroutine of the entry is at another stage) or
panics (a second close of the channel).

* `getEntry`, `Remove`, `RemoveOldest`, `RemoveOldestN`, `Clear`: the critical section.
* `hook`: the function `onEntryEvicted(onEvicted)` on the first pending invocation.
* `cas p`: `atomic.CompareAndSwapInt32(&e.status, invalid, loading)` returning true.
* `load p`: `value, err := c.loader(e.key)`, the replacement of `(nil, nil)` by the
  `fmt.Errorf` error, `e.value = value`, `e.err = err`.
* `activate p`: the branch `err == nil`,
  `atomic.CompareAndSwapInt32(&e.status, loading, active)`.
* `removeFailed p`: the branch `err != nil`, the critical section of `c.Remove(e.key)`.
* `close p`: `close(e.signal)`. -/
def act (s : Conc K V E) : Action K → Option (Conc K V E)
  | Action.getEntry key =>
    if s.pending.isEmpty then
      some { s with cache := (getEntryLocked s.cache key).1.1,
                    pending := (getEntryLocked s.cache key).2 }
    else none
  | Action.Remove key =>
    if s.pending.isEmpty then
      some { s with cache := { s.cache with data := (s.cache.data.Remove key).1 },
                    pending := (s.cache.data.Remove key).2 }
    else none
  | Action.RemoveOldest =>
    if s.pending.isEmpty then
      some { s with cache := { s.cache with data := s.cache.data.RemoveOldest.1 },
                    pending := s.cache.data.RemoveOldest.2 }
    else none
  | Action.RemoveOldestN n =>
    if s.pending.isEmpty then
      some { s with
        cache := { s.cache with data := (removeOldestLocked n.toNat s.cache.data).1 },
        pending := (removeOldestLocked n.toNat s.cache.data).2 }
    else none
  | Action.Clear =>
    if s.pending.isEmpty then
      some { s with cache := { s.cache with data := s.cache.data.Clear.1 },
                    pending := s.cache.data.Clear.2 }
    else none
  | Action.hook =>
    match s.pending with
    | [] => none
    | kv :: rest => some { s with cache := onEntryEvicted s.cache kv, pending := rest }
  | Action.cas p =>
    match s.cache.heap p with
    | none => none
    | some e =>
      if e.status = Status.invalid then
        some { s with cache := store s.cache p { e with status := Status.loading },
                      stage := Function.update s.stage p Stage.claimed }
      else none
  | Action.load p =>
    match s.cache.heap p with
    | none => none
    | some e =>
      if s.stage p = Stage.claimed then
        let r := s.cache.loader s.cache.calls e.key
        let c2 : LoadableLRUCache K V E := { s.cache with calls := s.cache.calls ++ [e.key] }
        let value := r.1
        let err : Option (error K E) :=
          if value.isNone && r.2.isNone then some (error.errorf e.key)
          else r.2.map error.fromLoader
        some { s with cache := store c2 p { e with value := value, err := err },
                      stage := Function.update s.stage p Stage.loaded }
      else none
  | Action.activate p =>
    match s.cache.heap p with
    | none => none
    | some e =>
      if s.stage p = Stage.loaded ∧ e.err.isNone then
        some { s with
          cache := if e.status = Status.loading then
                     store s.cache p { e with status := Status.active }
                   else s.cache,
          stage := Function.update s.stage p Stage.settled }
      else none
  | Action.removeFailed p =>
    match s.cache.heap p with
    | none => none
    | some e =>
      if s.stage p = Stage.loaded ∧ ¬ e.err.isNone ∧ s.pending.isEmpty then
        some { s with cache := { s.cache with data := (s.cache.data.Remove e.key).1 },
                      pending := (s.cache.data.Remove e.key).2,
                      stage := Function.update s.stage p Stage.settled }
      else none
  | Action.close p =>
    match s.cache.heap p with
    | none => none
    | some e =>
      if s.stage p = Stage.settled then
        if e.signal then none
        else some { s with cache := store s.cache p { e with signal := true },
                           stage := Function.update s.stage p Stage.idle }
      else none

/-- A sequence of atomic actions. -/
def acts (s : Conc K V E) : List (Action K) → Option (Conc K V E)
  | [] => some s
  | a :: rest => (act s a).bind fun s1 => acts s1 rest

/-- The initial state of an execution on the cache `c`: no hook invocation pending, no
load under way. -/
def Conc.init (c : LoadableLRUCache K V E) : Conc K V E :=
  { cache := c, pending := [], stage := fun _ => Stage.idle }

/-- The states of the interleaved executions: a fresh cache from either constructor, and
every state an atomic action leads to from such a state. -/
inductive ConcReachable : Conc K V E → Prop
  | new (loader : Loader K V E) (maxEntries : Int) :
      ConcReachable (Conc.init (NewLoadableLRUCache loader maxEntries))
  | newWithOnEvicted (loader : Loader K V E) (maxEntries : Int) :
      ConcReachable (Conc.init (NewLoadableLRUCacheWithOnEvicted loader maxEntries))
  | act {s s1 : Conc K V E} (a : Action K) :
      ConcReachable s → act s a = some s1 → ConcReachable s1

/-- The invariant of the interleaved executions: the cache is well-formed, a pending hook
invocation is for an allocated entry of its key, a pointer from `next` on is not allocated
and no goroutine is loading its entry, an entry whose loading goroutine has not settled
it has status `loading`, and an `active` entry has a nil error. -/
structure ConcInv (s : Conc K V E) : Prop where
  wf : WF s.cache
  pend : ∀ k p, (k, p) ∈ s.pending → ∃ e, s.cache.heap p = some e ∧ e.key = k
  fresh : ∀ p, s.cache.next ≤ p → s.cache.heap p = none ∧ s.stage p = Stage.idle
  busy : ∀ p e, s.cache.heap p = some e →
    s.stage p = Stage.claimed ∨ s.stage p = Stage.loaded → e.status = Status.loading
  err : ∀ p e, s.cache.heap p = some e → e.status = Status.active → e.err = none

/-- A loader that succeeds on its first call and fails afterwards. -/
def exLoaderOkFirst : Loader String String String := fun served k =>
  if served.length = 0 then (some ("value of " ++ k), none) else (none, some "boom")

/-- An execution up to a failed load on an entry that is not held any more: a first
goroutine gets the entry of `"k"` (pointer `0`) from `getEntry`; `"k"` is removed; a
second goroutine gets a new entry of `"k"` (pointer `1`) and loads it; then the first
goroutine runs `getOrLoad` on its entry and the load fails. -/
def exStaleLoad : List (Action String) :=
  [Action.getEntry "k", Action.Remove "k", Action.hook,
   Action.getEntry "k", Action.cas 1, Action.load 1, Action.activate 1, Action.close 1,
   Action.cas 0, Action.load 0]

/-- An execution up to the drop of an entry that is being loaded: the entry of `"k"`
(pointer `0`) is loaded, and `Remove("k")` drops it before the loading goroutine has set
its status to `active`. -/
def exLateDrop : List (Action String) :=
  [Action.getEntry "k", Action.cas 0, Action.load 0, Action.Remove "k"]

/-- The state after `getEntry("a")`, the load of `"a"`, `getEntry("b")` and the
compare-and-swap on the entry of `"b"` on `exCache0`: the entry of `"a"` is `active`,
that of `"b"` is `loading`. -/
def exConcLoading : Conc String String String :=
  (acts (Conc.init exCache0)
    [Action.getEntry "a", Action.cas 0, Action.load 0, Action.activate 0, Action.close 0,
     Action.getEntry "b", Action.cas 1]).getD (Conc.init exCache0)

end cache

/-! # Go maps

A Go map is embedded as the list of its entries, each key occurring once; `range` visits
the entries in the order of the list (the order Go picks is not specified, and nothing
below depends on it).
-/

namespace gomap

variable {K V : Type} [DecidableEq K]

/-- The lookup `m[key]`, with `none` when the key is absent. -/
def get : List (K × V) → K → Option V
  | [], _ => none
  | (k, v) :: m, key => if key = k then some v else get m key

/-- The assignment `m[key] = value`. -/
def set : List (K × V) → K → V → List (K × V)
  | [], key, value => [(key, value)]
  | (k, v) :: m, key, value =>
    if key = k then (k, value) :: m else (k, v) :: set m key value

/-- The builtin `delete(m, key)`. -/
def delete (m : List (K × V)) (key : K) : List (K × V) :=
  m.filter (fun kv => kv.1 ≠ key)

/-- The keys of the map, in the order `range` visits them. -/
def keys (m : List (K × V)) : List K := m.map Prod.fst

end gomap

/-! # Map difference (`maps/diff.go`)

Values of type `interface{}` are the elements of a type `V`. The comparison
`reflect.DeepEqual` on them is a parameter `deepEqual`, of which nothing is assumed: it
need not be reflexive (it is not on `NaN` or on non-nil function values).
-/

namespace maps

variable {K V : Type} [DecidableEq K]

/-- The struct `valueDiff`. -/
structure valueDiff (V : Type) where
  leftValue : V
  rightValue : V

/-- Method `LeftValue`: `return d.leftValue`. -/
def valueDiff.LeftValue (d : valueDiff V) : V := d.leftValue

/-- Method `RightValue`: `return d.leftValue`, as the source has it. -/
def valueDiff.RightValue (d : valueDiff V) : V := d.leftValue

/-- The struct `mapDiff`. -/
structure mapDiff (K V : Type) where
  onlyInLeft : List (K × V)
  onlyInRight : List (K × V)
  inCommon : List (K × V)
  diff : List (K × valueDiff V)

/-- Method `AreEqual`. -/
def mapDiff.AreEqual (d : mapDiff K V) : Bool :=
  d.onlyInLeft.length == 0 && d.onlyInRight.length == 0 && d.diff.length == 0

/-- Method `OnlyInLeft`. -/
def mapDiff.OnlyInLeft (d : mapDiff K V) : List (K × V) := d.onlyInLeft

/-- Method `OnlyInRight`. -/
def mapDiff.OnlyInRight (d : mapDiff K V) : List (K × V) := d.onlyInRight

/-- Method `InCommon`. -/
def mapDiff.InCommon (d : mapDiff K V) : List (K × V) := d.inCommon

/-- Method `Differences`. -/
def mapDiff.Differences (d : mapDiff K V) : List (K × valueDiff V) := d.diff

/-- Function `Copy`: a new map with every entry of `src`. -/
def Copy (src : List (K × V)) : List (K × V) :=
  src.foldl (fun dst kv => gomap.set dst kv.1 kv.2) []

/-- The body of the loop of `Difference` for the entry `(leftKey, leftValue)` of `left`;
`deepEqual` is `reflect.DeepEqual`. -/
def diffStep (deepEqual : V → V → Bool) (d : mapDiff K V) (kv : K × V) : mapDiff K V :=
  match gomap.get d.onlyInRight kv.1 with
  | some rightValue =>
    let d1 : mapDiff K V :=
      if deepEqual kv.2 rightValue then { d with inCommon := gomap.set d.inCommon kv.1 kv.2 }
      else { d with diff := gomap.set d.diff kv.1 { leftValue := kv.2, rightValue := rightValue } }
    { d1 with onlyInRight := gomap.delete d1.onlyInRight kv.1 }
  | none => { d with onlyInLeft := gomap.set d.onlyInLeft kv.1 kv.2 }

/-- Function `Difference`; `deepEqual` is `reflect.DeepEqual`. -/
def Difference (deepEqual : V → V → Bool) (left right : List (K × V)) : mapDiff K V :=
  left.foldl (diffStep deepEqual)
    { onlyInLeft := [], onlyInRight := Copy right, inCommon := [], diff := [] }

/-- The four lookups of a key in the maps of a `mapDiff`. -/
def view (d : mapDiff K V) (k : K) :
    Option V × Option V × Option V × Option (valueDiff V) :=
  (gomap.get d.onlyInLeft k, gomap.get d.onlyInRight k, gomap.get d.inCommon k,
    gomap.get d.diff k)

/-- What the loop body does to the four lookups of the key it handles, whose value on the
left is `v`. -/
def viewStep (deepEqual : V → V → Bool)
    (w : Option V × Option V × Option V × Option (valueDiff V)) (v : V) :
    Option V × Option V × Option V × Option (valueDiff V) :=
  match w.2.1 with
  | some rightValue =>
    if deepEqual v rightValue then (w.1, none, some v, w.2.2.2)
    else (w.1, none, w.2.2.1, some { leftValue := v, rightValue := rightValue })
  | none => (some v, none, w.2.2.1, w.2.2.2)

/-- What `reflect.DeepEqual` is on two strings: their equality. -/
def exDeepEqual : String → String → Bool := fun a b => decide (a = b)

/-- A comparison that is not reflexive, as `reflect.DeepEqual` is on a floating-point
NaN: the string `"NaN"` is not deeply equal to itself. -/
def exDeepEqualNaN : String → String → Bool := fun a b => decide (a = b ∧ a ≠ "NaN")

/-- The map `m1` of `TestDifference`. -/
def exLeft : List (String × String) :=
  [("key1", "value1"), ("onlyIn1", "valueOnlyIn1"), ("diff", "diff1")]

/-- The map `m2` of `TestDifference`. -/
def exRight : List (String × String) :=
  [("key1", "value1"), ("onlyIn2", "valueOnlyIn2"), ("diff", "diff2")]

end maps

/-! # Request parameters (`http/param.go`)

A Go string is embedded as the list of its characters: the order on these lists is
lexicographic, as the order of Go strings is, and it can be evaluated. Slices are lists
(values): what a caller does to a slice it passed is outside the embedding. A call that
panics returns `none`.
-/

namespace http

/-- A Go `string`. -/
abbrev Str := List Char

/-- Modelled from the documentation of package `sort`: `sort.Strings` sorts a slice of
strings in increasing order. -/
def sortStrings (a : List Str) : List Str := a.insertionSort (· ≤ ·)

/-- Modelled from the documentation of package `sort`: `sort.SearchStrings(a, x)` returns
the smallest index `i` with `a[i] >= x`, or `len(a)` when there is none (the slice is
to be sorted in increasing order). -/
def SearchStrings (a : List Str) (x : Str) : Nat := a.findIdx (fun s => decide (x ≤ s))

/-- The struct `Param`. -/
structure Param where
  data : List (Str × List Str)
  keys : List Str

/-- Function `NewParam`. -/
def NewParam : Param := { data := [], keys := [] }

/-- Method `Get`: `p.data[key]`, the nil slice when the key is absent. -/
def Param.Get (p : Param) (key : Str) : List Str := (gomap.get p.data key).getD []

/-- Method `Count`. -/
def Param.Count (p : Param) (key : Str) : Nat :=
  match gomap.get p.data key with
  | some exist => exist.length
  | none => 0

/-- The loop of `Add` over `values`, collecting in `buf` the values to add; `none` when
`exist[i]` is out of range. -/
def addLoop (exist : List Str) : List Str → List Str → Option (List Str)
  | [], buf => some buf
  | v :: values, buf =>
    match exist[SearchStrings exist v]? with
    | none => none
    | some s => if v ≠ s then addLoop exist values (buf ++ [v]) else addLoop exist values buf

/-- Method `Add`; `none` when it panics. -/
def Param.Add (p : Param) (key : Str) (values : List Str) : Option (Bool × Param) :=
  if key = [] ∨ values.length = 0 then some (false, p)
  else
    match gomap.get p.data key with
    | some exist =>
      match addLoop exist values [] with
      | none => none
      | some buf =>
        if buf.length = 0 then some (false, p)
        else some (true, { p with data := gomap.set p.data key (sortStrings (exist ++ buf)) })
    | none =>
      some (true, { data := gomap.set p.data key (sortStrings values),
                    keys := sortStrings (p.keys ++ [key]) })

/-- Method `Replace`. -/
def Param.Replace (p : Param) (key : Str) (values : List Str) : Bool × Param :=
  if key = [] ∨ values.length = 0 then (false, p)
  else
    match gomap.get p.data key with
    | some _ => (true, { p with data := gomap.set p.data key (sortStrings values) })
    | none =>
      (false, { data := gomap.set p.data key (sortStrings values),
                keys := sortStrings (p.keys ++ [key]) })

/-- The private function `remove`: removes a string from a sorted slice of strings. -/
def remove (sorted : List Str) (value : Str) : List Str :=
  match sorted[SearchStrings sorted value]? with
  | some s =>
    if value = s then
      sorted.take (SearchStrings sorted value) ++ sorted.drop (SearchStrings sorted value + 1)
    else sorted
  | none => sorted

/-- Method `RemoveAll`. -/
def Param.RemoveAll (p : Param) (key : Str) : Bool × Param :=
  match gomap.get p.data key with
  | some _ => (true, { data := gomap.delete p.data key, keys := remove p.keys key })
  | none => (false, p)

/-- Method `Remove`. -/
def Param.Remove (p : Param) (key : Str) (values : List Str) : Param :=
  match gomap.get p.data key with
  | some exist =>
    if (values.foldl remove exist).length = 0 then
      { data := gomap.delete p.data key, keys := remove p.keys key }
    else { p with data := gomap.set p.data key (values.foldl remove exist) }
  | none => p

/-- Method `QueryString`; `escape` is `url.QueryEscape`, and `buf` the contents of the
buffer. -/
def Param.QueryString (escape : Str → Str) (p : Param) : Str :=
  p.keys.foldl (fun buf k =>
    (p.Get k).foldl (fun buf v =>
      (if buf.length > 0 then buf ++ ['&'] else buf) ++ (escape k ++ ['=']) ++ escape v) buf) []

/-- The strings of a list joined by `&`. -/
def joinAmp : List Str → Str
  | [] => []
  | [s] => s
  | s :: t => s ++ ['&'] ++ joinAmp t

/-- Written from the claim (what `url.Values.Encode` gives on the map `data`): the pairs
`escape(key)=escape(value)` joined by `&`, the keys in ascending order and, within a key,
the values in their stored order. -/
def Encode (escape : Str → Str) (data : List (Str × List Str)) : Str :=
  joinAmp ((sortStrings (gomap.keys data)).flatMap fun k =>
    ((gomap.get data k).getD []).map fun v => escape k ++ ['='] ++ escape v)

/-- The calls that change a `Param`. -/
inductive POp where
  | Add (key : Str) (values : List Str)
  | Replace (key : Str) (values : List Str)
  | Remove (key : Str) (values : List Str)
  | RemoveAll (key : Str)

/-- One call; `none` when it panics. -/
def pstep (p : Param) : POp → Option Param
  | POp.Add key values => (p.Add key values).map Prod.snd
  | POp.Replace key values => some (p.Replace key values).2
  | POp.Remove key values => some (p.Remove key values)
  | POp.RemoveAll key => some (p.RemoveAll key).2

/-- The `Param`s obtained from `NewParam()` by completed calls. -/
inductive PReachable : Param → Prop
  | new : PReachable NewParam
  | step {p p1 : Param} (op : POp) : PReachable p → pstep p op = some p1 → PReachable p1

/-- The invariant of `Param`: a key is bound once in `data`, and `keys` lists the keys
of `data`, sorted. -/
structure PInv (p : Param) : Prop where
  nodup : (gomap.keys p.data).Nodup
  sorted : p.keys.Sorted (· ≤ ·)
  perm : p.keys.Perm (gomap.keys p.data)

/-- The state after `Add("key", "x", "x")` on a new `Param`. -/
def exParamXX : Param :=
  ((NewParam.Add "key".toList ["x".toList, "x".toList]).map Prod.snd).getD NewParam

/-- The state after `Add("key", "1")` on a new `Param`. -/
def exParam1 : Param :=
  ((NewParam.Add "key".toList ["1".toList]).map Prod.snd).getD NewParam

/-- The state of `TestParam` after `Add("key", "1", "2", "7", "9")` and
`Add("api_key", "apikeycontent")` on a new `Param`. -/
def exParamTest : Param :=
  (((NewParam.Add "key".toList ["1".toList, "2".toList, "7".toList, "9".toList]).bind
    fun r => r.2.Add "api_key".toList ["apikeycontent".toList]).map Prod.snd).getD NewParam

end http

namespace cache

variable {K V E : Type} [DecidableEq K]

/-! ## Lemmas on the container -/

namespace lru

variable {α : Type}

theorem filter_ne_of_find_none {l : List (K × α)} {key : K}
    (h : l.find? (fun kv => kv.1 = key) = none) : l.filter (fun x => x.1 ≠ key) = l := by
  rw [List.filter_eq_self]
  intro x hx
  have := List.find?_eq_none.1 h x hx
  simpa using this

theorem find_none_iff {l : List (K × α)} {key : K} :
    l.find? (fun kv => kv.1 = key) = none ↔ key ∉ l.map Prod.fst := by
  rw [List.find?_eq_none]
  constructor
  · intro h hk
    obtain ⟨x, hx, rfl⟩ := List.mem_map.1 hk
    exact h x hx (by simp)
  · intro h x hx hk
    exact h (List.mem_map.2 ⟨x, hx, by simpa using hk⟩)

theorem find_some_of_mem {l : List (K × α)} {key : K} {v : α}
    (hn : (l.map Prod.fst).Nodup) (h : (key, v) ∈ l) :
    l.find? (fun kv => kv.1 = key) = some (key, v) := by
  induction l with
  | nil => simp at h
  | cons x l ih =>
    simp only [List.map_cons, List.nodup_cons] at hn
    by_cases hx : x.1 = key
    · rcases List.mem_cons.1 h with h | h
      · subst h; simp
      · exact absurd (List.mem_map.2 ⟨(key, v), h, rfl⟩) (hx ▸ hn.1)
    · rcases List.mem_cons.1 h with h | h
      · subst h; simp at hx
      · rw [List.find?_cons_of_neg _ (by simpa using hx)]
        exact ih hn.2 h

theorem Cache_Remove_eq (c : Cache K α) (key : K) :
    c.Remove key = ({ c with ll := c.ll.filter (fun x => x.1 ≠ key) },
      c.hook (c.ll.find? (fun kv => kv.1 = key)).toList) := by
  unfold Cache.Remove
  cases h : c.ll.find? (fun kv => kv.1 = key) with
  | none =>
    have hf := filter_ne_of_find_none h
    obtain ⟨m, o, l⟩ := c
    simp only [ne_eq, decide_not] at hf ⊢
    simp [hf, Cache.hook]
  | some kv => simp

theorem Cache_RemoveOldest_eq (c : Cache K α) :
    c.RemoveOldest = ({ c with ll := c.ll.dropLast }, c.hook c.ll.getLast?.toList) := by
  unfold Cache.RemoveOldest
  cases h : c.ll.getLast? with
  | none =>
    have : c.ll = [] := List.getLast?_eq_none_iff.1 h
    obtain ⟨m, o, l⟩ := c
    subst this
    simp [Cache.hook]
  | some kv => simp

theorem hook_sub (c : Cache K α) (l : List (K × α)) : c.hook l ⊆ l := by
  unfold Cache.hook
  split <;> simp

end lru

/-! ## Lemmas on the administrative calls -/

theorem onEntryEvicted_eq (c : LoadableLRUCache K V E) (kv : K × Ptr) :
    onEntryEvicted c kv = { c with evicted := c.evicted ++ notified c.heap kv } := by
  unfold onEntryEvicted notified
  cases h : c.heap kv.2 with
  | none => simp
  | some e => by_cases ha : e.status = Status.active <;> simp [ha]

theorem fire_eq (c : LoadableLRUCache K V E) (l : List (K × Ptr)) :
    fire c l = { c with evicted := c.evicted ++ l.flatMap (notified c.heap) } := by
  unfold fire
  induction l generalizing c with
  | nil => simp
  | cons x l ih => simp [List.foldl_cons, ih, onEntryEvicted_eq, List.append_assoc]

theorem Remove_eq (c : LoadableLRUCache K V E) (key : K) :
    Remove c key = { c with
      data := { c.data with ll := c.data.ll.filter (fun x => x.1 ≠ key) },
      evicted := c.evicted ++
        (c.data.hook (c.data.ll.find? (fun kv => kv.1 = key)).toList).flatMap
          (notified c.heap) } := by
  simp [Remove, fire_eq, lru.Cache_Remove_eq]

theorem RemoveOldest_eq (c : LoadableLRUCache K V E) :
    RemoveOldest c = { c with
      data := { c.data with ll := c.data.ll.dropLast },
      evicted := c.evicted ++
        (c.data.hook c.data.ll.getLast?.toList).flatMap (notified c.heap) } := by
  simp [RemoveOldest, fire_eq, lru.Cache_RemoveOldest_eq]

theorem Clear_eq (c : LoadableLRUCache K V E) :
    Clear c = { c with
      data := { c.data with ll := [] },
      evicted := c.evicted ++ (c.data.hook c.data.ll).flatMap (notified c.heap) } := by
  simp [Clear, fire_eq, lru.Cache.Clear]

/-! ## Lemmas on `Get` -/

theorem lru_Get_hit {α : Type} (c : lru.Cache K α) (key : K) (kv : K × α)
    (h : c.ll.find? (fun kv => kv.1 = key) = some kv) :
    c.Get key = ({ c with ll := kv :: c.ll.filter (fun x => x.1 ≠ key) }, some kv.2) := by
  simp [lru.Cache.Get, h]

theorem lru_Get_miss {α : Type} (c : lru.Cache K α) (key : K)
    (h : c.ll.find? (fun kv => kv.1 = key) = none) : c.Get key = (c, none) := by
  simp [lru.Cache.Get, h]

theorem lru_Add_miss {α : Type} (c : lru.Cache K α) (key : K) (v : α)
    (h : c.ll.find? (fun kv => kv.1 = key) = none) :
    c.Add key v =
      if c.MaxEntries ≠ 0 ∧ ((c.ll.length + 1 : Nat) : Int) > c.MaxEntries then
        ({ c with ll := ((key, v) :: c.ll).dropLast }, c.hook ((key, v) :: c.ll).getLast?.toList)
      else ({ c with ll := (key, v) :: c.ll }, []) := by
  simp only [lru.Cache.Add, h, lru.Cache_RemoveOldest_eq, lru.Cache.Len, List.length_cons]
  rfl

theorem getEntry_hit (c : LoadableLRUCache K V E) (key : K) (kv : K × Ptr)
    (h : c.data.ll.find? (fun kv => kv.1 = key) = some kv) :
    getEntry c key =
      ({ c with data := { c.data with ll := kv :: c.data.ll.filter (fun x => x.1 ≠ key) } },
        kv.2) := by
  simp [getEntry, lru_Get_hit _ _ _ h]

theorem getEntry_miss (c : LoadableLRUCache K V E) (key : K)
    (h : c.data.ll.find? (fun kv => kv.1 = key) = none) :
    getEntry c key =
      ({ c with
          data := (c.data.Add key c.next).1,
          heap := Function.update c.heap c.next (some (newEntry key)),
          next := c.next + 1,
          evicted := c.evicted ++ (c.data.Add key c.next).2.flatMap
            (notified (Function.update c.heap c.next (some (newEntry key)))) },
        c.next) := by
  simp [getEntry, lru_Get_miss _ _ h, fire_eq]




theorem getOrLoad_invalid (c : LoadableLRUCache K V E) (p : Ptr) (e : entry K V E)
    (h : c.heap p = some e) (hs : e.status = Status.invalid) (hsig : e.signal = false) :
    getOrLoad c p = some ((
      (c.loader c.calls e.key).1, loadErr e.key (c.loader c.calls e.key)),
      if (loadErr e.key (c.loader c.calls e.key)).isNone then
        { c with
          heap := Function.update c.heap p (some { e with
            value := (c.loader c.calls e.key).1, err := loadErr e.key (c.loader c.calls e.key),
            status := Status.active, signal := true }),
          calls := c.calls ++ [e.key] }
      else
        { c with
          data := { c.data with ll := c.data.ll.filter (fun x => x.1 ≠ e.key) },
          heap := Function.update c.heap p (some { e with
            value := (c.loader c.calls e.key).1, err := loadErr e.key (c.loader c.calls e.key),
            status := Status.loading, signal := true }),
          calls := c.calls ++ [e.key],
          evicted := c.evicted ++
            (c.data.hook (c.data.ll.find? (fun kv => kv.1 = e.key)).toList).flatMap
              (notified (Function.update c.heap p (some { e with
                value := (c.loader c.calls e.key).1,
                err := loadErr e.key (c.loader c.calls e.key),
                status := Status.loading }))) }) := by
  unfold getOrLoad
  simp only [h, hs]
  by_cases he : (loadErr e.key (c.loader c.calls e.key)).isNone = true
  · simp only [he, if_true]
    have he2 := he
    simp only [loadErr] at he2
    simp [store, Function.update_idem, he2, hsig]
    simp [loadErr]
  · simp only [he, Bool.false_eq_true, if_false]
    have he2 := he
    simp only [loadErr] at he2
    simp [store, Function.update_idem, he2, hsig, Remove_eq]
    simp [loadErr]

theorem getOrLoad_active (c : LoadableLRUCache K V E) (p : Ptr) (e : entry K V E)
    (h : c.heap p = some e) (hs : e.status = Status.active) :
    getOrLoad c p = some ((e.value, e.err), c) := by
  simp [getOrLoad, h, hs]

theorem find_of_mem {c : LoadableLRUCache K V E} (hn : (keys c).Nodup) {key : K} {p : Ptr}
    (h : (key, p) ∈ c.data.ll) :
    c.data.ll.find? (fun kv => kv.1 = key) = some (key, p) :=
  lru.find_some_of_mem hn h

theorem find_of_not_mem {c : LoadableLRUCache K V E} {key : K} (h : key ∉ keys c) :
    c.data.ll.find? (fun kv => kv.1 = key) = none :=
  lru.find_none_iff.2 h

/-- A hit on an `active` entry returns its value and error and moves the key to the
front. -/
theorem Get_hit (c : LoadableLRUCache K V E) (key : K) (p : Ptr) (e : entry K V E)
    (hn : (keys c).Nodup) (hm : (key, p) ∈ c.data.ll) (h : c.heap p = some e)
    (hs : e.status = Status.active) :
    Get c key = some ((e.value, e.err),
      { c with data := { c.data with
          ll := (key, p) :: c.data.ll.filter (fun x => x.1 ≠ key) } }) := by
  unfold Get
  rw [getEntry_hit c key (key, p) (find_of_mem hn hm)]
  exact getOrLoad_active _ _ e h hs

/-- The items the hook is invoked on when a new key is added: the least recently used
one when the capacity is exceeded. -/
theorem Add_miss_fst (c : LoadableLRUCache K V E) (key : K) (h : key ∉ keys c) :
    (c.data.Add key c.next).1 = { c.data with
      ll := if overflows c then ((key, c.next) :: c.data.ll).dropLast
            else (key, c.next) :: c.data.ll } := by
  rw [lru_Add_miss _ _ _ (find_of_not_mem h)]
  by_cases ho : overflows c
  · rw [if_pos ho]; unfold overflows at ho; rw [if_pos ho]
  · rw [if_neg ho]; unfold overflows at ho; rw [if_neg ho]

theorem Add_miss_snd (c : LoadableLRUCache K V E) (key : K) (h : key ∉ keys c) :
    (c.data.Add key c.next).2 =
      if overflows c then c.data.hook ((key, c.next) :: c.data.ll).getLast?.toList else [] := by
  rw [lru_Add_miss _ _ _ (find_of_not_mem h)]
  by_cases ho : overflows c
  · rw [if_pos ho]; unfold overflows at ho; rw [if_pos ho]
  · rw [if_neg ho]; unfold overflows at ho; rw [if_neg ho]


/-- A miss allocates a fresh entry, adds it, loads it, and on a failed load removes it
again. -/
theorem Get_miss (c : LoadableLRUCache K V E) (key : K) (h : key ∉ keys c) :
    Get c key = some ((
      (c.loader c.calls key).1, loadErr key (c.loader c.calls key)),
      if (loadErr key (c.loader c.calls key)).isNone then
        { c with
          data := (c.data.Add key c.next).1,
          heap := Function.update c.heap c.next (some {
            key := key, value := (c.loader c.calls key).1,
            err := loadErr key (c.loader c.calls key),
            status := Status.active, signal := true }),
          next := c.next + 1,
          calls := c.calls ++ [key],
          evicted := c.evicted ++ (c.data.Add key c.next).2.flatMap
            (notified (Function.update c.heap c.next (some (newEntry key)))) }
      else
        { c with
          data := { (c.data.Add key c.next).1 with
            ll := (c.data.Add key c.next).1.ll.filter (fun x => x.1 ≠ key) },
          heap := Function.update c.heap c.next (some {
            key := key, value := (c.loader c.calls key).1,
            err := loadErr key (c.loader c.calls key),
            status := Status.loading, signal := true }),
          next := c.next + 1,
          calls := c.calls ++ [key],
          evicted := c.evicted ++ (c.data.Add key c.next).2.flatMap
            (notified (Function.update c.heap c.next (some (newEntry key)))) ++
            ((c.data.Add key c.next).1.hook
              ((c.data.Add key c.next).1.ll.find? (fun kv => kv.1 = key)).toList).flatMap
              (notified (Function.update c.heap c.next (some {
                key := key, value := (c.loader c.calls key).1,
                err := loadErr key (c.loader c.calls key),
                status := Status.loading, signal := false }))) }) := by
  unfold Get
  rw [getEntry_miss c key (find_of_not_mem h)]
  rw [getOrLoad_invalid _ _ (newEntry key) (by simp) rfl rfl]
  simp [newEntry, Function.update_idem]

theorem notified_update_of_ne (heap : Ptr → Option (entry K V E)) (p : Ptr)
    (x : Option (entry K V E)) (kv : K × Ptr) (h : kv.2 ≠ p) :
    notified (Function.update heap p x) kv = notified heap kv := by
  simp [notified, Function.update_noteq h]

theorem flatMap_notified_update (heap : Ptr → Option (entry K V E)) (p : Ptr)
    (x : Option (entry K V E)) (l : List (K × Ptr)) (h : ∀ kv ∈ l, kv.2 ≠ p) :
    l.flatMap (notified (Function.update heap p x)) = l.flatMap (notified heap) := by
  induction l with
  | nil => rfl
  | cons a l ih =>
    simp only [List.flatMap_cons]
    rw [notified_update_of_ne _ _ _ _ (h a (List.mem_cons_self _ _)),
      ih (fun kv hkv => h kv (List.mem_cons_of_mem _ hkv))]

theorem overflowed_sub (c : LoadableLRUCache K V E) : overflowed c ⊆ c.data.ll := by
  unfold overflowed
  split
  · intro x hx
    simp only [Option.mem_toList, Option.mem_def] at hx
    exact List.mem_of_getLast?_eq_some hx
  · simp

theorem hook_nil {α : Type} (d : lru.Cache K α) : d.hook [] = [] := by
  simp [lru.Cache.hook]

/-- The `onEvicted` invocations made while a new key is added. -/
theorem Add_miss_notified (c : LoadableLRUCache K V E) (key : K) (hw : WF c)
    (h : key ∉ keys c) :
    (c.data.Add key c.next).2.flatMap
        (notified (Function.update c.heap c.next (some (newEntry key)))) =
      (c.data.hook (overflowed c)).flatMap (notified c.heap) := by
  rw [Add_miss_snd c key h]
  unfold overflowed
  by_cases ho : overflows c
  · rw [if_pos ho, if_pos ho]
    cases hl : c.data.ll with
    | nil =>
      simp only [List.getLast?_singleton, Option.toList_some, List.getLast?_nil,
        Option.toList_none, hook_nil, List.flatMap_nil]
      unfold lru.Cache.hook
      split <;> simp [notified, newEntry]
    | cons a l =>
      rw [List.getLast?_cons_cons]
      apply flatMap_notified_update
      intro kv hkv
      have h1 := lru.hook_sub _ _ hkv
      simp only [Option.mem_toList, Option.mem_def] at h1
      have h2 : kv ∈ c.data.ll := hl ▸ List.mem_of_getLast?_eq_some h1
      exact Nat.ne_of_lt (hw.alloc kv.1 kv.2 h2)
  · rw [if_neg ho, if_neg ho]
    simp [hook_nil]



theorem filter_key_eq_self {l : List (K × Ptr)} {key : K} (h : key ∉ l.map Prod.fst) :
    l.filter (fun x => x.1 ≠ key) = l :=
  lru.filter_ne_of_find_none (lru.find_none_iff.2 h)

theorem not_mem_keys_dropLast {l : List (K × Ptr)} {key : K} (h : key ∉ l.map Prod.fst) :
    key ∉ l.dropLast.map Prod.fst := fun hk =>
  h ((List.Sublist.map Prod.fst (List.dropLast_sublist l)).subset hk)

/-- The container after a new key was added and removed again. -/
theorem Add_miss_filter (c : LoadableLRUCache K V E) (key : K) (h : key ∉ keys c) :
    (c.data.Add key c.next).1.ll.filter (fun x => x.1 ≠ key) =
      if overflows c then c.data.ll.dropLast else c.data.ll := by
  rw [Add_miss_fst c key h]
  have h' : key ∉ c.data.ll.map Prod.fst := h
  by_cases ho : overflows c
  · simp only [if_pos ho]
    cases hl : c.data.ll with
    | nil => simp
    | cons a l =>
      rw [List.dropLast_cons₂, List.filter_cons_of_neg (by simp)]
      rw [← hl]
      exact filter_key_eq_self (not_mem_keys_dropLast h')
  · simp only [if_neg ho]
    rw [List.filter_cons_of_neg (by simp)]
    exact filter_key_eq_self h'

/-- Removing the entry of a failed load makes no `onEvicted` invocation. -/
theorem Add_miss_remove_notified (c : LoadableLRUCache K V E) (key : K) (h : key ∉ keys c)
    (v : Option V) (err : Option (error K E)) (sg : Bool) :
    ((c.data.Add key c.next).1.hook
      ((c.data.Add key c.next).1.ll.find? (fun kv => kv.1 = key)).toList).flatMap
      (notified (Function.update c.heap c.next (some {
        key := key, value := v, err := err, status := Status.loading, signal := sg }))) = [] := by
  rw [List.flatMap_eq_nil_iff]
  intro kv hkv
  have h1 := lru.hook_sub _ _ hkv
  simp only [Option.mem_toList, Option.mem_def] at h1
  have hk : kv.1 = key := by simpa using List.find?_some h1
  have hm := List.mem_of_find?_eq_some h1
  rw [Add_miss_fst c key h] at hm
  have hm2 : kv ∈ (key, c.next) :: c.data.ll := by
    by_cases ho : overflows c
    · simp only [if_pos ho] at hm
      exact (List.dropLast_sublist _).subset hm
    · simpa only [if_neg ho] using hm
  rcases List.mem_cons.1 hm2 with h2 | h2
  · subst h2
    simp [notified]
  · exact absurd (List.mem_map.2 ⟨kv, h2, hk⟩) h

/-- A miss whose load succeeds. -/
theorem Get_miss_ok (c : LoadableLRUCache K V E) (key : K) (hw : WF c) (h : key ∉ keys c)
    (hl : loadErr key (c.loader c.calls key) = none) :
    Get c key = some (((c.loader c.calls key).1, none),
      { c with
        data := { c.data with
          ll := if overflows c then ((key, c.next) :: c.data.ll).dropLast
                else (key, c.next) :: c.data.ll },
        heap := Function.update c.heap c.next (some {
          key := key, value := (c.loader c.calls key).1, err := none,
          status := Status.active, signal := true }),
        next := c.next + 1,
        calls := c.calls ++ [key],
        evicted := c.evicted ++ (c.data.hook (overflowed c)).flatMap (notified c.heap) }) := by
  rw [Get_miss c key h, Add_miss_notified c key hw h, Add_miss_fst c key h]
  simp [hl]

/-- A miss whose load fails. -/
theorem Get_miss_fail (c : LoadableLRUCache K V E) (key : K) (hw : WF c) (h : key ∉ keys c)
    (hl : loadErr key (c.loader c.calls key) ≠ none) :
    Get c key = some (((c.loader c.calls key).1, loadErr key (c.loader c.calls key)),
      { c with
        data := { c.data with ll := if overflows c then c.data.ll.dropLast else c.data.ll },
        heap := Function.update c.heap c.next (some {
          key := key, value := (c.loader c.calls key).1,
          err := loadErr key (c.loader c.calls key),
          status := Status.loading, signal := true }),
        next := c.next + 1,
        calls := c.calls ++ [key],
        evicted := c.evicted ++ (c.data.hook (overflowed c)).flatMap (notified c.heap) }) := by
  rw [Get_miss c key h, Add_miss_notified c key hw h, Add_miss_remove_notified c key h,
    Add_miss_filter c key h]
  have : (loadErr key (c.loader c.calls key)).isNone = false := by
    cases hh : loadErr key (c.loader c.calls key) with
    | none => exact absurd hh hl
    | some x => rfl
  simp [this, Add_miss_fst c key h]

/-! ## The invariant -/

theorem Inv_new (loader : Loader K V E) (maxEntries : Int) :
    Inv (NewLoadableLRUCache loader maxEntries) := by
  refine ⟨⟨?_, ?_, ?_⟩, ?_, ?_⟩ <;>
    simp [NewLoadableLRUCache, lru.New, keys, lru.Cache.keys, Len, lru.Cache.Len]
  intro h; exact Int.le_of_lt h

theorem Inv_newWithOnEvicted (loader : Loader K V E) (maxEntries : Int) :
    Inv (NewLoadableLRUCacheWithOnEvicted loader maxEntries) := by
  refine ⟨⟨?_, ?_, ?_⟩, ?_, ?_⟩ <;>
    simp [NewLoadableLRUCacheWithOnEvicted, keys, lru.Cache.keys, Len, lru.Cache.Len]
  intro h; exact Int.le_of_lt h

/-- The invariant survives every change that only drops or reorders items and leaves the
allocated entries alone. -/
theorem Inv.of_subset {c c1 : LoadableLRUCache K V E} (hi : Inv c)
    (hsub : c1.data.ll ⊆ c.data.ll) (hnd : (keys c1).Nodup)
    (hlen : c1.data.ll.length ≤ c.data.ll.length)
    (hheap : ∀ p, p < c.next → c1.heap p = c.heap p) (hnext : c.next ≤ c1.next)
    (hmax : c1.data.MaxEntries = c.data.MaxEntries) : Inv c1 := by
  refine ⟨⟨hnd, ?_, ?_⟩, ?_, ?_⟩
  · intro k p hm
    exact Nat.lt_of_lt_of_le (hi.wf.alloc k p (hsub hm)) hnext
  · intro k p hm
    rw [hheap p (hi.wf.alloc k p (hsub hm))]
    exact hi.wf.entry k p (hsub hm)
  · intro k p hm
    rw [hheap p (hi.wf.alloc k p (hsub hm))]
    exact hi.active k p (hsub hm)
  · intro hpos
    rw [hmax] at hpos
    have := hi.bound hpos
    rw [hmax]
    simp only [Len, lru.Cache.Len] at this ⊢
    omega

theorem nodup_keys_of_sublist {l l1 : List (K × Ptr)} (h : l1.Sublist l)
    (hn : (l.map Prod.fst).Nodup) : (l1.map Prod.fst).Nodup :=
  List.Nodup.sublist (List.Sublist.map Prod.fst h) hn

theorem Inv.of_sublist {c c1 : LoadableLRUCache K V E} (hi : Inv c)
    (hsub : c1.data.ll.Sublist c.data.ll)
    (hheap : ∀ p, p < c.next → c1.heap p = c.heap p) (hnext : c.next ≤ c1.next)
    (hmax : c1.data.MaxEntries = c.data.MaxEntries) : Inv c1 :=
  hi.of_subset hsub.subset (nodup_keys_of_sublist hsub hi.wf.nodup) hsub.length_le hheap hnext
    hmax

theorem Inv_Remove {c : LoadableLRUCache K V E} (hi : Inv c) (key : K) :
    Inv (Remove c key) := by
  apply hi.of_sublist <;> simp [Remove_eq]

theorem Inv_RemoveOldest {c : LoadableLRUCache K V E} (hi : Inv c) : Inv (RemoveOldest c) := by
  apply hi.of_sublist <;> simp [RemoveOldest_eq, List.dropLast_sublist]

theorem Inv_Clear {c : LoadableLRUCache K V E} (hi : Inv c) : Inv (Clear c) := by
  apply hi.of_sublist <;> simp [Clear_eq]

theorem Inv_removeOldestLoop (k : Nat) {c : LoadableLRUCache K V E} (hi : Inv c) :
    Inv (removeOldestLoop k c) := by
  induction k generalizing c with
  | zero => exact hi
  | succ k ih => exact ih (Inv_RemoveOldest hi)

/-- Moving a held key to the front keeps the number of items. -/
theorem length_move_front {l : List (K × Ptr)} {key : K} {p : Ptr}
    (hn : (l.map Prod.fst).Nodup) (hm : (key, p) ∈ l) :
    (l.filter (fun x => x.1 ≠ key)).length + 1 = l.length := by
  induction l with
  | nil => simp at hm
  | cons x l ih =>
    simp only [List.map_cons, List.nodup_cons] at hn
    by_cases hx : x.1 = key
    · have hnot : key ∉ l.map Prod.fst := hx ▸ hn.1
      rw [List.filter_cons_of_neg (by simpa using hx), filter_key_eq_self hnot]
      simp
    · rcases List.mem_cons.1 hm with h | h
      · subst h; simp at hx
      · rw [List.filter_cons_of_pos (by simpa using hx)]
        simp only [List.length_cons]
        rw [ih hn.2 h]

theorem Inv_Get_hit {c : LoadableLRUCache K V E} (hi : Inv c) {key : K} {p : Ptr}
    (hm : (key, p) ∈ c.data.ll) :
    Inv { c with data := { c.data with
      ll := (key, p) :: c.data.ll.filter (fun x => x.1 ≠ key) } } := by
  apply hi.of_subset
  · intro x hx
    rcases List.mem_cons.1 hx with h | h
    · exact h ▸ hm
    · exact (List.mem_filter.1 h).1
  · simp only [keys, lru.Cache.keys, List.map_cons, List.nodup_cons]
    refine ⟨?_, nodup_keys_of_sublist (List.filter_sublist _) hi.wf.nodup⟩
    intro hk
    obtain ⟨x, hx, hxk⟩ := List.mem_map.1 hk
    have := (List.mem_filter.1 hx).2
    simp at this
    exact this hxk
  · simp only [List.length_cons]
    exact Nat.le_of_eq (length_move_front hi.wf.nodup hm)
  · intro _ _; rfl
  · exact Nat.le_refl _
  · rfl

theorem loadErr_eq_none_iff (key : K) (r : Option V × Option E) :
    loadErr key r = none ↔ r.1.isSome = true ∧ r.2 = none := by
  unfold loadErr
  rcases r with ⟨_ | v, _ | e⟩ <;> simp

theorem overflow_list_sublist (c : LoadableLRUCache K V E) :
    (if overflows c then c.data.ll.dropLast else c.data.ll).Sublist c.data.ll := by
  split
  · exact List.dropLast_sublist _
  · exact List.Sublist.refl _

theorem Inv_Get_miss_fail {c : LoadableLRUCache K V E} (hi : Inv c)
    (x : Option (entry K V E)) (calls : List K) (ev : List (K × Option V)) :
    Inv { c with
      data := { c.data with ll := if overflows c then c.data.ll.dropLast else c.data.ll },
      heap := Function.update c.heap c.next x,
      next := c.next + 1, calls := calls, evicted := ev } := by
  apply hi.of_sublist
  · exact overflow_list_sublist c
  · intro p hp
    exact Function.update_noteq (Nat.ne_of_lt hp) _ _
  · exact Nat.le_succ _
  · rfl

theorem Inv_Get_miss_ok {c : LoadableLRUCache K V E} (hi : Inv c) (key : K)
    (h : key ∉ keys c) (v : Option V) (hv : v.isSome = true) (calls : List K)
    (ev : List (K × Option V)) :
    Inv { c with
      data := { c.data with
        ll := if overflows c then ((key, c.next) :: c.data.ll).dropLast
              else (key, c.next) :: c.data.ll },
      heap := Function.update c.heap c.next (some {
        key := key, value := v, err := none, status := Status.active, signal := true }),
      next := c.next + 1, calls := calls, evicted := ev } := by
  have hsub : (if overflows c then ((key, c.next) :: c.data.ll).dropLast
      else (key, c.next) :: c.data.ll).Sublist ((key, c.next) :: c.data.ll) := by
    split
    · exact List.dropLast_sublist _
    · exact List.Sublist.refl _
  have hnd : (((key, c.next) :: c.data.ll).map Prod.fst).Nodup := by
    simp only [List.map_cons, List.nodup_cons]
    exact ⟨h, hi.wf.nodup⟩
  have hmem : ∀ k p, (k, p) ∈ (if overflows c then ((key, c.next) :: c.data.ll).dropLast
      else (key, c.next) :: c.data.ll) → (k = key ∧ p = c.next) ∨ (k, p) ∈ c.data.ll := by
    intro k p hm
    rcases List.mem_cons.1 (hsub.subset hm) with h1 | h1
    · left; simpa using h1
    · right; exact h1
  refine ⟨⟨nodup_keys_of_sublist hsub hnd, ?_, ?_⟩, ?_, ?_⟩
  · intro k p hm
    rcases hmem k p hm with ⟨_, h1⟩ | h1
    · simp [h1]
    · exact Nat.lt_succ_of_lt (hi.wf.alloc k p h1)
  · intro k p hm
    rcases hmem k p hm with ⟨h0, h1⟩ | h1
    · subst h0 h1; simp
    · simp only [Function.update_noteq (Nat.ne_of_lt (hi.wf.alloc k p h1))]
      exact hi.wf.entry k p h1
  · intro k p hm
    rcases hmem k p hm with ⟨h0, h1⟩ | h1
    · subst h0 h1; simp [hv]
    · simp only [Function.update_noteq (Nat.ne_of_lt (hi.wf.alloc k p h1))]
      exact hi.active k p h1
  · intro hpos
    simp only [Len, lru.Cache.Len] at *
    by_cases ho : overflows c
    · simp only [if_pos ho, List.length_dropLast, List.length_cons, Nat.add_sub_cancel]
      exact hi.bound hpos
    · simp only [if_neg ho, List.length_cons]
      unfold overflows at ho
      simp only [not_and_or, not_not] at ho
      rcases ho with ho | ho
      · omega
      · push_cast at ho ⊢; omega

/-- On a state satisfying the invariant `Get` returns, and the state it leaves satisfies
the invariant. -/
theorem Inv_Get {c : LoadableLRUCache K V E} (hi : Inv c) (key : K) :
    ∃ r c1, Get c key = some (r, c1) ∧ Inv c1 := by
  by_cases hk : key ∈ keys c
  · obtain ⟨⟨k, p⟩, hm, hkp⟩ := List.mem_map.1 hk
    simp only at hkp
    subst hkp
    obtain ⟨e, he, hs, _, _⟩ := hi.active k p hm
    exact ⟨_, _, Get_hit c k p e hi.wf.nodup hm he hs, Inv_Get_hit hi hm⟩
  · by_cases hl : loadErr key (c.loader c.calls key) = none
    · refine ⟨_, _, Get_miss_ok c key hi.wf hk hl, ?_⟩
      exact Inv_Get_miss_ok hi key hk _ ((loadErr_eq_none_iff _ _).1 hl).1 _ _
    · exact ⟨_, _, Get_miss_fail c key hi.wf hk hl, Inv_Get_miss_fail hi _ _ _⟩

theorem Inv_step {c c1 : LoadableLRUCache K V E} (hi : Inv c) (op : Op K)
    (h : step c op = some c1) : Inv c1 := by
  cases op with
  | Get key =>
    obtain ⟨r, c2, hg, hi2⟩ := Inv_Get hi key
    simp only [step, hg, Option.map_some', Option.some.injEq] at h
    exact h ▸ hi2
  | Remove key => simp only [step, Option.some.injEq] at h; exact h ▸ Inv_Remove hi key
  | RemoveOldest => simp only [step, Option.some.injEq] at h; exact h ▸ Inv_RemoveOldest hi
  | RemoveOldestN n =>
    simp only [step, Option.some.injEq] at h
    exact h ▸ Inv_removeOldestLoop _ hi
  | Clear => simp only [step, Option.some.injEq] at h; exact h ▸ Inv_Clear hi

/-- Every call returns on a state satisfying the invariant. -/
theorem step_total {c : LoadableLRUCache K V E} (hi : Inv c) (op : Op K) :
    ∃ c1, step c op = some c1 := by
  cases op with
  | Get key =>
    obtain ⟨r, c2, hg, _⟩ := Inv_Get hi key
    exact ⟨c2, by simp [step, hg]⟩
  | Remove key => exact ⟨_, rfl⟩
  | RemoveOldest => exact ⟨_, rfl⟩
  | RemoveOldestN n => exact ⟨_, rfl⟩
  | Clear => exact ⟨_, rfl⟩

theorem Reachable.inv {c : LoadableLRUCache K V E} (h : Reachable c) : Inv c := by
  induction h with
  | new loader m => exact Inv_new loader m
  | newWithOnEvicted loader m => exact Inv_newWithOnEvicted loader m
  | step op _ hs ih => exact Inv_step ih op hs

theorem Inv_run {c c1 : LoadableLRUCache K V E} (hi : Inv c) (ops : List (Op K))
    (h : run c ops = some c1) : Inv c1 := by
  induction ops generalizing c with
  | nil => simp only [run, Option.some.injEq] at h; exact h ▸ hi
  | cons op ops ih =>
    obtain ⟨c2, h2⟩ := step_total hi op
    simp only [run, h2, Option.some_bind] at h
    exact ih (Inv_step hi op h2) h

theorem run_total {c : LoadableLRUCache K V E} (hi : Inv c) (ops : List (Op K)) :
    ∃ c1, run c ops = some c1 := by
  induction ops generalizing c with
  | nil => exact ⟨c, rfl⟩
  | cons op ops ih =>
    obtain ⟨c2, h2⟩ := step_total hi op
    obtain ⟨c3, h3⟩ := ih (Inv_step hi op h2)
    exact ⟨c3, by simp [run, h2, h3]⟩

theorem Reachable.run {c c1 : LoadableLRUCache K V E} (hr : Reachable c) (ops : List (Op K))
    (h : run c ops = some c1) : Reachable c1 := by
  induction ops generalizing c with
  | nil => simp only [cache.run, Option.some.injEq] at h; exact h ▸ hr
  | cons op ops ih =>
    obtain ⟨c2, h2⟩ := step_total hr.inv op
    simp only [cache.run, h2, Option.some_bind] at h
    exact ih (Reachable.step op hr h2) h

/-! ## Sequences of calls -/

theorem run_append (c : LoadableLRUCache K V E) (a b : List (Op K)) :
    run c (a ++ b) = (run c a).bind fun c1 => run c1 b := by
  induction a generalizing c with
  | nil => simp [run]
  | cons op a ih =>
    simp only [List.cons_append, run]
    cases step c op with
    | none => simp
    | some c1 => simp [ih]

theorem run_Get_of_eq {c c1 : LoadableLRUCache K V E} {key : K}
    {r : Option V × Option (error K E)} (h : Get c key = some (r, c1)) :
    run c [Op.Get key] = some c1 := by
  simp [run, step, h]

/-- Successive misses on distinct keys with a succeeding loader, while the capacity is
not exceeded: the keys are pushed to the front one after the other and nothing is
evicted. -/
theorem run_Get_fill (ks : List K) (c : LoadableLRUCache K V E) (hi : Inv c)
    (hnd : ks.Nodup) (hdis : ∀ k ∈ ks, k ∉ keys c)
    (hcap : ((c.data.ll.length + ks.length : Nat) : Int) ≤ c.data.MaxEntries)
    (hload : ∀ h k, loadErr k (c.loader h k) = none) :
    ∃ c1, run c (ks.map Op.Get) = some c1 ∧ Inv c1 ∧ keys c1 = ks.reverse ++ keys c ∧
      c1.evicted = c.evicted ∧ c1.data.MaxEntries = c.data.MaxEntries ∧
      c1.data.OnEvicted = c.data.OnEvicted ∧ c1.loader = c.loader ∧
      c1.calls = c.calls ++ ks ∧
      (∀ p, p < c.next → c1.heap p = c.heap p) ∧
      (∀ x, c.data.ll.getLast? = some x → c1.data.ll.getLast? = some x) := by
  induction ks generalizing c with
  | nil => exact ⟨c, rfl, hi, by simp, rfl, rfl, rfl, rfl, by simp, fun _ _ => rfl, fun _ h => h⟩
  | cons k ks ih =>
    have hk : k ∉ keys c := hdis k (List.mem_cons_self _ _)
    have hno : ¬ overflows c := by
      unfold overflows
      simp only [List.length_cons] at hcap
      intro ⟨_, h2⟩
      push_cast at hcap h2
      omega
    have hg := Get_miss_ok c k hi.wf hk (hload _ _)
    have hi1 := Inv_Get_miss_ok hi k hk (c.loader c.calls k).1
      ((loadErr_eq_none_iff _ _).1 (hload _ _)).1 (c.calls ++ [k])
      (c.evicted ++ (c.data.hook (overflowed c)).flatMap (notified c.heap))
    simp only [if_neg hno] at hg hi1
    simp only [List.nodup_cons] at hnd
    obtain ⟨c2, hr, hi2, hkeys, hev, hmax, hon, hld, hcalls, hheap, hlast⟩ := ih _ hi1 hnd.2
      (by
        intro k1 hk1
        simp only [keys, lru.Cache.keys, List.map_cons, List.mem_cons, not_or]
        exact ⟨fun h => hnd.1 (h ▸ hk1), hdis k1 (List.mem_cons_of_mem _ hk1)⟩)
      (by simp only [List.length_cons] at hcap ⊢; push_cast at hcap ⊢; omega)
      hload
    refine ⟨c2, ?_, hi2, ?_, ?_, hmax, hon, hld, ?_, ?_, ?_⟩
    · simp only [List.map_cons, run, step, hg, Option.map_some', Option.some_bind]
      exact hr
    · rw [hkeys]
      simp [keys, lru.Cache.keys]
    · rw [hev]
      simp [overflowed, if_neg hno, hook_nil]
    · rw [hcalls]; simp
    · intro p hp
      rw [hheap p (Nat.lt_succ_of_lt hp)]
      exact Function.update_noteq (Nat.ne_of_lt hp) _ _
    · intro x hx
      apply hlast
      simp only
      cases hl : c.data.ll with
      | nil => rw [hl] at hx; simp at hx
      | cons a l => rw [List.getLast?_cons_cons, ← hl]; exact hx



/-- A miss whose load succeeds, field by field. -/
theorem Get_miss_ok_fields (c : LoadableLRUCache K V E) (key : K) (hw : WF c)
    (h : key ∉ keys c) (hl : loadErr key (c.loader c.calls key) = none) :
    ∃ c1, Get c key = some (((c.loader c.calls key).1, none), c1) ∧
      c1.data.ll = (if overflows c then ((key, c.next) :: c.data.ll).dropLast
                    else (key, c.next) :: c.data.ll) ∧
      c1.data.MaxEntries = c.data.MaxEntries ∧ c1.data.OnEvicted = c.data.OnEvicted ∧
      c1.loader = c.loader ∧
      c1.heap = Function.update c.heap c.next (some {
          key := key, value := (c.loader c.calls key).1, err := none,
          status := Status.active, signal := true }) ∧
      c1.next = c.next + 1 ∧ c1.calls = c.calls ++ [key] ∧
      c1.evicted = c.evicted ++ (c.data.hook (overflowed c)).flatMap (notified c.heap) :=
  ⟨_, Get_miss_ok c key hw h hl, rfl, rfl, rfl, rfl, rfl, rfl, rfl, rfl⟩

/-- A miss whose load fails, field by field. -/
theorem Get_miss_fail_fields (c : LoadableLRUCache K V E) (key : K) (hw : WF c)
    (h : key ∉ keys c) (hl : loadErr key (c.loader c.calls key) ≠ none) :
    ∃ c1, Get c key =
        some (((c.loader c.calls key).1, loadErr key (c.loader c.calls key)), c1) ∧
      c1.data.ll = (if overflows c then c.data.ll.dropLast else c.data.ll) ∧
      c1.data.MaxEntries = c.data.MaxEntries ∧ c1.data.OnEvicted = c.data.OnEvicted ∧
      c1.loader = c.loader ∧
      c1.heap = Function.update c.heap c.next (some {
          key := key, value := (c.loader c.calls key).1,
          err := loadErr key (c.loader c.calls key),
          status := Status.loading, signal := true }) ∧
      c1.next = c.next + 1 ∧ c1.calls = c.calls ++ [key] ∧
      c1.evicted = c.evicted ++ (c.data.hook (overflowed c)).flatMap (notified c.heap) :=
  ⟨_, Get_miss_fail c key hw h hl, rfl, rfl, rfl, rfl, rfl, rfl, rfl, rfl⟩

/-- A hit in a state satisfying the invariant, field by field. -/
theorem Get_hit_fields (c : LoadableLRUCache K V E) (key : K) (p : Ptr) (hi : Inv c)
    (hm : (key, p) ∈ c.data.ll) :
    ∃ e c1, c.heap p = some e ∧ e.value.isSome = true ∧
      Get c key = some ((e.value, none), c1) ∧
      c1.data.ll = (key, p) :: c.data.ll.filter (fun x => x.1 ≠ key) ∧
      c1.data.MaxEntries = c.data.MaxEntries ∧ c1.data.OnEvicted = c.data.OnEvicted ∧
      c1.loader = c.loader ∧ c1.heap = c.heap ∧ c1.next = c.next ∧ c1.calls = c.calls ∧
      c1.evicted = c.evicted := by
  obtain ⟨e, he, hs, hv, herr⟩ := hi.active key p hm
  refine ⟨e, { c with data := { c.data with
      ll := (key, p) :: c.data.ll.filter (fun x => x.1 ≠ key) } },
    he, hv, ?_, rfl, rfl, rfl, rfl, rfl, rfl, rfl, rfl⟩
  rw [Get_hit c key p e hi.wf.nodup hm he hs, herr]

theorem loadErr_ok (key : K) (v : V) :
    loadErr key ((some v, none) : Option V × Option E) = none := by
  simp [loadErr]

/-- C1: with capacity `M ≥ 1`, a loader that always succeeds with a non-nil value and
`M + 1` distinct keys `k1 :: rest`, calling `Get` on them in order on a fresh cache built
by `NewLoadableLRUCacheWithOnEvicted` returns every time, leaves exactly the keys of
`rest` in the cache (most recent first), and `onEvicted` has been invoked exactly once,
with `k1` and the value loaded for `k1`. -/
theorem C1_overflow_evicts_first (M : Nat) (hM : 1 ≤ M) (loader : Loader K V E)
    (hload : ∀ h k, ∃ v, loader h k = (some v, none))
    (k1 : K) (rest : List K) (hlen : rest.length = M) (hnd : (k1 :: rest).Nodup) :
    ∃ c, run (NewLoadableLRUCacheWithOnEvicted loader (M : Int)) ((k1 :: rest).map Op.Get)
        = some c ∧
      keys c = rest.reverse ∧ (∀ k, k ∈ keys c ↔ k ∈ rest) ∧
      c.evicted = [(k1, (loader [] k1).1)] := by
  have hle : ∀ h k, loadErr k (loader h k) = none := by
    intro h k
    obtain ⟨v, hv⟩ := hload h k
    rw [hv]; exact loadErr_ok k v
  -- the first key
  have hi0 := Inv_newWithOnEvicted loader (M : Int)
  have hno : ¬ overflows (NewLoadableLRUCacheWithOnEvicted loader (M : Int)) := by
    unfold overflows
    simp only [NewLoadableLRUCacheWithOnEvicted, List.length_nil]
    intro ⟨_, h2⟩
    push_cast at h2
    omega
  obtain ⟨c1, hg1, hll1, hmax1, hon1, hld1, hheap1, hnext1, -, hev1⟩ :=
    Get_miss_ok_fields (NewLoadableLRUCacheWithOnEvicted loader (M : Int)) k1 hi0.wf
      (by simp [NewLoadableLRUCacheWithOnEvicted, keys, lru.Cache.keys]) (hle _ _)
  have hi1 : Inv c1 := Inv_step hi0 (Op.Get k1) (by simp [step, hg1])
  rw [if_neg hno] at hll1
  simp only [overflowed, if_neg hno, hook_nil, List.flatMap_nil, List.append_nil] at hev1
  simp only [NewLoadableLRUCacheWithOnEvicted] at hll1 hmax1 hon1 hld1 hheap1 hnext1 hev1
  -- the keys in the middle
  obtain ⟨mid, kl, hrest⟩ : ∃ mid kl, rest = mid ++ [kl] := by
    rcases List.eq_nil_or_concat rest with h | ⟨mid, kl, h⟩
    · subst h; simp at hlen; omega
    · exact ⟨mid, kl, by simpa using h⟩
  subst hrest
  simp only [List.length_append, List.length_singleton] at hlen
  have hk1 : k1 ∉ mid ++ [kl] := (List.nodup_cons.1 hnd).1
  have hk1mid : k1 ∉ mid := fun h => hk1 (List.mem_append_left _ h)
  have hk1kl : k1 ≠ kl := fun h => hk1 (List.mem_append_right _ (by simp [h]))
  have hmidnd : mid.Nodup := (List.nodup_append.1 (List.nodup_cons.1 hnd).2).1
  have hklmid : kl ∉ mid := fun h =>
    (List.nodup_append.1 (List.nodup_cons.1 hnd).2).2.2 h (List.mem_singleton_self _)
  clear hnd hk1
  obtain ⟨c2, hr2, hi2, hkeys2, hev2, hmax2, hon2, hld2, -, hheap2, hlast2⟩ :=
    run_Get_fill mid c1 hi1 hmidnd
      (by
        intro k hk
        simp only [keys, lru.Cache.keys, hll1, List.map_cons, List.map_nil,
          List.mem_singleton]
        exact fun h => hk1mid (h ▸ hk))
      (by rw [hll1, hmax1]; simp only [List.length_singleton]; push_cast; omega)
      (by rw [hld1]; exact hle)
  -- the last key
  have hkeys1 : keys c1 = [k1] := by simp [keys, lru.Cache.keys, hll1]
  rw [hkeys1] at hkeys2
  have hkl : kl ∉ keys c2 := by
    rw [hkeys2]
    simp only [List.mem_append, List.mem_reverse, List.mem_singleton, not_or]
    exact ⟨hklmid, fun h => hk1kl h.symm⟩
  have hlen2 : c2.data.ll.length = M := by
    have := congrArg List.length hkeys2
    simp only [keys, lru.Cache.keys, List.length_map, List.length_append,
      List.length_reverse, List.length_singleton] at this
    omega
  have hov : overflows c2 := by
    unfold overflows
    rw [hmax2, hmax1, hlen2]
    constructor
    · exact_mod_cast Nat.pos_iff_ne_zero.1 hM
    · push_cast; omega
  have hl2 : c2.data.ll.getLast? = some (k1, 0) := hlast2 _ (by rw [hll1]; rfl)
  obtain ⟨c3, hg3, hll3, -, -, -, -, -, -, hev3⟩ :=
    Get_miss_ok_fields c2 kl hi2.wf hkl (by rw [hld2, hld1]; exact hle _ _)
  rw [if_pos hov] at hll3
  have hkeys3 : keys c3 = (mid ++ [kl]).reverse := by
    have hne : c2.data.ll ≠ [] := by
      intro h; rw [h] at hl2; simp at hl2
    have hd : (c2.data.ll.dropLast).map Prod.fst = mid.reverse := by
      have h1 : c2.data.ll.dropLast ++ [(k1, 0)] = c2.data.ll :=
        List.dropLast_append_getLast? _ hl2
      have h2 := congrArg (List.map Prod.fst) h1
      simp only [List.map_append, List.map_cons, List.map_nil] at h2
      have h3 : (c2.data.ll).map Prod.fst = mid.reverse ++ [k1] := hkeys2
      rw [h3] at h2
      exact List.append_cancel_right h2
    obtain ⟨a, l, hal⟩ := List.exists_cons_of_ne_nil hne
    simp only [keys, lru.Cache.keys, hll3]
    rw [hal, List.dropLast_cons₂, List.map_cons, ← hal, hd]
    simp
  refine ⟨c3, ?_, hkeys3, ?_, ?_⟩
  · have hs1 : step (NewLoadableLRUCacheWithOnEvicted loader (M : Int)) (Op.Get k1) =
        some c1 := by
      simp [step, hg1]
    rw [List.map_cons, run, hs1, Option.some_bind, List.map_append, run_append, hr2,
      Option.some_bind]
    exact run_Get_of_eq hg3
  · intro k; rw [hkeys3]; exact List.mem_reverse
  · rw [hev3, hev2, hev1]
    simp only [overflowed, if_pos hov, hl2, Option.toList_some, lru.Cache.hook, hon2, hon1,
      if_true, List.flatMap_cons, List.flatMap_nil, List.append_nil, List.nil_append]
    have h0 : c2.heap 0 = some {
        key := k1, value := (loader [] k1).1, err := none,
        status := Status.active, signal := true } := by
      rw [hheap2 0 (by rw [hnext1]; exact Nat.zero_lt_one), hheap1]
      simp
    simp [notified, h0]

theorem C1_overflow_evicts_first_witness :
    1 ≤ 2 ∧ ["b", "c"].length = 2 ∧ ("a" :: ["b", "c"]).Nodup ∧
    ∃ c, run (NewLoadableLRUCacheWithOnEvicted
          (fun _ k => (some ("value of " ++ k), none) : Loader String String String)
          ((2 : Nat) : Int)) (("a" :: ["b", "c"]).map Op.Get) = some c ∧
      keys c = ["b", "c"].reverse ∧ (∀ k, k ∈ keys c ↔ k ∈ ["b", "c"]) ∧
      c.evicted = [("a", some "value of a")] :=
  ⟨by decide, rfl, by decide,
    C1_overflow_evicts_first 2 (by decide) _ (fun _ k => ⟨"value of " ++ k, rfl⟩) "a"
      ["b", "c"] rfl (by decide)⟩


theorem removeOldestLoop_frame (k : Nat) (c : LoadableLRUCache K V E) :
    (removeOldestLoop k c).heap = c.heap ∧ (removeOldestLoop k c).next = c.next ∧
      (removeOldestLoop k c).calls = c.calls ∧ (removeOldestLoop k c).loader = c.loader ∧
      (removeOldestLoop k c).data.MaxEntries = c.data.MaxEntries ∧
      (removeOldestLoop k c).data.OnEvicted = c.data.OnEvicted := by
  induction k generalizing c with
  | zero => exact ⟨rfl, rfl, rfl, rfl, rfl, rfl⟩
  | succ k ih =>
    obtain ⟨h1, h2, h3, h4, h5, h6⟩ := ih (RemoveOldest c)
    simp only [removeOldestLoop]
    rw [h1, h2, h3, h4, h5, h6, RemoveOldest_eq]
    exact ⟨rfl, rfl, rfl, rfl, rfl, rfl⟩

/-- A call leaves the entries allocated before it as they are (in a sequential run every
entry held is `active` already), and never frees a pointer. -/
theorem step_heap_stable {c c1 : LoadableLRUCache K V E} (hi : Inv c) (op : Op K)
    (h : step c op = some c1) :
    (∀ p, p < c.next → c1.heap p = c.heap p) ∧ c.next ≤ c1.next := by
  cases op with
  | Get key =>
    by_cases hk : key ∈ keys c
    · obtain ⟨⟨k, p⟩, hm, hkp⟩ := List.mem_map.1 hk
      simp only at hkp
      subst hkp
      obtain ⟨e, c2, _, _, hg, _, _, _, _, hheap, hnext, _, _⟩ := Get_hit_fields c k p hi hm
      simp only [step, hg, Option.map_some', Option.some.injEq] at h
      subst h
      exact ⟨fun p _ => by rw [hheap], Nat.le_of_eq hnext.symm⟩
    · by_cases hl : loadErr key (c.loader c.calls key) = none
      · obtain ⟨c2, hg, _, _, _, _, hheap, hnext, _, _⟩ := Get_miss_ok_fields c key hi.wf hk hl
        simp only [step, hg, Option.map_some', Option.some.injEq] at h
        subst h
        exact ⟨fun p hp => by rw [hheap, Function.update_noteq (Nat.ne_of_lt hp)],
          by rw [hnext]; exact Nat.le_succ _⟩
      · obtain ⟨c2, hg, _, _, _, _, hheap, hnext, _, _⟩ :=
          Get_miss_fail_fields c key hi.wf hk hl
        simp only [step, hg, Option.map_some', Option.some.injEq] at h
        subst h
        exact ⟨fun p hp => by rw [hheap, Function.update_noteq (Nat.ne_of_lt hp)],
          by rw [hnext]; exact Nat.le_succ _⟩
  | Remove key =>
    simp only [step, Option.some.injEq] at h; subst h
    simp [Remove_eq]
  | RemoveOldest =>
    simp only [step, Option.some.injEq] at h; subst h
    simp [RemoveOldest_eq]
  | RemoveOldestN n =>
    simp only [step, Option.some.injEq] at h; subst h
    obtain ⟨h1, h2, _⟩ := removeOldestLoop_frame n.toNat c
    simp [RemoveOldestN, h1, h2]
  | Clear =>
    simp only [step, Option.some.injEq] at h; subst h
    simp [Clear_eq]

theorem run_heap_stable {c c1 : LoadableLRUCache K V E} (hi : Inv c) (ops : List (Op K))
    (h : run c ops = some c1) :
    (∀ p, p < c.next → c1.heap p = c.heap p) ∧ c.next ≤ c1.next := by
  induction ops generalizing c with
  | nil =>
    simp only [run, Option.some.injEq] at h; subst h
    exact ⟨fun _ _ => rfl, Nat.le_refl _⟩
  | cons op ops ih =>
    obtain ⟨c2, h2⟩ := step_total hi op
    simp only [run, h2, Option.some_bind] at h
    obtain ⟨ha, hb⟩ := step_heap_stable hi op h2
    obtain ⟨hc, hd⟩ := ih (Inv_step hi op h2) h
    exact ⟨fun p hp => by rw [hc p (Nat.lt_of_lt_of_le hp hb), ha p hp], Nat.le_trans hb hd⟩

/-- The value `Get` returns is the value of the entry the key has in the cache
afterwards, when it has one. -/
theorem Get_value_at {c c1 : LoadableLRUCache K V E} (hi : Inv c) {key : K}
    {r : Option V × Option (error K E)} (h : Get c key = some (r, c1)) {p : Ptr}
    (hp : (key, p) ∈ c1.data.ll) : ∃ e, c1.heap p = some e ∧ e.value = r.1 := by
  have hi1 : Inv c1 := Inv_step hi (Op.Get key) (by simp [step, h])
  by_cases hk : key ∈ keys c
  · obtain ⟨⟨k, p0⟩, hm, hkp⟩ := List.mem_map.1 hk
    simp only at hkp
    subst hkp
    obtain ⟨e, c2, he, _, hg, hll, _, _, _, hheap, _, _, _⟩ := Get_hit_fields c k p0 hi hm
    rw [hg] at h
    simp only [Option.some.injEq, Prod.mk.injEq] at h
    obtain ⟨hr, hc⟩ := h
    subst hc hr
    have hf1 := find_of_mem hi1.wf.nodup hp
    have hf2 := find_of_mem hi1.wf.nodup (show (k, p0) ∈ c2.data.ll by rw [hll]; simp)
    rw [hf1] at hf2
    simp only [Option.some.injEq, Prod.mk.injEq, true_and] at hf2
    subst hf2
    exact ⟨e, by rw [hheap]; exact he, rfl⟩
  · have hnext : ∀ ll : List (K × Ptr), ll.Sublist ((key, c.next) :: c.data.ll) →
        (key, p) ∈ ll → p = c.next := by
      intro ll hs hm
      rcases List.mem_cons.1 (hs.subset hm) with h1 | h1
      · simpa using h1
      · exact absurd (List.mem_map.2 ⟨(key, p), h1, rfl⟩) hk
    by_cases hl : loadErr key (c.loader c.calls key) = none
    · obtain ⟨c2, hg, hll, _, _, _, hheap, _, _, _⟩ := Get_miss_ok_fields c key hi.wf hk hl
      rw [hg] at h
      simp only [Option.some.injEq, Prod.mk.injEq] at h
      obtain ⟨hr, hc⟩ := h
      subst hc hr
      have : p = c.next := by
        apply hnext _ _ hp
        rw [hll]; split
        · exact List.dropLast_sublist _
        · exact List.Sublist.refl _
      subst this
      exact ⟨_, by rw [hheap, Function.update_same], rfl⟩
    · obtain ⟨c2, hg, hll, _, _, _, hheap, _, _, _⟩ := Get_miss_fail_fields c key hi.wf hk hl
      rw [hg] at h
      simp only [Option.some.injEq, Prod.mk.injEq] at h
      obtain ⟨hr, hc⟩ := h
      subst hc
      exfalso
      apply hk
      have hs := overflow_list_sublist c
      rw [← hll] at hs
      exact List.mem_map.2 ⟨(key, p), hs.subset hp, rfl⟩

/-- C3: in a sequential run, once `Get(K)` has returned `(V, nil)`, any later `Get(K)`
issued while the entry of `K` (the same entry object, at pointer `p`) is still in the
cache returns `(V, nil)` and does not invoke the loader. -/
theorem C3_cached_value_is_returned (c0 : LoadableLRUCache K V E) (hr : Reachable c0)
    (key : K) (v : V) (c1 : LoadableLRUCache K V E)
    (hg : Get c0 key = some ((some v, none), c1)) (p : Ptr) (hp : (key, p) ∈ c1.data.ll)
    (ops : List (Op K)) (c2 : LoadableLRUCache K V E) (hrun : run c1 ops = some c2)
    (hstill : (key, p) ∈ c2.data.ll) :
    ∃ c3, Get c2 key = some ((some v, none), c3) ∧ c3.calls = c2.calls := by
  have hi0 := hr.inv
  have hi1 : Inv c1 := Inv_step hi0 (Op.Get key) (by simp [step, hg])
  have hi2 : Inv c2 := Inv_run hi1 ops hrun
  obtain ⟨e, he, hv⟩ := Get_value_at hi0 hg hp
  obtain ⟨e2, c3, he2, _, hg2, _, _, _, _, _, _, hcalls, _⟩ := Get_hit_fields c2 key p hi2 hstill
  have hsame := (run_heap_stable hi1 ops hrun).1 p (hi1.wf.alloc key p hp)
  rw [he, he2] at hsame
  simp only [Option.some.injEq] at hsame
  subst hsame
  exact ⟨c3, by rw [hg2, hv], hcalls⟩

theorem exCache0_reachable : Reachable exCache0 := Reachable.newWithOnEvicted exLoader 2

theorem exCache1_reachable : Reachable exCache1 :=
  Reachable.step (Op.Get "a") exCache0_reachable rfl

theorem exCache2_reachable : Reachable exCache2 :=
  Reachable.run exCache1_reachable [Op.Get "b", Op.Get "a"] rfl

/-- Instance of C3 on the run `Get("a")`, `Get("b")`, `Get("a")`, `Get("a")`. -/
theorem C3_cached_value_is_returned_witness :
    Reachable exCache0 ∧
    Get exCache0 "a" = some ((some "value of a", none), exCache1) ∧
    ("a", 0) ∈ exCache1.data.ll ∧
    run exCache1 [Op.Get "b", Op.Get "a"] = some exCache2 ∧
    ("a", 0) ∈ exCache2.data.ll ∧
    ∃ c3, Get exCache2 "a" = some ((some "value of a", none), c3) ∧
      c3.calls = exCache2.calls :=
  ⟨exCache0_reachable, rfl, by decide, rfl, by decide,
    C3_cached_value_is_returned exCache0 exCache0_reachable "a" "value of a" exCache1 rfl 0
      (by decide) [Op.Get "b", Op.Get "a"] exCache2 rfl (by decide)⟩

/-! ## Claims on loading -/

theorem not_mem_keys_of_sublist {l l1 : List (K × Ptr)} {key : K} (hs : l1.Sublist l)
    (h : key ∉ l.map Prod.fst) : key ∉ l1.map Prod.fst := fun hk =>
  h ((List.Sublist.map Prod.fst hs).subset hk)

/-- A miss whose load fails leaves the key out of the cache, in a state satisfying the
invariant, with the same loader and one more loader call. -/
theorem Get_miss_fail_after (c : LoadableLRUCache K V E) (key : K) (hi : Inv c)
    (h : key ∉ keys c) (hl : loadErr key (c.loader c.calls key) ≠ none) :
    ∃ c1, Get c key =
        some (((c.loader c.calls key).1, loadErr key (c.loader c.calls key)), c1) ∧
      Inv c1 ∧ key ∉ keys c1 ∧ c1.loader = c.loader ∧ c1.calls = c.calls ++ [key] := by
  obtain ⟨c1, hg, hll, _, _, hld, _, _, hcalls, _⟩ := Get_miss_fail_fields c key hi.wf h hl
  refine ⟨c1, hg, Inv_step hi (Op.Get key) (by simp [step, hg]), ?_, hld, hcalls⟩
  have hs := overflow_list_sublist c
  rw [← hll] at hs
  exact not_mem_keys_of_sublist hs h

/-- C4: in a sequential run, on a key `K` the cache does not hold (so that `Get(K)`
invokes the loader), if the loader returns `(nil, nil)` then `Get(K)` returns a non-nil
error (the one built by `fmt.Errorf`); and if the loader succeeds with a non-nil value on
its next call, the following `Get(K)` returns that value and a nil error. -/
theorem C4_nil_value_is_an_error_and_retryable (c : LoadableLRUCache K V E)
    (hr : Reachable c) (key : K) (hk : key ∉ keys c)
    (hnil : c.loader c.calls key = (none, none)) :
    ∃ err c1, Get c key = some ((none, some err), c1) ∧
      ∀ v, c.loader (c.calls ++ [key]) key = (some v, none) →
        ∃ c2, Get c1 key = some ((some v, none), c2) := by
  have hl : loadErr key (c.loader c.calls key) = some (error.errorf key) := by
    rw [hnil]; simp [loadErr]
  obtain ⟨c1, hg, hi1, hk1, hld, hcalls⟩ :=
    Get_miss_fail_after c key hr.inv hk (by rw [hl]; simp)
  rw [hl, hnil] at hg
  refine ⟨error.errorf key, c1, hg, ?_⟩
  intro v hv
  have hl1 : loadErr key (c1.loader c1.calls key) = none := by
    rw [hld, hcalls, hv]; exact loadErr_ok key v
  obtain ⟨c2, hg2, _⟩ := Get_miss_ok_fields c1 key hi1.wf hk1 hl1
  rw [hld, hcalls, hv] at hg2
  exact ⟨c2, hg2⟩

/-- C5: in a sequential run, on a key `K` the cache does not hold (so that `Get(K)`
invokes the loader), if the loader returns an error then after `Get(K)` has returned the
cache holds no entry for `K`, and a subsequent `Get(K)` invokes the loader again. -/
theorem C5_no_negative_caching (c : LoadableLRUCache K V E) (hr : Reachable c) (key : K)
    (hk : key ∉ keys c) (v : Option V) (e : E) (herr : c.loader c.calls key = (v, some e)) :
    ∃ r c1, Get c key = some (r, c1) ∧ key ∉ keys c1 ∧ c1.calls = c.calls ++ [key] ∧
      ∃ r2 c2, Get c1 key = some (r2, c2) ∧ c2.calls = c1.calls ++ [key] := by
  have hl : loadErr key (c.loader c.calls key) ≠ none := by
    rw [herr]; simp [loadErr]
  obtain ⟨c1, hg, hi1, hk1, _, hcalls⟩ := Get_miss_fail_after c key hr.inv hk hl
  refine ⟨_, c1, hg, hk1, hcalls, ?_⟩
  by_cases hl1 : loadErr key (c1.loader c1.calls key) = none
  · obtain ⟨c2, hg2, _, _, _, _, _, _, hc2, _⟩ := Get_miss_ok_fields c1 key hi1.wf hk1 hl1
    exact ⟨_, c2, hg2, hc2⟩
  · obtain ⟨c2, hg2, _, _, _, _, _, _, hc2, _⟩ := Get_miss_fail_fields c1 key hi1.wf hk1 hl1
    exact ⟨_, c2, hg2, hc2⟩

/-- C6: when the loader returns a non-nil value together with an error, `Get` returns
that value and the error, not the nil value the comment on `Get` promises. -/
theorem C6_value_returned_with_error :
    (Get (NewLoadableLRUCache
        (fun _ _ => (some "stale", some "boom") : Loader String String String) 2) "k").map
      Prod.fst = some (some "stale", some (error.fromLoader "boom")) := by
  rfl



/-- Instance of C4 on a fresh cache whose loader returns `(nil, nil)` first. -/
theorem C4_nil_value_is_an_error_and_retryable_witness :
    Reachable (NewLoadableLRUCache exLoaderNilFirst 2) ∧
    "a" ∉ keys (NewLoadableLRUCache exLoaderNilFirst 2) ∧
    (NewLoadableLRUCache exLoaderNilFirst 2).loader
      (NewLoadableLRUCache exLoaderNilFirst 2).calls "a" = (none, none) ∧
    ∃ err c1, Get (NewLoadableLRUCache exLoaderNilFirst 2) "a" = some ((none, some err), c1) ∧
      ∀ v, (NewLoadableLRUCache exLoaderNilFirst 2).loader
          ((NewLoadableLRUCache exLoaderNilFirst 2).calls ++ ["a"]) "a" = (some v, none) →
        ∃ c2, Get c1 "a" = some ((some v, none), c2) :=
  ⟨Reachable.new _ _, by decide, rfl,
    C4_nil_value_is_an_error_and_retryable (NewLoadableLRUCache exLoaderNilFirst 2)
      (Reachable.new _ _) "a" (by decide) rfl⟩

/-- Instance of C5 on a fresh cache whose loader always fails. -/
theorem C5_no_negative_caching_witness :
    Reachable (NewLoadableLRUCache exLoaderFailing 2) ∧
    "a" ∉ keys (NewLoadableLRUCache exLoaderFailing 2) ∧
    (NewLoadableLRUCache exLoaderFailing 2).loader
      (NewLoadableLRUCache exLoaderFailing 2).calls "a" = (none, some "boom") ∧
    ∃ r c1, Get (NewLoadableLRUCache exLoaderFailing 2) "a" = some (r, c1) ∧
      "a" ∉ keys c1 ∧ c1.calls = (NewLoadableLRUCache exLoaderFailing 2).calls ++ ["a"] ∧
      ∃ r2 c2, Get c1 "a" = some (r2, c2) ∧ c2.calls = c1.calls ++ ["a"] :=
  ⟨Reachable.new _ _, by decide, rfl,
    C5_no_negative_caching (NewLoadableLRUCache exLoaderFailing 2) (Reachable.new _ _) "a"
      (by decide) none "boom" rfl⟩

theorem step_config {c c1 : LoadableLRUCache K V E} (hi : Inv c) (op : Op K)
    (h : step c op = some c1) :
    c1.data.MaxEntries = c.data.MaxEntries ∧ c1.data.OnEvicted = c.data.OnEvicted ∧
      c1.loader = c.loader := by
  cases op with
  | Get key =>
    by_cases hk : key ∈ keys c
    · obtain ⟨⟨k, p⟩, hm, hkp⟩ := List.mem_map.1 hk
      simp only at hkp
      subst hkp
      obtain ⟨e, c2, _, _, hg, _, h1, h2, h3, _⟩ := Get_hit_fields c k p hi hm
      simp only [step, hg, Option.map_some', Option.some.injEq] at h
      subst h
      exact ⟨h1, h2, h3⟩
    · by_cases hl : loadErr key (c.loader c.calls key) = none
      · obtain ⟨c2, hg, _, h1, h2, h3, _⟩ := Get_miss_ok_fields c key hi.wf hk hl
        simp only [step, hg, Option.map_some', Option.some.injEq] at h
        subst h
        exact ⟨h1, h2, h3⟩
      · obtain ⟨c2, hg, _, h1, h2, h3, _⟩ := Get_miss_fail_fields c key hi.wf hk hl
        simp only [step, hg, Option.map_some', Option.some.injEq] at h
        subst h
        exact ⟨h1, h2, h3⟩
  | Remove key =>
    simp only [step, Option.some.injEq] at h; subst h
    simp [Remove_eq]
  | RemoveOldest =>
    simp only [step, Option.some.injEq] at h; subst h
    simp [RemoveOldest_eq]
  | RemoveOldestN n =>
    simp only [step, Option.some.injEq] at h; subst h
    obtain ⟨_, _, _, h4, h5, h6⟩ := removeOldestLoop_frame n.toNat c
    exact ⟨h5, h6, h4⟩
  | Clear =>
    simp only [step, Option.some.injEq] at h; subst h
    simp [Clear_eq]

theorem run_config {c c1 : LoadableLRUCache K V E} (hi : Inv c) (ops : List (Op K))
    (h : run c ops = some c1) :
    c1.data.MaxEntries = c.data.MaxEntries ∧ c1.data.OnEvicted = c.data.OnEvicted ∧
      c1.loader = c.loader := by
  induction ops generalizing c with
  | nil =>
    simp only [run, Option.some.injEq] at h; subst h
    exact ⟨rfl, rfl, rfl⟩
  | cons op ops ih =>
    obtain ⟨c2, h2⟩ := step_total hi op
    simp only [run, h2, Option.some_bind] at h
    obtain ⟨a1, a2, a3⟩ := step_config hi op h2
    obtain ⟨b1, b2, b3⟩ := ih (Inv_step hi op h2) h
    exact ⟨b1.trans a1, b2.trans a2, b3.trans a3⟩

/-- The capacity bound at the end of a run that starts in a state satisfying the
invariant. -/
theorem run_Len_le {c : LoadableLRUCache K V E} (hi : Inv c) (M : Nat) (hM : 1 ≤ M)
    (hmax : c.data.MaxEntries = (M : Int)) (ops : List (Op K)) :
    ∃ c1, run c ops = some c1 ∧ Len c1 ≤ M := by
  obtain ⟨c1, h1⟩ := run_total hi ops
  refine ⟨c1, h1, ?_⟩
  have hb := (Inv_run hi ops h1).bound
  rw [(run_config hi ops h1).1, hmax] at hb
  exact_mod_cast hb (by exact_mod_cast hM)

/-- C7: for every capacity `M ≥ 1`, every loader and every finite sequence of `Get`,
`Remove`, `RemoveOldest`, `RemoveOldestN` and `Clear` calls on a fresh cache (from either
constructor), every call returns and the cache holds at most `M` entries at the end; as
this holds for every sequence, it holds after every call of a sequence. -/
theorem C7_capacity_bound (M : Nat) (hM : 1 ≤ M) (loader : Loader K V E)
    (ops : List (Op K)) :
    (∃ c, run (NewLoadableLRUCache loader (M : Int)) ops = some c ∧ Len c ≤ M) ∧
    (∃ c, run (NewLoadableLRUCacheWithOnEvicted loader (M : Int)) ops = some c ∧
      Len c ≤ M) :=
  ⟨run_Len_le (Inv_new loader M) M hM rfl ops,
    run_Len_le (Inv_newWithOnEvicted loader M) M hM rfl ops⟩

/-- Instance of C7: capacity two, three keys loaded and one removed. -/
theorem C7_capacity_bound_witness :
    1 ≤ 2 ∧
    (∃ c, run (NewLoadableLRUCache exLoader ((2 : Nat) : Int))
        [Op.Get "a", Op.Get "b", Op.Get "c", Op.Remove "b"] = some c ∧ Len c ≤ 2) ∧
    (∃ c, run (NewLoadableLRUCacheWithOnEvicted exLoader ((2 : Nat) : Int))
        [Op.Get "a", Op.Get "b", Op.Get "c", Op.Remove "b"] = some c ∧ Len c ≤ 2) :=
  ⟨by decide, C7_capacity_bound 2 (by decide) exLoader
    [Op.Get "a", Op.Get "b", Op.Get "c", Op.Remove "b"]⟩

/-! ## Claims on removal -/

theorem hook_append {α : Type} (d : lru.Cache K α) (a b : List (K × α)) :
    d.hook (a ++ b) = d.hook a ++ d.hook b := by
  unfold lru.Cache.hook
  split <;> simp

/-- The last item followed by the last `k` items of the rest, oldest first, are the last
`k + 1` items, oldest first. -/
theorem getLast_cons_drop_reverse {α : Type} (l : List α) (k : Nat) :
    l.getLast?.toList ++ (l.dropLast.drop (l.dropLast.length - k)).reverse =
      (l.drop (l.length - (k + 1))).reverse := by
  rcases List.eq_nil_or_concat l with h | ⟨ys, a, h⟩
  · subst h; simp
  · subst h
    have hd : (ys ++ [a]).dropLast = ys := by simp
    have hg : (ys ++ [a]).getLast? = some a := by simp
    rw [List.concat_eq_append, hd, hg]
    simp only [Option.toList_some, List.length_append, List.length_singleton,
      Nat.add_sub_add_right]
    rw [List.drop_append_of_le_length (Nat.sub_le _ _)]
    simp

/-- The loop of `RemoveOldestN` after `k` rounds: the `k` least recently used items are
gone, and the hook was run on them, least recently used first. -/
theorem removeOldestLoop_spec (k : Nat) (c : LoadableLRUCache K V E) :
    (removeOldestLoop k c).data.ll = c.data.ll.take (c.data.ll.length - k) ∧
    (removeOldestLoop k c).evicted = c.evicted ++
      (c.data.hook (c.data.ll.drop (c.data.ll.length - k)).reverse).flatMap
        (notified c.heap) := by
  induction k generalizing c with
  | zero => simp [removeOldestLoop, hook_nil]
  | succ k ih =>
    obtain ⟨h1, h2⟩ := ih (RemoveOldest c)
    simp only [removeOldestLoop]
    rw [h1, h2, RemoveOldest_eq]
    simp only [List.length_dropLast]
    constructor
    · rw [List.dropLast_eq_take, List.take_take]
      congr 1
      omega
    · have hh : ∀ (l x : List (K × Ptr)),
          ({ MaxEntries := c.data.MaxEntries, OnEvicted := c.data.OnEvicted, ll := l } :
            lru.Cache K Ptr).hook x = c.data.hook x := fun _ _ => rfl
      rw [List.append_assoc, ← List.flatMap_append, hh c.data.ll.dropLast, ← hook_append]
      have := getLast_cons_drop_reverse c.data.ll k
      rw [List.length_dropLast] at this
      rw [this]

theorem mem_notified {heap : Ptr → Option (entry K V E)} {kv : K × Ptr} {x : K × Option V}
    (h : x ∈ notified heap kv) :
    ∃ e, heap kv.2 = some e ∧ e.status = Status.active ∧ x = (kv.1, e.value) := by
  unfold notified at h
  cases he : heap kv.2 with
  | none => simp [he] at h
  | some e =>
    by_cases hs : e.status = Status.active
    · simp only [he, hs, if_true, List.mem_singleton] at h
      exact ⟨e, rfl, hs, h⟩
    · simp [he, hs] at h

/-- Every `onEvicted` invocation the hook makes on items of the container is for an
`active` entry, with its key and value. -/
theorem hook_notified_sound (c : LoadableLRUCache K V E) (X : List (K × Ptr))
    (hX : X ⊆ c.data.ll) :
    ∀ x ∈ (c.data.hook X).flatMap (notified c.heap), ∃ k p e, (k, p) ∈ c.data.ll ∧
      c.heap p = some e ∧ e.status = Status.active ∧ x = (k, e.value) := by
  intro x hx
  obtain ⟨kv, hkv, hxkv⟩ := List.mem_flatMap.1 hx
  obtain ⟨e, he, hs, hxe⟩ := mem_notified hxkv
  exact ⟨kv.1, kv.2, e, hX (lru.hook_sub _ _ hkv), he, hs, hxe⟩

theorem getOrLoad_invalid_closed (c : LoadableLRUCache K V E) (p : Ptr) (e : entry K V E)
    (h : c.heap p = some e) (hs : e.status = Status.invalid) (hsig : e.signal = true) :
    getOrLoad c p = none := by
  unfold getOrLoad
  simp only [h, hs]
  by_cases he : (loadErr e.key (c.loader c.calls e.key)).isNone = true
  · have he2 := he
    simp only [loadErr] at he2
    simp [store, Function.update_idem, he2, hsig]
  · have he2 := he
    simp only [loadErr] at he2
    simp [store, Function.update_idem, he2, hsig, Remove_eq]

/-- The method `getOrLoad`, called as `Get` calls it, makes no `onEvicted` invocation: in
particular the removal of the entry after a failed load makes none. -/
theorem getOrLoad_evicted (c : LoadableLRUCache K V E) (hw : WF c) (key : K)
    (r : Option V × Option (error K E)) (c2 : LoadableLRUCache K V E)
    (h : getOrLoad (getEntry c key).1 (getEntry c key).2 = some (r, c2)) :
    c2.evicted = (getEntry c key).1.evicted := by
  by_cases hk : key ∈ keys c
  · obtain ⟨⟨k, p⟩, hm, hkp⟩ := List.mem_map.1 hk
    simp only at hkp
    subst hkp
    obtain ⟨e, he, hek⟩ := hw.entry k p hm
    subst hek
    have hge := getEntry_hit c e.key (e.key, p) (find_of_mem hw.nodup hm)
    have h2 : (getEntry c e.key).2 = p := by rw [hge]
    have hll : (getEntry c e.key).1.data.ll = (e.key, p) :: c.data.ll.filter (fun x => x.1 ≠ e.key) := by
      rw [hge]
    have he' : (getEntry c e.key).1.heap p = some e := by rw [hge]; exact he
    rw [h2] at h
    cases hs : e.status with
    | active =>
      rw [getOrLoad_active _ p e he' hs] at h
      simp only [Option.some.injEq, Prod.mk.injEq] at h
      rw [← h.2]
    | loading =>
      unfold getOrLoad at h
      simp only [he', hs] at h
      by_cases hsig : e.signal = true
      · simp only [hsig, if_true, Option.some.injEq, Prod.mk.injEq] at h
        rw [← h.2]
      · simp [hsig] at h
    | invalid =>
      by_cases hsig : e.signal = true
      · rw [getOrLoad_invalid_closed _ p e he' hs hsig] at h
        simp at h
      · rw [getOrLoad_invalid _ p e he' hs (by simpa using hsig)] at h
        simp only [Option.some.injEq, Prod.mk.injEq] at h
        rw [← h.2]
        split
        · rfl
        · simp only [hll, List.find?_cons_of_pos, decide_True, Option.toList_some]
          have : notified (Function.update (getEntry c e.key).1.heap p (some { e with
              value := ((getEntry c e.key).1.loader (getEntry c e.key).1.calls e.key).1,
              err := loadErr e.key ((getEntry c e.key).1.loader (getEntry c e.key).1.calls e.key),
              status := Status.loading })) (e.key, p) = [] := by
            simp [notified]
          unfold lru.Cache.hook
          split <;> simp [this]
  · obtain ⟨c1, hg, hev⟩ : ∃ c1, Get c key = some (r, c1) ∧
        c1.evicted = c.evicted ++ (c.data.hook (overflowed c)).flatMap (notified c.heap) := by
      by_cases hl : loadErr key (c.loader c.calls key) = none
      · obtain ⟨c1, hg, _, _, _, _, _, _, _, hev⟩ := Get_miss_ok_fields c key hw hk hl
        have h' := h
        rw [show getOrLoad (getEntry c key).1 (getEntry c key).2 = Get c key from rfl, hg] at h'
        simp only [Option.some.injEq, Prod.mk.injEq] at h'
        exact ⟨c1, by rw [hg, h'.1], hev⟩
      · obtain ⟨c1, hg, _, _, _, _, _, _, _, hev⟩ := Get_miss_fail_fields c key hw hk hl
        have h' := h
        rw [show getOrLoad (getEntry c key).1 (getEntry c key).2 = Get c key from rfl, hg] at h'
        simp only [Option.some.injEq, Prod.mk.injEq] at h'
        exact ⟨c1, by rw [hg, h'.1], hev⟩
    rw [show getOrLoad (getEntry c key).1 (getEntry c key).2 = Get c key from rfl, hg] at h
    simp only [Option.some.injEq, Prod.mk.injEq] at h
    rw [← h.2, hev, getEntry_miss c key (find_of_not_mem hk)]
    simp only
    rw [Add_miss_notified c key hw hk]

theorem dropped_sub (c : LoadableLRUCache K V E) (op : Op K) : dropped c op ⊆ c.data.ll := by
  cases op with
  | Get key =>
    simp only [dropped]
    split
    · simp
    · exact overflowed_sub c
  | Remove key =>
    intro x hx
    simp only [dropped, Option.mem_toList, Option.mem_def] at hx
    exact List.mem_of_find?_eq_some hx
  | RemoveOldest =>
    intro x hx
    simp only [dropped, Option.mem_toList, Option.mem_def] at hx
    exact List.mem_of_getLast?_eq_some hx
  | RemoveOldestN n =>
    intro x hx
    simp only [dropped, List.mem_reverse] at hx
    exact List.mem_of_mem_drop hx
  | Clear => exact fun _ h => h

theorem step_Get {c c1 : LoadableLRUCache K V E} {key : K}
    (h : step c (Op.Get key) = some c1) : ∃ r, Get c key = some (r, c1) := by
  simp only [step] at h
  cases hg : Get c key with
  | none => simp [hg] at h
  | some x =>
    simp only [hg, Option.map_some', Option.some.injEq] at h
    exact ⟨x.1, by rw [← h]⟩

/-- The `onEvicted` invocations of a call: the hook run on the items the call drops. -/
theorem step_evicted {c c1 : LoadableLRUCache K V E} (hw : WF c) (op : Op K)
    (h : step c op = some c1) :
    c1.evicted = c.evicted ++ (c.data.hook (dropped c op)).flatMap (notified c.heap) := by
  cases op with
  | Get key =>
    obtain ⟨r, hg⟩ := step_Get h
    by_cases hk : key ∈ keys c
    · have hev := getOrLoad_evicted c hw key r c1 hg
      obtain ⟨⟨k, p⟩, hm, hkp⟩ := List.mem_map.1 hk
      simp only at hkp
      subst hkp
      rw [getEntry_hit c k (k, p) (find_of_mem hw.nodup hm)] at hev
      simp [hev, dropped, hk, hook_nil]
    · simp only [dropped, if_neg hk]
      by_cases hl : loadErr key (c.loader c.calls key) = none
      · obtain ⟨c2, hg2, _, _, _, _, _, _, _, hev⟩ := Get_miss_ok_fields c key hw hk hl
        rw [hg2] at hg
        simp only [Option.some.injEq, Prod.mk.injEq] at hg
        rw [← hg.2, hev]
      · obtain ⟨c2, hg2, _, _, _, _, _, _, _, hev⟩ := Get_miss_fail_fields c key hw hk hl
        rw [hg2] at hg
        simp only [Option.some.injEq, Prod.mk.injEq] at hg
        rw [← hg.2, hev]
  | Remove key =>
    simp only [step, Option.some.injEq] at h; subst h
    simp [Remove_eq, dropped]
  | RemoveOldest =>
    simp only [step, Option.some.injEq] at h; subst h
    simp [RemoveOldest_eq, dropped]
  | RemoveOldestN n =>
    simp only [step, Option.some.injEq] at h; subst h
    exact (removeOldestLoop_spec n.toNat c).2
  | Clear =>
    simp only [step, Option.some.injEq] at h; subst h
    simp [Clear_eq, dropped]

/-! ## Interleaved executions -/

theorem getEntryLocked_hit (c : LoadableLRUCache K V E) (key : K) (kv : K × Ptr)
    (h : c.data.ll.find? (fun kv => kv.1 = key) = some kv) :
    getEntryLocked c key =
      (({ c with data := { c.data with ll := kv :: c.data.ll.filter (fun x => x.1 ≠ key) } },
        kv.2), []) := by
  simp [getEntryLocked, lru_Get_hit _ _ _ h]

theorem getEntryLocked_miss (c : LoadableLRUCache K V E) (key : K)
    (h : c.data.ll.find? (fun kv => kv.1 = key) = none) :
    getEntryLocked c key =
      (({ c with
          data := (c.data.Add key c.next).1,
          heap := Function.update c.heap c.next (some (newEntry key)),
          next := c.next + 1 }, c.next), (c.data.Add key c.next).2) := by
  simp [getEntryLocked, lru_Get_miss _ _ h]

/-- The method `getEntry` is its critical section followed by the hook invocations. -/
theorem getEntry_eq_locked (c : LoadableLRUCache K V E) (key : K) :
    getEntry c key =
      (fire (getEntryLocked c key).1.1 (getEntryLocked c key).2, (getEntryLocked c key).1.2) := by
  cases h : c.data.ll.find? (fun kv => kv.1 = key) with
  | none => rw [getEntry_miss _ _ h, getEntryLocked_miss _ _ h]; simp [fire_eq]
  | some kv => rw [getEntry_hit _ _ _ h, getEntryLocked_hit _ _ _ h]; simp [fire]

theorem fire_append (c : LoadableLRUCache K V E) (a b : List (K × Ptr)) :
    fire c (a ++ b) = fire (fire c a) b := by
  simp [fire, List.foldl_append]

/-- The loop of `RemoveOldestN` is its loop on the container followed by the hook
invocations. -/
theorem removeOldestLoop_eq_locked (k : Nat) (c : LoadableLRUCache K V E) :
    removeOldestLoop k c =
      fire { c with data := (removeOldestLocked k c.data).1 } (removeOldestLocked k c.data).2 := by
  induction k generalizing c with
  | zero => simp [removeOldestLoop, removeOldestLocked, fire]
  | succ k ih =>
    simp only [removeOldestLoop, removeOldestLocked]
    rw [ih, RemoveOldest]
    simp [fire_eq, List.flatMap_append, List.append_assoc]

theorem removeOldestLocked_sublist (k : Nat) (d : lru.Cache K Ptr) :
    (removeOldestLocked k d).1.ll.Sublist d.ll ∧ (removeOldestLocked k d).2 ⊆ d.ll := by
  induction k generalizing d with
  | zero => simp [removeOldestLocked]
  | succ k ih =>
    simp only [removeOldestLocked]
    have h1 : d.RemoveOldest.1.ll.Sublist d.ll := by
      rw [lru.Cache_RemoveOldest_eq]; exact List.dropLast_sublist _
    have h2 : d.RemoveOldest.2 ⊆ d.ll := by
      rw [lru.Cache_RemoveOldest_eq]
      intro x hx
      have := lru.hook_sub _ _ hx
      cases hl : d.ll.getLast? with
      | none => simp [hl] at this
      | some y =>
        simp [hl] at this
        subst this
        exact List.mem_of_getLast?_eq_some hl
    refine ⟨(ih _).1.trans h1, ?_⟩
    intro x hx
    rcases List.mem_append.1 hx with hx | hx
    · exact h2 hx
    · exact h1.subset ((ih _).2 hx)

theorem ConcInv_init (c : LoadableLRUCache K V E) (hw : WF c)
    (hf : ∀ p, c.next ≤ p → c.heap p = none)
    (he : ∀ p e, c.heap p = some e → e.status = Status.active → e.err = none) :
    ConcInv (Conc.init c) :=
  ⟨hw, by simp [Conc.init], fun p hp => ⟨hf p hp, rfl⟩, by simp [Conc.init], he⟩

theorem WF_new (loader : Loader K V E) (maxEntries : Int) :
    WF (NewLoadableLRUCache loader maxEntries) :=
  (Inv_new loader maxEntries).wf

theorem WF_newWithOnEvicted (loader : Loader K V E) (maxEntries : Int) :
    WF (NewLoadableLRUCacheWithOnEvicted loader maxEntries) :=
  (Inv_newWithOnEvicted loader maxEntries).wf

/-- A critical section that only drops items keeps the invariant. -/
theorem ConcInv.of_drop {s : Conc K V E} (hi : ConcInv s) (d : lru.Cache K Ptr)
    (pend : List (K × Ptr)) (st : Ptr → Stage)
    (hsub : d.ll.Sublist s.cache.data.ll) (hp : pend ⊆ s.cache.data.ll)
    (hst : ∀ p, st p = s.stage p ∨ (st p = Stage.settled ∧ s.cache.heap p ≠ none)) :
    ConcInv { cache := { s.cache with data := d }, pending := pend, stage := st } := by
  refine ⟨⟨nodup_keys_of_sublist hsub hi.wf.nodup, ?_, ?_⟩, ?_, ?_, ?_, hi.err⟩
  · intro k p hm; exact hi.wf.alloc k p (hsub.subset hm)
  · intro k p hm; exact hi.wf.entry k p (hsub.subset hm)
  · intro k p hm; exact hi.wf.entry k p (hp hm)
  · intro p hn
    dsimp only at hn ⊢
    refine ⟨(hi.fresh p hn).1, ?_⟩
    rcases hst p with h | ⟨_, h⟩
    · rw [h]; exact (hi.fresh p hn).2
    · exact absurd (hi.fresh p hn).1 h
  · intro p e he hs
    dsimp only at he hs
    rcases hst p with h | ⟨h, _⟩
    · rw [h] at hs; exact hi.busy p e he hs
    · rw [h] at hs; rcases hs with hs | hs <;> cases hs

/-- A store to an allocated entry that keeps its key keeps the invariant. -/
theorem ConcInv.of_store {s : Conc K V E} (hi : ConcInv s) {p : Ptr} {e : entry K V E}
    (h : s.cache.heap p = some e) (e1 : entry K V E) (hk : e1.key = e.key)
    (calls : List K) (g : Stage)
    (hbusy : g = Stage.claimed ∨ g = Stage.loaded → e1.status = Status.loading)
    (herr : e1.status = Status.active → e1.err = none) :
    ConcInv { cache := { s.cache with heap := Function.update s.cache.heap p (some e1),
                                      calls := calls },
              pending := s.pending, stage := Function.update s.stage p g } := by
  have hent : ∀ k q, (∃ e0, s.cache.heap q = some e0 ∧ e0.key = k) →
      ∃ e0, Function.update s.cache.heap p (some e1) q = some e0 ∧ e0.key = k := by
    intro k q ⟨e0, h0, hk0⟩
    by_cases hq : q = p
    · subst hq
      rw [h] at h0
      cases h0
      exact ⟨e1, by simp, hk.trans hk0⟩
    · exact ⟨e0, by simp [Function.update_noteq hq, h0], hk0⟩
  refine ⟨⟨hi.wf.nodup, hi.wf.alloc, ?_⟩, ?_, ?_, ?_, ?_⟩
  · intro k q hm; exact hent k q (hi.wf.entry k q hm)
  · intro k q hm; exact hent k q (hi.pend k q hm)
  · intro q hn
    have hq : q ≠ p := by
      intro hq
      subst hq
      rw [(hi.fresh q hn).1] at h
      cases h
    simp only [Function.update_noteq hq]
    exact hi.fresh q hn
  · intro q e0 he0 hs
    by_cases hq : q = p
    · subst hq
      simp only [Function.update_same, Option.some.injEq] at he0 hs
      subst he0
      exact hbusy hs
    · simp only [Function.update_noteq hq] at he0 hs
      exact hi.busy q e0 he0 hs
  · intro q e0 he0 ha
    by_cases hq : q = p
    · subst hq
      simp only [Function.update_same, Option.some.injEq] at he0
      subst he0
      exact herr ha
    · simp only [Function.update_noteq hq] at he0
      exact hi.err q e0 he0 ha

theorem ConcInv_getEntry {s : Conc K V E} (hi : ConcInv s) (key : K) :
    ConcInv { s with cache := (getEntryLocked s.cache key).1.1,
                     pending := (getEntryLocked s.cache key).2 } := by
  cases h : s.cache.data.ll.find? (fun kv => kv.1 = key) with
  | some kv =>
    rw [getEntryLocked_hit _ _ _ h]
    have hm : kv ∈ s.cache.data.ll := List.mem_of_find?_eq_some h
    have hk : kv.1 = key := by simpa using List.find?_some h
    refine ⟨⟨?_, ?_, ?_⟩, ?_, hi.fresh, hi.busy, hi.err⟩
    · simp only [keys, lru.Cache.keys, List.map_cons, List.nodup_cons]
      refine ⟨?_, nodup_keys_of_sublist (List.filter_sublist _) hi.wf.nodup⟩
      intro hk1
      obtain ⟨x, hx, hxk⟩ := List.mem_map.1 hk1
      have := (List.mem_filter.1 hx).2
      simp at this
      exact this (hxk.trans hk)
    · intro k p hm1
      rcases List.mem_cons.1 hm1 with h1 | h1
      · exact hi.wf.alloc k p (h1 ▸ hm)
      · exact hi.wf.alloc k p (List.mem_filter.1 h1).1
    · intro k p hm1
      rcases List.mem_cons.1 hm1 with h1 | h1
      · exact hi.wf.entry k p (h1 ▸ hm)
      · exact hi.wf.entry k p (List.mem_filter.1 h1).1
    · intro k p hm1
      simp at hm1
  | none =>
    rw [getEntryLocked_miss _ _ h]
    have hnk : key ∉ keys s.cache := by
      intro hk
      obtain ⟨x, hx, hxk⟩ := List.mem_map.1 hk
      have := List.find?_eq_none.1 h x hx
      simp at this
      exact this hxk
    have hsub : (s.cache.data.Add key s.cache.next).1.ll.Sublist
        ((key, s.cache.next) :: s.cache.data.ll) := by
      rw [Add_miss_fst _ _ hnk]
      simp only
      split
      · exact List.dropLast_sublist _
      · exact List.Sublist.refl _
    have hpsub : (s.cache.data.Add key s.cache.next).2 ⊆
        ((key, s.cache.next) :: s.cache.data.ll) := by
      rw [Add_miss_snd _ _ hnk]
      split
      · intro x hx
        have := lru.hook_sub _ _ hx
        cases hl : ((key, s.cache.next) :: s.cache.data.ll).getLast? with
        | none => simp [hl] at this
        | some y =>
          simp only [hl, Option.toList_some, List.mem_singleton] at this
          subst this
          exact List.mem_of_getLast?_eq_some hl
      · simp
    have hnd : (((key, s.cache.next) :: s.cache.data.ll).map Prod.fst).Nodup := by
      simp only [List.map_cons, List.nodup_cons]
      exact ⟨hnk, hi.wf.nodup⟩
    have hent : ∀ k p, (k, p) ∈ (key, s.cache.next) :: s.cache.data.ll →
        p < s.cache.next + 1 ∧
        ∃ e, Function.update s.cache.heap s.cache.next (some (newEntry key)) p = some e ∧
          e.key = k := by
      intro k p hm
      rcases List.mem_cons.1 hm with h1 | h1
      · simp only [Prod.mk.injEq] at h1
        obtain ⟨h0, h1⟩ := h1
        subst h0 h1
        exact ⟨Nat.lt_succ_self _, newEntry k, by simp, rfl⟩
      · have hlt := hi.wf.alloc k p h1
        refine ⟨Nat.lt_succ_of_lt hlt, ?_⟩
        simp only [Function.update_noteq (Nat.ne_of_lt hlt)]
        exact hi.wf.entry k p h1
    refine ⟨⟨nodup_keys_of_sublist hsub hnd, ?_, ?_⟩, ?_, ?_, ?_, ?_⟩
    · intro k p hm; exact (hent k p (hsub.subset hm)).1
    · intro k p hm; exact (hent k p (hsub.subset hm)).2
    · intro k p hm; exact (hent k p (hpsub hm)).2
    · intro p hn
      have hn1 : s.cache.next ≤ p := Nat.le_of_succ_le hn
      have hne : p ≠ s.cache.next := by
        intro hp; subst hp; exact Nat.not_succ_le_self _ hn
      simp only [Function.update_noteq hne]
      exact hi.fresh p hn1
    · intro p e he hs
      by_cases hp : p = s.cache.next
      · subst hp
        rw [(hi.fresh _ (Nat.le_refl _)).2] at hs
        rcases hs with hs | hs <;> cases hs
      · simp only [Function.update_noteq hp] at he
        exact hi.busy p e he hs
    · intro p e he ha
      by_cases hp : p = s.cache.next
      · subst hp
        simp only [Function.update_same, Option.some.injEq] at he
        subst he
        simp [newEntry] at ha
      · simp only [Function.update_noteq hp] at he
        exact hi.err p e he ha

theorem find_toList_sub {α : Type} (l : List α) (f : α → Bool) : (l.find? f).toList ⊆ l := by
  intro x hx
  cases h : l.find? f with
  | none => simp [h] at hx
  | some y =>
    simp only [h, Option.toList_some, List.mem_singleton] at hx
    subst hx
    exact List.mem_of_find?_eq_some h

theorem getLast_toList_sub {α : Type} (l : List α) : l.getLast?.toList ⊆ l := by
  intro x hx
  cases h : l.getLast? with
  | none => simp [h] at hx
  | some y =>
    simp only [h, Option.toList_some, List.mem_singleton] at hx
    subst hx
    exact List.mem_of_getLast?_eq_some h

/-- Every atomic action keeps the invariant of the interleaved executions. -/
theorem ConcInv_act {s s1 : Conc K V E} (hi : ConcInv s) (a : Action K)
    (h : act s a = some s1) : ConcInv s1 := by
  cases a with
  | getEntry key =>
    simp only [act] at h
    split at h
    · cases h; exact ConcInv_getEntry hi key
    · cases h
  | Remove key =>
    simp only [act] at h
    split at h
    · cases h
      rw [lru.Cache_Remove_eq]
      exact hi.of_drop _ _ _ (List.filter_sublist _)
        (fun x hx => find_toList_sub _ _ (lru.hook_sub _ _ hx)) (fun p => Or.inl rfl)
    · cases h
  | RemoveOldest =>
    simp only [act] at h
    split at h
    · cases h
      rw [lru.Cache_RemoveOldest_eq]
      exact hi.of_drop _ _ _ (List.dropLast_sublist _)
        (fun x hx => getLast_toList_sub _ (lru.hook_sub _ _ hx)) (fun p => Or.inl rfl)
    · cases h
  | RemoveOldestN n =>
    simp only [act] at h
    split at h
    · cases h
      exact hi.of_drop _ _ _ (removeOldestLocked_sublist _ _).1
        (removeOldestLocked_sublist _ _).2 (fun p => Or.inl rfl)
    · cases h
  | Clear =>
    simp only [act] at h
    split at h
    · cases h
      exact hi.of_drop _ _ _ (List.nil_sublist _) (lru.hook_sub _ _) (fun p => Or.inl rfl)
    · cases h
  | hook =>
    simp only [act] at h
    split at h
    · cases h
    · rename_i kv rest hp
      cases h
      rw [onEntryEvicted_eq]
      exact ⟨⟨hi.wf.nodup, hi.wf.alloc, hi.wf.entry⟩,
        fun k p hm => hi.pend k p (by rw [hp]; exact List.mem_cons_of_mem _ hm),
        hi.fresh, hi.busy, hi.err⟩
  | cas p =>
    simp only [act] at h
    split at h
    · cases h
    · rename_i e he
      split at h
      · cases h
        have := hi.of_store he { e with status := Status.loading } rfl s.cache.calls
          Stage.claimed (fun _ => rfl) (fun ha => by cases ha)
        exact this
      · cases h
  | load p =>
    simp only [act] at h
    split at h
    · cases h
    · rename_i e he
      split at h
      · rename_i hs
        cases h
        have hl := hi.busy p e he (Or.inl hs)
        have := hi.of_store he
          { e with
            value := (s.cache.loader s.cache.calls e.key).1,
            err :=
              if (s.cache.loader s.cache.calls e.key).1.isNone &&
                  (s.cache.loader s.cache.calls e.key).2.isNone then some (error.errorf e.key)
              else (s.cache.loader s.cache.calls e.key).2.map error.fromLoader }
          rfl (s.cache.calls ++ [e.key]) Stage.loaded (fun _ => hl)
          (fun ha => by
            have h2 : e.status = Status.active := ha
            rw [hl] at h2
            cases h2)
        exact this
      · cases h
  | activate p =>
    simp only [act] at h
    split at h
    · cases h
    · rename_i e he
      split at h
      · rename_i hs
        cases h
        have hl := hi.busy p e he (Or.inr hs.1)
        rw [if_pos hl]
        have := hi.of_store he { e with status := Status.active } rfl s.cache.calls
          Stage.settled (fun hg => by rcases hg with hg | hg <;> cases hg)
          (fun _ => by simpa using hs.2)
        exact this
      · cases h
  | removeFailed p =>
    simp only [act] at h
    split at h
    · cases h
    · rename_i e he
      split at h
      · cases h
        rw [lru.Cache_Remove_eq]
        refine hi.of_drop _ _ _ (List.filter_sublist _)
          (fun x hx => find_toList_sub _ _ (lru.hook_sub _ _ hx)) ?_
        intro q
        by_cases hq : q = p
        · subst hq
          right
          exact ⟨by simp, by simp [he]⟩
        · left
          simp [Function.update_noteq hq]
      · cases h
  | close p =>
    simp only [act] at h
    split at h
    · cases h
    · rename_i e he
      split at h
      · split at h
        · cases h
        · cases h
          have := hi.of_store he { e with signal := true } rfl s.cache.calls
            Stage.idle (fun hg => by rcases hg with hg | hg <;> cases hg)
            (fun ha => hi.err p e he ha)
          exact this
      · cases h

theorem ConcInv_of_reachable {s : Conc K V E} (h : ConcReachable s) : ConcInv s := by
  induction h with
  | new loader maxEntries =>
    exact ConcInv_init _ (WF_new loader maxEntries) (fun _ _ => rfl)
      (fun p e he => by simp [NewLoadableLRUCache] at he)
  | newWithOnEvicted loader maxEntries =>
    exact ConcInv_init _ (WF_newWithOnEvicted loader maxEntries) (fun _ _ => rfl)
      (fun p e he => by simp [NewLoadableLRUCacheWithOnEvicted] at he)
  | act a _ hs ih => exact ConcInv_act ih a hs

theorem ConcReachable_acts {s s1 : Conc K V E} (hr : ConcReachable s) (l : List (Action K))
    (h : acts s l = some s1) : ConcReachable s1 := by
  induction l generalizing s with
  | nil => simp only [acts, Option.some.injEq] at h; exact h ▸ hr
  | cons a l ih =>
    simp only [acts] at h
    cases ha : act s a with
    | none => simp [ha] at h
    | some s2 =>
      rw [ha] at h
      exact ih (ConcReachable.act a hr ha) h

theorem getEntryLocked_evicted (c : LoadableLRUCache K V E) (key : K) :
    (getEntryLocked c key).1.1.evicted = c.evicted := by
  cases h : c.data.ll.find? (fun kv => kv.1 = key) with
  | none => rw [getEntryLocked_miss _ _ h]
  | some kv => rw [getEntryLocked_hit _ _ _ h]

/-- The hook action runs `onEntryEvicted(onEvicted)` on the first pending invocation. -/
theorem act_hook {s s1 : Conc K V E} (h : act s Action.hook = some s1) :
    ∃ kv rest, s.pending = kv :: rest ∧ s1.pending = rest ∧
      s1.cache.evicted = s.cache.evicted ++ notified s.cache.heap kv := by
  simp only [act] at h
  split at h
  · cases h
  · rename_i kv rest hp
    cases h
    exact ⟨kv, rest, hp, rfl, by rw [onEntryEvicted_eq]⟩

/-- No action other than the hook invokes `onEvicted`. -/
theorem act_evicted_of_ne_hook {s s1 : Conc K V E} (a : Action K) (hne : a ≠ Action.hook)
    (h : act s a = some s1) : s1.cache.evicted = s.cache.evicted := by
  cases a with
  | hook => exact absurd rfl hne
  | getEntry key =>
    simp only [act] at h
    split at h
    · cases h; exact getEntryLocked_evicted _ _
    · cases h
  | Remove key => simp only [act] at h; split at h <;> cases h; rfl
  | RemoveOldest => simp only [act] at h; split at h <;> cases h; rfl
  | RemoveOldestN n => simp only [act] at h; split at h <;> cases h; rfl
  | Clear => simp only [act] at h; split at h <;> cases h; rfl
  | cas p =>
    simp only [act] at h
    split at h
    · cases h
    · split at h <;> cases h; rfl
  | load p =>
    simp only [act] at h
    split at h
    · cases h
    · split at h <;> cases h; rfl
  | activate p =>
    simp only [act] at h
    split at h
    · cases h
    · split at h
      · cases h
        dsimp only
        split <;> rfl
      · cases h
  | removeFailed p =>
    simp only [act] at h
    split at h
    · cases h
    · split at h <;> cases h; rfl
  | close p =>
    simp only [act] at h
    split at h
    · cases h
    · split at h
      · split at h <;> cases h; rfl
      · cases h

/-- The `onEvicted` invocations of one atomic action: only the hook makes any, and it
makes one only when the entry of the dropped item is `active` with a nil error at the
moment the hook runs. -/
theorem act_evicted_sound {s s1 : Conc K V E} (hi : ConcInv s) (a : Action K)
    (h : act s a = some s1) :
    ∃ L, s1.cache.evicted = s.cache.evicted ++ L ∧
      ∀ x ∈ L, a = Action.hook ∧ ∃ k p rest e, s.pending = (k, p) :: rest ∧
        s.cache.heap p = some e ∧ e.key = k ∧ e.status = Status.active ∧ e.err = none ∧
        x = (k, e.value) := by
  by_cases ha : a = Action.hook
  · subst ha
    obtain ⟨kv, rest, hp, _, hev⟩ := act_hook h
    refine ⟨_, hev, ?_⟩
    intro x hx
    obtain ⟨e, he, hs, hxe⟩ := mem_notified hx
    obtain ⟨e1, he1, hk1⟩ := hi.pend kv.1 kv.2 (by rw [hp]; exact List.mem_cons_self _ _)
    rw [he] at he1
    cases he1
    exact ⟨rfl, kv.1, kv.2, rest, e, hp, he, hk1, hs, hi.err _ _ he hs, hxe⟩
  · exact ⟨[], by rw [act_evicted_of_ne_hook a ha h, List.append_nil], by simp⟩

/-- The `onEvicted` invocations of an execution: each is made by a hook action of the
execution, for a pending item whose entry is `active` with a nil error in the state in
which that action runs. -/
theorem acts_evicted_sound {s s1 : Conc K V E} (hi : ConcInv s) (l : List (Action K))
    (h : acts s l = some s1) :
    ∃ L, s1.cache.evicted = s.cache.evicted ++ L ∧
      ∀ x ∈ L, ∃ l0 l1 s0 k p rest e, l = l0 ++ Action.hook :: l1 ∧ acts s l0 = some s0 ∧
        s0.pending = (k, p) :: rest ∧ s0.cache.heap p = some e ∧ e.key = k ∧
        e.status = Status.active ∧ e.err = none ∧ x = (k, e.value) := by
  induction l generalizing s with
  | nil =>
    simp only [acts, Option.some.injEq] at h
    subst h
    exact ⟨[], by simp, by simp⟩
  | cons a l ih =>
    simp only [acts] at h
    cases ha : act s a with
    | none => simp [ha] at h
    | some s2 =>
      rw [ha] at h
      simp only [Option.some_bind] at h
      obtain ⟨La, hLa, hsa⟩ := act_evicted_sound hi a ha
      obtain ⟨L1, hL1, hs1⟩ := ih (ConcInv_act hi a ha) h
      refine ⟨La ++ L1, by rw [hL1, hLa, List.append_assoc], ?_⟩
      intro x hx
      rcases List.mem_append.1 hx with hx | hx
      · obtain ⟨hah, k, p, rest, e, hp, he, hk, hst, herr, hxe⟩ := hsa x hx
        subst hah
        exact ⟨[], l, s, k, p, rest, e, rfl, rfl, hp, he, hk, hst, herr, hxe⟩
      · obtain ⟨l0, l1, s0, k, p, rest, e, hl, h0, hp, he, hk, hst, herr, hxe⟩ := hs1 x hx
        refine ⟨a :: l0, l1, s0, k, p, rest, e, by rw [hl]; rfl, ?_, hp, he, hk, hst, herr,
          hxe⟩
        simp only [acts, ha, Option.some_bind]
        exact h0

/-- The hook makes no invocation for an entry that is not `active` when it runs, nor for
one whose load failed. -/
theorem act_hook_silent {s s1 : Conc K V E} (hi : ConcInv s) {k : K} {p : Ptr}
    {rest : List (K × Ptr)} {e : entry K V E} (hp : s.pending = (k, p) :: rest)
    (he : s.cache.heap p = some e) (hna : e.status ≠ Status.active ∨ e.err ≠ none)
    (h : act s Action.hook = some s1) : s1.cache.evicted = s.cache.evicted := by
  obtain ⟨kv, rest1, hp1, _, hev⟩ := act_hook h
  rw [hp] at hp1
  cases hp1
  have hns : e.status ≠ Status.active := by
    rcases hna with h1 | h1
    · exact h1
    · intro ha; exact h1 (hi.err p e he ha)
  rw [hev]
  simp [notified, he, hns]

/-- The critical section of `c.Remove(e.key)` after a failed load, when the entry is
still the one held under its key: the only hook invocation it leaves pending is for that
entry, and it leads to no `onEvicted` invocation. -/
theorem act_removeFailed_held {s s1 : Conc K V E} (hi : ConcInv s) {p : Ptr}
    {e : entry K V E} (he : s.cache.heap p = some e) (hm : (e.key, p) ∈ s.cache.data.ll)
    (h : act s (Action.removeFailed p) = some s1) :
    s1.pending = s.cache.data.hook [(e.key, p)] ∧ s1.cache.evicted = s.cache.evicted ∧
      ∀ s2, act s1 Action.hook = some s2 →
        s2.pending = [] ∧ s2.cache.evicted = s.cache.evicted := by
  simp only [act, he] at h
  split at h
  · rename_i hc
    cases h
    have hl := hi.busy p e he (Or.inr hc.1)
    have hf := find_of_mem hi.wf.nodup hm
    have hpend : (s.cache.data.Remove e.key).2 = s.cache.data.hook [(e.key, p)] := by
      rw [lru.Cache_Remove_eq, hf]; rfl
    refine ⟨hpend, rfl, ?_⟩
    intro s2 h2
    obtain ⟨kv, rest, hp, hr, hev⟩ := act_hook h2
    dsimp only at hp hr hev
    rw [hpend] at hp
    have hkv : kv = (e.key, p) ∧ rest = [] := by
      unfold lru.Cache.hook at hp
      split at hp
      · simp only [List.cons.injEq] at hp
        exact ⟨hp.1.symm, hp.2.symm⟩
      · cases hp
    rw [hr, hev, hkv.1, hkv.2]
    refine ⟨rfl, ?_⟩
    simp [notified, he, hl]
  · cases h

/-! ### Sequential runs are interleaved executions -/

theorem acts_append (s : Conc K V E) (a b : List (Action K)) :
    acts s (a ++ b) = (acts s a).bind fun s1 => acts s1 b := by
  induction a generalizing s with
  | nil => simp [acts]
  | cons x a ih =>
    simp only [List.cons_append, acts]
    cases act s x with
    | none => simp
    | some s2 => simp [ih]

/-- The goroutine holding the lock makes its pending hook invocations one after the
other. -/
theorem acts_hooks (c : LoadableLRUCache K V E) (H : List (K × Ptr)) (st : Ptr → Stage) :
    acts { cache := c, pending := H, stage := st } (List.replicate H.length Action.hook) =
      some { cache := fire c H, pending := [], stage := st } := by
  induction H generalizing c with
  | nil => simp [acts, fire]
  | cons kv H ih =>
    simp only [List.length_cons, List.replicate_succ, acts, act, Option.some_bind]
    rw [ih]
    simp [fire]

/-- A critical section followed by its hook invocations. -/
theorem acts_section {s s1 : Conc K V E} (a : Action K) (h : act s a = some s1) :
    acts s (a :: List.replicate s1.pending.length Action.hook) =
      some { cache := fire s1.cache s1.pending, pending := [], stage := s1.stage } := by
  simp only [acts, h, Option.some_bind]
  exact acts_hooks s1.cache s1.pending s1.stage

/-- The method `getOrLoad` on an entry no goroutine is loading, run without another
goroutine in between, is the sequence of atomic actions compare-and-swap, load, activation
or removal with its hook invocations, close. -/
theorem getOrLoad_acts (c : LoadableLRUCache K V E) (p : Ptr) (st : Ptr → Stage)
    (hst : st p = Stage.idle) (r : Option V × Option (error K E)) (c2 : LoadableLRUCache K V E)
    (h : getOrLoad c p = some (r, c2)) :
    ∃ l, acts { cache := c, pending := [], stage := st } l =
      some { cache := c2, pending := [], stage := st } := by
  cases he : c.heap p with
  | none => simp [getOrLoad, he] at h
  | some e =>
    cases hs : e.status with
    | active =>
      rw [getOrLoad_active c p e he hs] at h
      cases h
      exact ⟨[], rfl⟩
    | loading =>
      simp only [getOrLoad, he, hs] at h
      split at h
      · cases h; exact ⟨[], rfl⟩
      · cases h
    | invalid =>
      cases hsig : e.signal with
      | true => rw [getOrLoad_invalid_closed c p e he hs hsig] at h; cases h
      | false =>
        rw [getOrLoad_invalid c p e he hs hsig] at h
        simp only [Option.some.injEq, Prod.mk.injEq] at h
        obtain ⟨_, h⟩ := h
        have hstage : Function.update st p Stage.idle = st := by
          rw [← hst]; exact Function.update_eq_self p st
        by_cases hok : (loadErr e.key (c.loader c.calls e.key)).isNone = true
        · rw [if_pos hok] at h
          subst h
          refine ⟨[Action.cas p, Action.load p, Action.activate p, Action.close p], ?_⟩
          have hok2 := hok
          simp only [loadErr] at hok2
          simp [acts, act, he, hs, store, hok2, hsig, Function.update_idem, hstage, loadErr]
        · rw [if_neg hok] at h
          subst h
          have hok2 := hok
          simp only [loadErr] at hok2
          refine ⟨[Action.cas p, Action.load p] ++
            (Action.removeFailed p ::
              List.replicate (c.data.Remove e.key).2.length Action.hook) ++
            [Action.close p], ?_⟩
          rw [acts_append, acts_append]
          have h1 : acts { cache := c, pending := [], stage := st }
              [Action.cas p, Action.load p] = some {
                cache := { c with
                  heap := Function.update c.heap p (some { e with
                    value := (c.loader c.calls e.key).1,
                    err := loadErr e.key (c.loader c.calls e.key),
                    status := Status.loading }),
                  calls := c.calls ++ [e.key] },
                pending := [], stage := Function.update st p Stage.loaded } := by
            simp [acts, act, he, hs, store, Function.update_idem, loadErr]
          rw [h1]
          simp only [Option.some_bind]
          have h2 : act {
                cache := { c with
                  heap := Function.update c.heap p (some { e with
                    value := (c.loader c.calls e.key).1,
                    err := loadErr e.key (c.loader c.calls e.key),
                    status := Status.loading }),
                  calls := c.calls ++ [e.key] },
                pending := [], stage := Function.update st p Stage.loaded }
              (Action.removeFailed p) = some {
                cache := { c with
                  data := (c.data.Remove e.key).1,
                  heap := Function.update c.heap p (some { e with
                    value := (c.loader c.calls e.key).1,
                    err := loadErr e.key (c.loader c.calls e.key),
                    status := Status.loading }),
                  calls := c.calls ++ [e.key] },
                pending := (c.data.Remove e.key).2,
                stage := Function.update st p Stage.settled } := by
            simp [act, hok, Function.update_idem]
          have h3 := acts_section _ h2
          simp only at h3
          rw [h3]
          simp [acts, act, fire_eq, hsig, store, Function.update_idem, hstage,
            lru.Cache_Remove_eq]

/-- A call of the public interface, run without another goroutine in between, is a
sequence of atomic actions. -/
theorem step_acts {c c1 : LoadableLRUCache K V E} (op : Op K) (h : step c op = some c1) :
    ∃ l, acts (Conc.init c) l = some (Conc.init c1) := by
  cases op with
  | Get key =>
    obtain ⟨r, hg⟩ := step_Get h
    unfold Get at hg
    have h1 : act (Conc.init c) (Action.getEntry key) = some {
        cache := (getEntryLocked c key).1.1, pending := (getEntryLocked c key).2,
        stage := fun _ => Stage.idle } := by
      simp [act, Conc.init]
    have h2 := acts_section _ h1
    simp only at h2
    obtain ⟨l, hl⟩ := getOrLoad_acts (getEntry c key).1 (getEntry c key).2
      (fun _ => Stage.idle) rfl r c1 hg
    refine ⟨(Action.getEntry key ::
      List.replicate (getEntryLocked c key).2.length Action.hook) ++ l, ?_⟩
    rw [acts_append, h2]
    simp only [Option.some_bind]
    rw [getEntry_eq_locked] at hl
    exact hl
  | Remove key =>
    simp only [step, Option.some.injEq] at h; subst h
    have h1 : act (Conc.init c) (Action.Remove key) = some {
        cache := { c with data := (c.data.Remove key).1 }, pending := (c.data.Remove key).2,
        stage := fun _ => Stage.idle } := by
      simp [act, Conc.init]
    exact ⟨_, acts_section _ h1⟩
  | RemoveOldest =>
    simp only [step, Option.some.injEq] at h; subst h
    have h1 : act (Conc.init c) Action.RemoveOldest = some {
        cache := { c with data := c.data.RemoveOldest.1 }, pending := c.data.RemoveOldest.2,
        stage := fun _ => Stage.idle } := by
      simp [act, Conc.init]
    exact ⟨_, acts_section _ h1⟩
  | RemoveOldestN n =>
    simp only [step, Option.some.injEq] at h; subst h
    have h1 : act (Conc.init c) (Action.RemoveOldestN n) = some {
        cache := { c with data := (removeOldestLocked n.toNat c.data).1 },
        pending := (removeOldestLocked n.toNat c.data).2,
        stage := fun _ => Stage.idle } := by
      simp [act, Conc.init]
    have h2 := acts_section _ h1
    simp only at h2
    rw [← removeOldestLoop_eq_locked] at h2
    exact ⟨_, h2⟩
  | Clear =>
    simp only [step, Option.some.injEq] at h; subst h
    have h1 : act (Conc.init c) Action.Clear = some {
        cache := { c with data := c.data.Clear.1 }, pending := c.data.Clear.2,
        stage := fun _ => Stage.idle } := by
      simp [act, Conc.init]
    exact ⟨_, acts_section _ h1⟩

/-- Every state of a sequential run is a state of an interleaved execution. -/
theorem ConcReachable_of_reachable {c : LoadableLRUCache K V E} (h : Reachable c) :
    ConcReachable (Conc.init c) := by
  induction h with
  | new loader maxEntries => exact ConcReachable.new loader maxEntries
  | newWithOnEvicted loader maxEntries => exact ConcReachable.newWithOnEvicted loader maxEntries
  | step op _ hs ih =>
    obtain ⟨l, hl⟩ := step_acts op hs
    exact ConcReachable_acts ih l hl

theorem notified_sound_of_sub (c : LoadableLRUCache K V E) (X : List (K × Ptr))
    (hX : X ⊆ c.data.ll) :
    ∀ x ∈ X.flatMap (notified c.heap), ∃ k p e, (k, p) ∈ c.data.ll ∧
      c.heap p = some e ∧ e.status = Status.active ∧ x = (k, e.value) := by
  intro x hx
  obtain ⟨kv, hkv, hxkv⟩ := List.mem_flatMap.1 hx
  obtain ⟨e, he, hs, hxe⟩ := mem_notified hxkv
  exact ⟨kv.1, kv.2, e, hX hkv, he, hs, hxe⟩

/-- Invocations made for `active` entries of a well-formed container carry the key of no
entry held with another status. -/
theorem active_only_keys {c : LoadableLRUCache K V E} (hw : WF c) (L : List (K × Option V))
    (hs : ∀ x ∈ L, ∃ k p e, (k, p) ∈ c.data.ll ∧ c.heap p = some e ∧
      e.status = Status.active ∧ x = (k, e.value)) :
    ∀ k p e, (k, p) ∈ c.data.ll → c.heap p = some e → e.status ≠ Status.active →
      ∀ x ∈ L, x.1 ≠ k := by
  intro k p e hm he hna x hx hxk
  obtain ⟨k1, p1, e1, hm1, he1, ha1, hx1⟩ := hs x hx
  have hk1 : k1 = k := by rw [hx1] at hxk; exact hxk
  subst hk1
  have hf := find_of_mem hw.nodup hm
  rw [find_of_mem hw.nodup hm1] at hf
  simp only [Option.some.injEq, Prod.mk.injEq, true_and] at hf
  subst hf
  rw [he] at he1
  simp only [Option.some.injEq] at he1
  subst he1
  exact hna ha1

/-- The hook invocations an action leaves pending when the lock is free, read on the
heap as the action leaves it: the invocations of `onEvicted` they lead to when the hook
runs before another goroutine acts are for items of the container whose entry was
`active` before the action. -/
theorem act_pending_sound {s s1 : Conc K V E} (hi : ConcInv s) (hp : s.pending = [])
    (a : Action K) (h : act s a = some s1) :
    s1.cache.evicted = s.cache.evicted ∧
    ∀ x ∈ s1.pending.flatMap (notified s1.cache.heap), ∃ k p e, (k, p) ∈ s.cache.data.ll ∧
      s.cache.heap p = some e ∧ e.status = Status.active ∧ x = (k, e.value) := by
  have hne : a ≠ Action.hook := by
    intro ha
    subst ha
    simp [act, hp] at h
  refine ⟨act_evicted_of_ne_hook a hne h, ?_⟩
  cases a with
  | hook => exact absurd rfl hne
  | getEntry key =>
    simp only [act] at h
    split at h
    · cases h
      cases hf : s.cache.data.ll.find? (fun kv => kv.1 = key) with
      | some kv => rw [getEntryLocked_hit _ _ _ hf]; simp
      | none =>
        have hnk : key ∉ keys s.cache := by
          intro hk
          obtain ⟨x, hx, hxk⟩ := List.mem_map.1 hk
          have := List.find?_eq_none.1 hf x hx
          simp at this
          exact this hxk
        rw [getEntryLocked_miss _ _ hf]
        dsimp only
        rw [Add_miss_notified _ _ hi.wf hnk]
        exact hook_notified_sound _ _ (overflowed_sub _)
    · cases h
  | Remove key =>
    simp only [act] at h
    split at h
    · cases h
      rw [lru.Cache_Remove_eq]
      exact hook_notified_sound _ _ (find_toList_sub _ _)
    · cases h
  | RemoveOldest =>
    simp only [act] at h
    split at h
    · cases h
      rw [lru.Cache_RemoveOldest_eq]
      exact hook_notified_sound _ _ (getLast_toList_sub _)
    · cases h
  | RemoveOldestN n =>
    simp only [act] at h
    split at h
    · cases h
      exact notified_sound_of_sub _ _ (removeOldestLocked_sublist _ _).2
    · cases h
  | Clear =>
    simp only [act] at h
    split at h
    · cases h
      exact hook_notified_sound _ _ (fun x hx => hx)
    · cases h
  | cas p =>
    simp only [act] at h
    split at h
    · cases h
    · split at h <;> cases h
      simp [hp]
  | load p =>
    simp only [act] at h
    split at h
    · cases h
    · split at h <;> cases h
      simp [hp]
  | activate p =>
    simp only [act] at h
    split at h
    · cases h
    · split at h <;> cases h
      simp [hp]
  | removeFailed p =>
    simp only [act] at h
    split at h
    · cases h
    · split at h
      · cases h
        rw [lru.Cache_Remove_eq]
        exact hook_notified_sound _ _ (find_toList_sub _ _)
      · cases h
  | close p =>
    simp only [act] at h
    split at h
    · cases h
    · split at h
      · split at h <;> cases h
        simp [hp]
      · cases h

/-- An action taken when the lock is free, followed by the hook invocations it leaves
pending before another goroutine acts: the lock is free again, and every `onEvicted`
invocation is for an item of the container whose entry was `active` when the action
started, so none carries the key of an entry held with status `invalid` or `loading`
then. -/
theorem act_then_hooks {s s1 : Conc K V E} (hi : ConcInv s) (hp : s.pending = [])
    (a : Action K) (h : act s a = some s1) :
    ∃ s2 L, acts s1 (List.replicate s1.pending.length Action.hook) = some s2 ∧
      s2.pending = [] ∧ s2.cache.evicted = s.cache.evicted ++ L ∧
      (∀ x ∈ L, ∃ k p e, (k, p) ∈ s.cache.data.ll ∧ s.cache.heap p = some e ∧
        e.status = Status.active ∧ x = (k, e.value)) ∧
      (∀ k p e, (k, p) ∈ s.cache.data.ll → s.cache.heap p = some e →
        e.status ≠ Status.active → ∀ x ∈ L, x.1 ≠ k) := by
  obtain ⟨hev, hs⟩ := act_pending_sound hi hp a h
  refine ⟨_, _, acts_hooks s1.cache s1.pending s1.stage, rfl, ?_, hs,
    active_only_keys hi.wf _ hs⟩
  rw [fire_eq, hev]

theorem exConcLoading_reachable : ConcReachable exConcLoading :=
  ConcReachable_acts (ConcReachable.newWithOnEvicted exLoader 2)
    [Action.getEntry "a", Action.cas 0, Action.load 0, Action.activate 0, Action.close 0,
     Action.getEntry "b", Action.cas 1] rfl

/-- C9 (as stated, refuted). First execution: a goroutine holds the entry of `"k"` (pointer
`0`) that `getEntry` returned, `"k"` is removed and loaded again by another `Get`
(pointer `1`, `active`), and then the load of the first entry fails: its
`c.Remove(e.key)` drops the `active` entry and `onEvicted("k", "value of k")` is invoked
in the removal after a failed load; the same with the calls `getEntry`, `Remove`, `Get`,
`getOrLoad` run one after the other. Second execution: `Remove("k")` drops the entry of
`"k"` while its status is `loading`, the loading goroutine sets the status to `active`
before the hook reads it, and `onEvicted` is invoked for an entry that was `loading` when
it was dropped. -/
theorem C9_callback_only_for_active_counterexample :
    ((acts (Conc.init (NewLoadableLRUCacheWithOnEvicted exLoaderOkFirst 2))
        exStaleLoad).map fun s =>
      (s.cache.data.ll, s.pending, s.cache.evicted,
        (s.cache.heap 0).map fun e => (e.status, e.err),
        (s.cache.heap 1).map fun e => (e.status, e.value))) =
      some ([("k", 1)], [], [], some (Status.loading, some (error.fromLoader "boom")),
        some (Status.active, some "value of k")) ∧
    ((acts (Conc.init (NewLoadableLRUCacheWithOnEvicted exLoaderOkFirst 2))
        (exStaleLoad ++ [Action.removeFailed 0, Action.hook])).map fun s =>
      (s.cache.data.ll, s.cache.evicted)) = some ([], [("k", some "value of k")]) ∧
    (getEntry (NewLoadableLRUCacheWithOnEvicted exLoaderOkFirst 2) "k").2 = 0 ∧
    ((Get (Remove (getEntry (NewLoadableLRUCacheWithOnEvicted exLoaderOkFirst 2) "k").1 "k")
        "k").bind fun r => (getOrLoad r.2 0).map fun q =>
      (r.1, r.2.evicted, q.1, q.2.evicted)) =
      some ((some "value of k", none), [], (none, some (error.fromLoader "boom")),
        [("k", some "value of k")]) ∧
    ((acts (Conc.init exCache0) exLateDrop).map fun s =>
      (s.cache.data.ll, s.pending, s.cache.evicted,
        (s.cache.heap 0).map fun e => e.status)) =
      some ([], [("k", 0)], [], some Status.loading) ∧
    ((acts (Conc.init exCache0) (exLateDrop ++ [Action.activate 0, Action.hook])).map
      fun s => s.cache.evicted) = some [("k", some "value of k")] := by
  exact ⟨rfl, rfl, rfl, rfl, rfl, rfl⟩

/-- C9 (amended): in a single call run without another goroutine in between, every
`onEvicted` invocation is for an entry of the container whose status is `active` when
the call starts, with its key and value, none carries the key of an entry held with
status `invalid` or `loading`, and `getOrLoad` as `Get` calls it makes no invocation. In
every interleaved execution, `onEvicted` is invoked only by the eviction hook, for a
dropped item whose entry is `active` with a nil error at the moment the hook runs; the
hook makes no invocation for an entry that is `invalid` or `loading` at that moment, nor
for one whose load failed; when the hook invocations of a critical section run before
another goroutine acts, every invocation is for an entry that was `active` when it was
dropped, none for the key of an entry held with status `invalid` or `loading`; and the
removal after a failed load makes no invocation when the entry is still the one held
under its key. -/
theorem C9_callback_only_for_active (c : LoadableLRUCache K V E) (hw : WF c)
    (s : Conc K V E) (hr : ConcReachable s) :
    (∀ op c1, step c op = some c1 → ∃ L, c1.evicted = c.evicted ++ L ∧
      (∀ x ∈ L, ∃ k p e, (k, p) ∈ c.data.ll ∧ c.heap p = some e ∧
        e.status = Status.active ∧ x = (k, e.value)) ∧
      (∀ k p e, (k, p) ∈ c.data.ll → c.heap p = some e → e.status ≠ Status.active →
        ∀ x ∈ L, x.1 ≠ k)) ∧
    (∀ key r c2, getOrLoad (getEntry c key).1 (getEntry c key).2 = some (r, c2) →
      c2.evicted = (getEntry c key).1.evicted) ∧
    (∀ a s1, act s a = some s1 → ∃ L, s1.cache.evicted = s.cache.evicted ++ L ∧
      ∀ x ∈ L, a = Action.hook ∧ ∃ k p rest e, s.pending = (k, p) :: rest ∧
        s.cache.heap p = some e ∧ e.key = k ∧ e.status = Status.active ∧ e.err = none ∧
        x = (k, e.value)) ∧
    (∀ l s1, acts s l = some s1 → ∃ L, s1.cache.evicted = s.cache.evicted ++ L ∧
      ∀ x ∈ L, ∃ l0 l1 s0 k p rest e, l = l0 ++ Action.hook :: l1 ∧ acts s l0 = some s0 ∧
        s0.pending = (k, p) :: rest ∧ s0.cache.heap p = some e ∧ e.key = k ∧
        e.status = Status.active ∧ e.err = none ∧ x = (k, e.value)) ∧
    (∀ k p rest e s1, s.pending = (k, p) :: rest → s.cache.heap p = some e →
      e.status ≠ Status.active ∨ e.err ≠ none → act s Action.hook = some s1 →
      s1.cache.evicted = s.cache.evicted) ∧
    (s.pending = [] → ∀ a s1, act s a = some s1 →
      ∃ s2 L, acts s1 (List.replicate s1.pending.length Action.hook) = some s2 ∧
        s2.pending = [] ∧ s2.cache.evicted = s.cache.evicted ++ L ∧
        (∀ x ∈ L, ∃ k p e, (k, p) ∈ s.cache.data.ll ∧ s.cache.heap p = some e ∧
          e.status = Status.active ∧ x = (k, e.value)) ∧
        (∀ k p e, (k, p) ∈ s.cache.data.ll → s.cache.heap p = some e →
          e.status ≠ Status.active → ∀ x ∈ L, x.1 ≠ k)) ∧
    (∀ p e s1, s.cache.heap p = some e → (e.key, p) ∈ s.cache.data.ll →
      act s (Action.removeFailed p) = some s1 →
      s1.pending = s.cache.data.hook [(e.key, p)] ∧ s1.cache.evicted = s.cache.evicted ∧
      ∀ s2, act s1 Action.hook = some s2 →
        s2.pending = [] ∧ s2.cache.evicted = s.cache.evicted) := by
  have hi := ConcInv_of_reachable hr
  refine ⟨?_, getOrLoad_evicted c hw, fun a s1 h => act_evicted_sound hi a h,
    fun l s1 h => acts_evicted_sound hi l h,
    fun k p rest e s1 hp he hna h => act_hook_silent hi hp he hna h,
    fun hp a s1 h => act_then_hooks hi hp a h,
    fun p e s1 he hm h => act_removeFailed_held hi he hm h⟩
  intro op c1 h
  have hs := hook_notified_sound c (dropped c op) (dropped_sub c op)
  exact ⟨_, step_evicted hw op h, hs, active_only_keys hw _ hs⟩

theorem exCacheLoading_wf : WF exCacheLoading := by
  refine ⟨by decide, ?_, ?_⟩
  · intro k p h
    simp only [exCacheLoading, List.mem_cons, Prod.mk.injEq, List.mem_singleton,
      List.not_mem_nil, or_false] at h
    rcases h with ⟨_, h⟩ | ⟨_, h⟩ <;> subst h <;> decide
  · intro k p h
    simp only [exCacheLoading, List.mem_cons, Prod.mk.injEq, List.mem_singleton,
      List.not_mem_nil, or_false] at h
    rcases h with ⟨h1, h⟩ | ⟨h1, h⟩ <;> subst h <;> subst h1 <;> simp [exCacheLoading]

/-- Instance of C9 on a state holding an `active` and a `loading` entry, as a state of a
single call and as a state of an interleaved execution. -/
theorem C9_callback_only_for_active_witness :
    WF exCacheLoading ∧ ConcReachable exConcLoading ∧
    (∀ op c1, step exCacheLoading op = some c1 → ∃ L,
      c1.evicted = exCacheLoading.evicted ++ L ∧
      (∀ x ∈ L, ∃ k p e, (k, p) ∈ exCacheLoading.data.ll ∧ exCacheLoading.heap p = some e ∧
        e.status = Status.active ∧ x = (k, e.value)) ∧
      (∀ k p e, (k, p) ∈ exCacheLoading.data.ll → exCacheLoading.heap p = some e →
        e.status ≠ Status.active → ∀ x ∈ L, x.1 ≠ k)) ∧
    (∀ key r c2,
      getOrLoad (getEntry exCacheLoading key).1 (getEntry exCacheLoading key).2 = some (r, c2) →
      c2.evicted = (getEntry exCacheLoading key).1.evicted) ∧
    (∀ a s1, act exConcLoading a = some s1 → ∃ L,
      s1.cache.evicted = exConcLoading.cache.evicted ++ L ∧
      ∀ x ∈ L, a = Action.hook ∧ ∃ k p rest e, exConcLoading.pending = (k, p) :: rest ∧
        exConcLoading.cache.heap p = some e ∧ e.key = k ∧ e.status = Status.active ∧
        e.err = none ∧ x = (k, e.value)) ∧
    (∀ l s1, acts exConcLoading l = some s1 → ∃ L,
      s1.cache.evicted = exConcLoading.cache.evicted ++ L ∧
      ∀ x ∈ L, ∃ l0 l1 s0 k p rest e, l = l0 ++ Action.hook :: l1 ∧
        acts exConcLoading l0 = some s0 ∧
        s0.pending = (k, p) :: rest ∧ s0.cache.heap p = some e ∧ e.key = k ∧
        e.status = Status.active ∧ e.err = none ∧ x = (k, e.value)) ∧
    (∀ k p rest e s1, exConcLoading.pending = (k, p) :: rest →
      exConcLoading.cache.heap p = some e →
      e.status ≠ Status.active ∨ e.err ≠ none → act exConcLoading Action.hook = some s1 →
      s1.cache.evicted = exConcLoading.cache.evicted) ∧
    (exConcLoading.pending = [] → ∀ a s1, act exConcLoading a = some s1 →
      ∃ s2 L, acts s1 (List.replicate s1.pending.length Action.hook) = some s2 ∧
        s2.pending = [] ∧ s2.cache.evicted = exConcLoading.cache.evicted ++ L ∧
        (∀ x ∈ L, ∃ k p e, (k, p) ∈ exConcLoading.cache.data.ll ∧
          exConcLoading.cache.heap p = some e ∧
          e.status = Status.active ∧ x = (k, e.value)) ∧
        (∀ k p e, (k, p) ∈ exConcLoading.cache.data.ll →
          exConcLoading.cache.heap p = some e →
          e.status ≠ Status.active → ∀ x ∈ L, x.1 ≠ k)) ∧
    (∀ p e s1, exConcLoading.cache.heap p = some e →
      (e.key, p) ∈ exConcLoading.cache.data.ll →
      act exConcLoading (Action.removeFailed p) = some s1 →
      s1.pending = exConcLoading.cache.data.hook [(e.key, p)] ∧
      s1.cache.evicted = exConcLoading.cache.evicted ∧
      ∀ s2, act s1 Action.hook = some s2 →
        s2.pending = [] ∧ s2.cache.evicted = exConcLoading.cache.evicted) :=
  ⟨exCacheLoading_wf, exConcLoading_reachable,
    C9_callback_only_for_active exCacheLoading exCacheLoading_wf exConcLoading
      exConcLoading_reachable⟩

theorem filter_flatMap_notified (heap : Ptr → Option (entry K V E)) (X : List (K × Ptr))
    (k : K) :
    (X.flatMap (notified heap)).filter (fun x => x.1 = k) =
      (X.filter (fun kv => kv.1 = k)).flatMap (notified heap) := by
  induction X with
  | nil => rfl
  | cons a X ih =>
    simp only [List.flatMap_cons, List.filter_append, ih]
    have hn : ∀ x ∈ notified heap a, x.1 = a.1 := by
      intro x hx
      obtain ⟨e, _, _, hxe⟩ := mem_notified hx
      rw [hxe]
    by_cases ha : a.1 = k
    · rw [List.filter_cons_of_pos (by simpa using ha), List.flatMap_cons]
      congr 1
      rw [List.filter_eq_self]
      intro x hx
      simpa using (hn x hx).trans ha
    · rw [List.filter_cons_of_neg (by simpa using ha)]
      have : (notified heap a).filter (fun x => x.1 = k) = [] := by
        rw [List.filter_eq_nil_iff]
        intro x hx
        simpa using fun h => ha ((hn x hx).symm.trans h)
      rw [this, List.nil_append]

theorem filter_key_of_mem {X : List (K × Ptr)} {k : K} {p : Ptr}
    (hn : (X.map Prod.fst).Nodup) (hm : (k, p) ∈ X) :
    X.filter (fun kv => kv.1 = k) = [(k, p)] := by
  induction X with
  | nil => simp at hm
  | cons a X ih =>
    simp only [List.map_cons, List.nodup_cons] at hn
    by_cases ha : a.1 = k
    · have hnot : k ∉ X.map Prod.fst := ha ▸ hn.1
      have hap : a = (k, p) := by
        rcases List.mem_cons.1 hm with h | h
        · exact h.symm
        · exact absurd (List.mem_map.2 ⟨(k, p), h, rfl⟩) hnot
      rw [List.filter_cons_of_pos (by simpa using ha), hap]
      congr 1
      rw [List.filter_eq_nil_iff]
      intro x hx
      simpa using fun h => hnot (List.mem_map.2 ⟨x, hx, h⟩)
    · rcases List.mem_cons.1 hm with h | h
      · rw [← h] at ha; simp at ha
      · rw [List.filter_cons_of_neg (by simpa using ha)]
        exact ih hn.2 h

theorem nodup_toList {α : Type} (o : Option α) : o.toList.Nodup := by
  cases o <;> simp

theorem dropped_nodup (c : LoadableLRUCache K V E) (hn : (keys c).Nodup) (op : Op K) :
    ((dropped c op).map Prod.fst).Nodup := by
  have hsub : ∀ l : List (K × Ptr), l.Sublist c.data.ll → (l.map Prod.fst).Nodup :=
    fun l hl => nodup_keys_of_sublist hl hn
  have hopt : ∀ o : Option (K × Ptr), (o.toList.map Prod.fst).Nodup := by
    intro o; cases o <;> simp
  cases op with
  | Get key =>
    simp only [dropped, overflowed]
    split
    · simp
    · split
      · exact hopt _
      · simp
  | Remove key => exact hopt _
  | RemoveOldest => exact hopt _
  | RemoveOldestN n =>
    simp only [dropped, List.map_reverse, List.nodup_reverse]
    exact hsub _ (List.drop_sublist _ _)
  | Clear => exact hn

theorem mem_getLast_of_not_mem_dropLast {α : Type} {l : List α} {x : α} (h : x ∈ l)
    (hn : x ∉ l.dropLast) : l.getLast? = some x := by
  rcases List.eq_nil_or_concat l with hl | ⟨ys, a, hl⟩
  · subst hl; simp at h
  · subst hl
    simp only [List.concat_eq_append, List.dropLast_concat, List.mem_append,
      List.mem_singleton] at h hn ⊢
    rcases h with h | h
    · exact absurd h hn
    · subst h; simp

theorem mem_drop_of_not_mem_take {α : Type} {l : List α} {x : α} (j : Nat) (h : x ∈ l)
    (hn : x ∉ l.take j) : x ∈ l.drop j := by
  rw [← List.take_append_drop j l] at h
  rcases List.mem_append.1 h with h | h
  · exact absurd h hn
  · exact h



/-- Every item that is in the container before a call and not after it is among the
items the call drops. -/
theorem dropped_complete {c c1 : LoadableLRUCache K V E} (hi : Inv c) (op : Op K)
    (h : step c op = some c1) {k : K} {p : Ptr} (hm : (k, p) ∈ c.data.ll)
    (hn : (k, p) ∉ c1.data.ll) : (k, p) ∈ dropped c op := by
  cases op with
  | Get key =>
    obtain ⟨r, hg⟩ := step_Get h
    by_cases hk : key ∈ keys c
    · exfalso
      obtain ⟨⟨k0, p0⟩, hm0, hkp⟩ := List.mem_map.1 hk
      simp only at hkp
      subst hkp
      obtain ⟨e, c2, _, _, hg2, hll, _⟩ := Get_hit_fields c k0 p0 hi hm0
      rw [hg2] at hg
      simp only [Option.some.injEq, Prod.mk.injEq] at hg
      rw [← hg.2, hll] at hn
      apply hn
      by_cases hkk : k = k0
      · subst hkk
        have hf := find_of_mem hi.wf.nodup hm
        rw [find_of_mem hi.wf.nodup hm0] at hf
        simp only [Option.some.injEq, Prod.mk.injEq, true_and] at hf
        subst hf
        exact List.mem_cons_self _ _
      · exact List.mem_cons_of_mem _ (List.mem_filter.2 ⟨hm, by simpa using hkk⟩)
    · simp only [dropped, if_neg hk, overflowed]
      have hne : c.data.ll ≠ [] := List.ne_nil_of_mem hm
      obtain ⟨a, l, hal⟩ := List.exists_cons_of_ne_nil hne
      have key_step : (k, p) ∉ (if overflows c then c.data.ll.dropLast else c.data.ll) := by
        by_cases hl : loadErr key (c.loader c.calls key) = none
        · obtain ⟨c2, hg2, hll, _⟩ := Get_miss_ok_fields c key hi.wf hk hl
          rw [hg2] at hg
          simp only [Option.some.injEq, Prod.mk.injEq] at hg
          rw [← hg.2, hll] at hn
          intro hin
          apply hn
          by_cases ho : overflows c
          · rw [if_pos ho] at hin ⊢
            rw [hal, List.dropLast_cons₂, ← hal]
            exact List.mem_cons_of_mem _ hin
          · rw [if_neg ho] at hin ⊢
            exact List.mem_cons_of_mem _ hin
        · obtain ⟨c2, hg2, hll, _⟩ := Get_miss_fail_fields c key hi.wf hk hl
          rw [hg2] at hg
          simp only [Option.some.injEq, Prod.mk.injEq] at hg
          rw [← hg.2, hll] at hn
          exact hn
      by_cases ho : overflows c
      · rw [if_pos ho] at key_step ⊢
        simp only [Option.mem_toList, Option.mem_def]
        exact mem_getLast_of_not_mem_dropLast hm key_step
      · rw [if_neg ho] at key_step
        exact absurd hm key_step
  | Remove key =>
    simp only [step, Option.some.injEq] at h; subst h
    simp only [Remove_eq, List.mem_filter, not_and] at hn
    have hkk : k = key := by simpa using hn hm
    subst hkk
    simp only [dropped, Option.mem_toList, Option.mem_def]
    exact find_of_mem hi.wf.nodup hm
  | RemoveOldest =>
    simp only [step, Option.some.injEq] at h; subst h
    simp only [RemoveOldest_eq] at hn
    simp only [dropped, Option.mem_toList, Option.mem_def]
    exact mem_getLast_of_not_mem_dropLast hm hn
  | RemoveOldestN n =>
    simp only [step, Option.some.injEq] at h; subst h
    simp only [RemoveOldestN, (removeOldestLoop_spec n.toNat c).1] at hn
    simp only [dropped, List.mem_reverse]
    exact mem_drop_of_not_mem_take _ hm hn
  | Clear => exact hm

/-- C10: in a sequential run of a cache built with `NewLoadableLRUCacheWithOnEvicted`,
every entry that is in the container before a call (`Get`, whose insertion may evict,
`Remove`, `RemoveOldest`, `RemoveOldestN` or `Clear`), is not in it after the call and is
`active`, is the subject of exactly one `onEvicted` invocation made by that call, and
that invocation carries the key and the value of the entry. -/
theorem C10_active_entry_notified_once (c : LoadableLRUCache K V E) (hr : Reachable c)
    (hon : c.data.OnEvicted = true) (op : Op K) (c1 : LoadableLRUCache K V E)
    (h : step c op = some c1) :
    ∃ L, c1.evicted = c.evicted ++ L ∧
      ∀ k p e, (k, p) ∈ c.data.ll → (k, p) ∉ c1.data.ll → c.heap p = some e →
        e.status = Status.active → L.filter (fun x => x.1 = k) = [(k, e.value)] := by
  have hi := hr.inv
  refine ⟨_, step_evicted hi.wf op h, ?_⟩
  intro k p e hm hn he hs
  have hd := dropped_complete hi op h hm hn
  have hh : c.data.hook (dropped c op) = dropped c op := by simp [lru.Cache.hook, hon]
  rw [hh, filter_flatMap_notified, filter_key_of_mem (dropped_nodup c hi.wf.nodup op) hd]
  simp [notified, he, hs]

/-- Instance of C10: `Get("c")` on a full cache of capacity two evicts `"b"`. -/
theorem C10_active_entry_notified_once_witness :
    Reachable exCache2 ∧ exCache2.data.OnEvicted = true ∧
    step exCache2 (Op.Get "c") = some exCache3 ∧
    ∃ L, exCache3.evicted = exCache2.evicted ++ L ∧
      ∀ k p e, (k, p) ∈ exCache2.data.ll → (k, p) ∉ exCache3.data.ll →
        exCache2.heap p = some e → e.status = Status.active →
        L.filter (fun x => x.1 = k) = [(k, e.value)] :=
  ⟨exCache2_reachable, rfl, rfl,
    C10_active_entry_notified_once exCache2 exCache2_reachable rfl (Op.Get "c") exCache3 rfl⟩

/-! ## Locality of failures and recency -/

theorem exCacheFull_reachable : Reachable exCacheFull :=
  Reachable.run (Reachable.newWithOnEvicted exLoaderFailC 2) [Op.Get "a", Op.Get "b"] rfl

/-- C11 (as stated, refuted): on a full cache of capacity two holding `"b"` and `"a"`,
`Get("c")` fails with the error of the loader, and yet afterwards `"a"` is no longer held
and `onEvicted` has been invoked for `"a"`. -/
theorem C11_failed_get_evicts_counterexample :
    Reachable exCacheFull ∧ keys exCacheFull = ["b", "a"] ∧
    Get exCacheFull "c" =
      some ((none, some (error.fromLoader "boom")), exCacheFullAfter) ∧
    keys exCacheFullAfter = ["b"] ∧
    exCacheFullAfter.evicted = exCacheFull.evicted ++ [("a", some "value of a")] :=
  ⟨exCacheFull_reachable, rfl, rfl, rfl, rfl⟩

theorem loadErr_ne_none_of_failed (key : K) (r : Option V × Option E)
    (h : r.2 ≠ none ∨ r = (none, none)) : loadErr key r ≠ none := by
  rcases r with ⟨v, e⟩
  rcases h with h | h
  · cases e with
    | none => exact absurd rfl h
    | some e => simp [loadErr]
  · simp only [Prod.mk.injEq] at h
    obtain ⟨h1, h2⟩ := h
    subst h1 h2
    simp [loadErr]

/-- C11 (amended): in a sequential run, a `Get(K)` on a key not held whose load fails
(the loader returns an error, or `(nil, nil)`) returns the error and changes the container
only as the insertion of `K` does: when the insertion exceeds the capacity the least
recently used item is evicted (and `onEvicted` invoked for it when registered and
`active`), and otherwise the items held, their order and the callback log are as before;
the entries allocated before the call keep their contents in both cases. -/
theorem C11_failed_get_drops_only_overflow (c : LoadableLRUCache K V E) (hr : Reachable c)
    (key : K) (hk : key ∉ keys c)
    (hfail : (c.loader c.calls key).2 ≠ none ∨ c.loader c.calls key = (none, none)) :
    ∃ r c1, Get c key = some (r, c1) ∧ r.2 ≠ none ∧
      c1.data.ll = (if overflows c then c.data.ll.dropLast else c.data.ll) ∧
      c1.evicted = c.evicted ++ (c.data.hook (overflowed c)).flatMap (notified c.heap) ∧
      (∀ p, p < c.next → c1.heap p = c.heap p) ∧
      (¬ overflows c → c1.data.ll = c.data.ll ∧ c1.evicted = c.evicted) := by
  have hl := loadErr_ne_none_of_failed key _ hfail
  obtain ⟨c1, hg, hll, _, _, _, hheap, _, _, hev⟩ := Get_miss_fail_fields c key hr.inv.wf hk hl
  refine ⟨_, c1, hg, hl, hll, hev, ?_, ?_⟩
  · intro p hp
    rw [hheap, Function.update_noteq (Nat.ne_of_lt hp)]
  · intro ho
    rw [hll, hev]
    simp [overflowed, if_neg ho, hook_nil]

/-- Instances of C11 (amended): the failing `Get("c")` on the full cache `exCacheFull`. -/
theorem C11_failed_get_drops_only_overflow_witness :
    Reachable exCacheFull ∧ "c" ∉ keys exCacheFull ∧
    ((exCacheFull.loader exCacheFull.calls "c").2 ≠ none ∨
      exCacheFull.loader exCacheFull.calls "c" = (none, none)) ∧
    ∃ r c1, Get exCacheFull "c" = some (r, c1) ∧ r.2 ≠ none ∧
      c1.data.ll =
        (if overflows exCacheFull then exCacheFull.data.ll.dropLast
         else exCacheFull.data.ll) ∧
      c1.evicted = exCacheFull.evicted ++
        (exCacheFull.data.hook (overflowed exCacheFull)).flatMap
          (notified exCacheFull.heap) ∧
      (∀ p, p < exCacheFull.next → c1.heap p = exCacheFull.heap p) ∧
      (¬ overflows exCacheFull →
        c1.data.ll = exCacheFull.data.ll ∧ c1.evicted = exCacheFull.evicted) :=
  ⟨exCacheFull_reachable, by decide, Or.inl (by decide),
    C11_failed_get_drops_only_overflow exCacheFull exCacheFull_reachable "c" (by decide)
      (Or.inl (by decide))⟩

theorem getLast_cons_append_singleton {α : Type} (a : α) (l : List α) (b : α) :
    (a :: (l ++ [b])).getLast? = some b := by
  have : a :: (l ++ [b]) = (a :: l) ++ [b] := rfl
  rw [this, List.getLast?_append]; simp

theorem dropLast_cons_append_singleton {α : Type} (a : α) (l : List α) (b : α) :
    (a :: (l ++ [b])).dropLast = a :: l := by
  have : a :: (l ++ [b]) = (a :: l) ++ [b] := rfl
  rw [this, List.dropLast_concat]

/-- C19: in a sequential run, on a full cache (capacity `M`, `M` entries, at least two)
whose least recently used key is `K` and second least recently used key is `k2`, a
`Get(K)` is a hit that makes `K` the most recently used: the following `Get` of a key not
held evicts `k2` (with the eviction hook run on its item) and keeps `K` and every other
item. -/
theorem C19_hit_makes_most_recent (c : LoadableLRUCache K V E) (hr : Reachable c) (M : Nat)
    (hmax : c.data.MaxEntries = (M : Int)) (hfull : Len c = M)
    (front : List (K × Ptr)) (k2 : K) (p2 : Ptr) (key : K) (p : Ptr)
    (hll : c.data.ll = front ++ [(k2, p2), (key, p)])
    (knew : K) (hnew : knew ∉ keys c) :
    ∃ r1 c1 r2 c2, Get c key = some (r1, c1) ∧ Get c1 knew = some (r2, c2) ∧
      key ∈ keys c2 ∧ k2 ∉ keys c2 ∧ (∀ x ∈ front, x ∈ c2.data.ll) ∧
      c2.evicted = c.evicted ++ (c.data.hook [(k2, p2)]).flatMap (notified c.heap) := by
  have hi := hr.inv
  have hm : (key, p) ∈ c.data.ll := by rw [hll]; simp
  have hnd : (c.data.ll.map Prod.fst).Nodup := hi.wf.nodup
  rw [hll] at hnd
  simp only [List.map_append, List.map_cons, List.map_nil] at hnd
  have hndl := (List.nodup_append.1 hnd).1
  have hndr := (List.nodup_append.1 hnd).2.1
  have hdis := (List.nodup_append.1 hnd).2.2
  have hk2key : k2 ≠ key := by
    intro h; subst h; simp at hndr
  have hkeyfront : key ∉ front.map Prod.fst := fun h => hdis h (by simp)
  have hk2front : k2 ∉ front.map Prod.fst := fun h => hdis h (by simp)
  obtain ⟨e, c1, _, _, hg1, hll1, hmax1, hon1, hld1, hheap1, hnext1, hcalls1, hev1⟩ :=
    Get_hit_fields c key p hi hm
  have hi1 : Inv c1 := Inv_step hi (Op.Get key) (by simp [step, hg1])
  have hfil : c.data.ll.filter (fun x => x.1 ≠ key) = front ++ [(k2, p2)] := by
    rw [hll, List.filter_append, filter_key_eq_self hkeyfront]
    simp [hk2key]
  rw [hfil] at hll1
  have hlen : c.data.ll.length = M := hfull
  rw [hll] at hlen
  simp only [List.length_append, List.length_cons, List.length_nil] at hlen
  have hov : overflows c1 := by
    unfold overflows
    rw [hmax1, hmax, hll1]
    simp only [List.length_cons, List.length_append, List.length_nil]
    constructor
    · intro h0
      have : (M : Int) ≠ 0 := by exact_mod_cast (by omega : M ≠ 0)
      exact this h0
    · push_cast; omega
  have hlast : c1.data.ll.getLast? = some (k2, p2) := by
    rw [hll1]; exact getLast_cons_append_singleton _ _ _
  have hdl : c1.data.ll.dropLast = (key, p) :: front := by
    rw [hll1]; exact dropLast_cons_append_singleton _ _ _
  have hnew1 : knew ∉ keys c1 := by
    intro h
    apply hnew
    simp only [keys, lru.Cache.keys, hll1, hll, List.map_cons, List.map_append, List.map_nil,
      List.mem_cons, List.mem_append, List.not_mem_nil, or_false] at h ⊢
    tauto
  have hk2new : k2 ≠ knew := by
    intro h; apply hnew; rw [← h]
    simp [keys, lru.Cache.keys, hll]
  have hevx : c1.evicted ++ (c1.data.hook (overflowed c1)).flatMap (notified c1.heap) =
      c.evicted ++ (c.data.hook [(k2, p2)]).flatMap (notified c.heap) := by
    rw [hev1, hheap1]
    simp only [overflowed, if_pos hov, hlast, Option.toList_some, lru.Cache.hook, hon1]
  by_cases hl : loadErr knew (c1.loader c1.calls knew) = none
  · obtain ⟨c2, hg2, hll2, _, _, _, _, _, _, hev2⟩ := Get_miss_ok_fields c1 knew hi1.wf hnew1 hl
    rw [if_pos hov] at hll2
    have hll2' : c2.data.ll = (knew, c1.next) :: (key, p) :: front := by
      rw [hll2, hll1]
      exact dropLast_cons_append_singleton _ ((key, p) :: front) _
    refine ⟨_, c1, _, c2, hg1, hg2, ?_, ?_, ?_, by rw [hev2, hevx]⟩
    · simp [keys, lru.Cache.keys, hll2']
    · simp only [keys, lru.Cache.keys, hll2', List.map_cons, List.mem_cons, not_or]
      exact ⟨hk2new, hk2key, hk2front⟩
    · intro x hx; rw [hll2']; simp [hx]
  · obtain ⟨c2, hg2, hll2, _, _, _, _, _, _, hev2⟩ :=
      Get_miss_fail_fields c1 knew hi1.wf hnew1 hl
    rw [if_pos hov, hdl] at hll2
    refine ⟨_, c1, _, c2, hg1, hg2, ?_, ?_, ?_, by rw [hev2, hevx]⟩
    · simp [keys, lru.Cache.keys, hll2]
    · simp only [keys, lru.Cache.keys, hll2, List.map_cons, List.mem_cons, not_or]
      exact ⟨hk2key, hk2front⟩
    · intro x hx; rw [hll2]; simp [hx]



theorem exCacheAB_reachable : Reachable exCacheAB :=
  Reachable.run exCache0_reachable [Op.Get "a", Op.Get "b"] rfl

/-- Instance of C19: capacity two, after `Get("a")`, `Get("b")`, the calls `Get("a")`,
`Get("c")` evict `"b"` and keep `"a"`. -/
theorem C19_hit_makes_most_recent_witness :
    Reachable exCacheAB ∧ exCacheAB.data.MaxEntries = ((2 : Nat) : Int) ∧
    Len exCacheAB = 2 ∧ exCacheAB.data.ll = [] ++ [("b", 1), ("a", 0)] ∧
    "c" ∉ keys exCacheAB ∧
    ∃ r1 c1 r2 c2, Get exCacheAB "a" = some (r1, c1) ∧ Get c1 "c" = some (r2, c2) ∧
      "a" ∈ keys c2 ∧ "b" ∉ keys c2 ∧ (∀ x ∈ ([] : List (String × Ptr)), x ∈ c2.data.ll) ∧
      c2.evicted = exCacheAB.evicted ++
        (exCacheAB.data.hook [("b", 1)]).flatMap (notified exCacheAB.heap) :=
  ⟨exCacheAB_reachable, rfl, rfl, rfl, by decide,
    C19_hit_makes_most_recent exCacheAB exCacheAB_reachable 2 rfl rfl [] "b" 1 "a" 0 rfl "c"
      (by decide)⟩

end cache

/-! # Theorems on maps -/

namespace gomap

variable {K V : Type} [DecidableEq K]

theorem get_set_same (m : List (K × V)) (key : K) (value : V) :
    get (set m key value) key = some value := by
  induction m with
  | nil => simp [set, get]
  | cons a m ih =>
    obtain ⟨k, v⟩ := a
    by_cases h : key = k
    · subst h; simp [set, get]
    · simp [set, get, h, ih]

theorem get_set_ne (m : List (K × V)) {key k1 : K} (value : V) (h : k1 ≠ key) :
    get (set m key value) k1 = get m k1 := by
  induction m with
  | nil => simp [set, get, h]
  | cons a m ih =>
    obtain ⟨k, v⟩ := a
    by_cases hk : key = k
    · subst hk; simp [set, get, h]
    · by_cases hk1 : k1 = k
      · subst hk1; simp [set, get, hk]
      · simp [set, get, hk, hk1, ih]

theorem get_delete_same (m : List (K × V)) (key : K) : get (delete m key) key = none := by
  induction m with
  | nil => simp [delete, get]
  | cons a m ih =>
    obtain ⟨k, v⟩ := a
    by_cases hk : k = key
    · subst hk
      simpa [delete] using ih
    · have hk' : key ≠ k := fun h => hk h.symm
      have : delete ((k, v) :: m) key = (k, v) :: delete m key := by simp [delete, hk]
      rw [this]
      simp [get, hk', ih]

theorem get_delete_ne (m : List (K × V)) {key k1 : K} (h : k1 ≠ key) :
    get (delete m key) k1 = get m k1 := by
  induction m with
  | nil => simp [delete, get]
  | cons a m ih =>
    obtain ⟨k, v⟩ := a
    by_cases hk : k = key
    · subst hk
      have : delete ((k, v) :: m) k = delete m k := by simp [delete]
      rw [this, ih]
      simp [get, h]
    · have : delete ((k, v) :: m) key = (k, v) :: delete m key := by simp [delete, hk]
      rw [this]
      by_cases hk1 : k1 = k
      · simp [get, hk1]
      · simp [get, hk1, ih]

theorem get_eq_none_iff (m : List (K × V)) (key : K) : get m key = none ↔ key ∉ keys m := by
  induction m with
  | nil => simp [get, keys]
  | cons a m ih =>
    obtain ⟨k, v⟩ := a
    by_cases hk : key = k
    · simp [get, keys, hk]
    · simpa [get, keys, hk] using ih

theorem get_of_mem {m : List (K × V)} (hn : (keys m).Nodup) {key : K} {v : V}
    (h : (key, v) ∈ m) : get m key = some v := by
  induction m with
  | nil => simp at h
  | cons a m ih =>
    obtain ⟨k, v0⟩ := a
    simp only [keys, List.map_cons, List.nodup_cons] at hn
    rcases List.mem_cons.1 h with h1 | h1
    · simp only [Prod.mk.injEq] at h1
      simp [get, h1.1, h1.2]
    · have hne : key ≠ k := by
        intro hk
        exact hn.1 (hk ▸ List.mem_map.2 ⟨(key, v), h1, rfl⟩)
      simp only [get, hne, if_false]
      exact ih hn.2 h1

end gomap

namespace maps

variable {K V : Type} [DecidableEq K]

/-- C12: on the maps of `TestDifference`, whose values under `"diff"` are `"diff1"` on
the left and `"diff2"` on the right (not deeply equal), the difference recorded under
`"diff"` returns `"diff1"` from `LeftValue` and also from `RightValue`. -/
theorem C12_RightValue_returns_left_value :
    gomap.get exLeft "diff" = some "diff1" ∧ gomap.get exRight "diff" = some "diff2" ∧
    exDeepEqual "diff1" "diff2" = false ∧
    (gomap.get (Difference exDeepEqual exLeft exRight).Differences "diff").map
      valueDiff.LeftValue = some "diff1" ∧
    (gomap.get (Difference exDeepEqual exLeft exRight).Differences "diff").map
      valueDiff.RightValue = some "diff1" := by
  decide

end maps

namespace gomap

variable {K V : Type} [DecidableEq K]

theorem mem_of_get {m : List (K × V)} {key : K} {v : V} (h : get m key = some v) :
    (key, v) ∈ m := by
  induction m with
  | nil => simp [get] at h
  | cons a m ih =>
    obtain ⟨k, v0⟩ := a
    by_cases hk : key = k
    · subst hk
      simp only [get, if_true, Option.some.injEq] at h
      subst h
      exact List.mem_cons_self _ _
    · simp only [get, hk, if_false] at h
      exact List.mem_cons_of_mem _ (ih h)

theorem get_foldl_set (src acc : List (K × V)) (hn : (keys src).Nodup) (k : K) :
    get (src.foldl (fun dst kv => set dst kv.1 kv.2) acc) k =
      (get src k).orElse (fun _ => get acc k) := by
  induction src generalizing acc with
  | nil => simp [get]
  | cons a src ih =>
    obtain ⟨k0, v0⟩ := a
    simp only [keys, List.map_cons, List.nodup_cons] at hn
    rw [List.foldl_cons, ih _ hn.2]
    by_cases hk : k = k0
    · subst hk
      have : get src k = none := (get_eq_none_iff src k).2 hn.1
      simp [this, get, get_set_same]
    · simp [get, hk, get_set_ne _ _ hk]

end gomap

namespace maps

variable {K V : Type} [DecidableEq K]

theorem get_Copy (src : List (K × V)) (hn : (gomap.keys src).Nodup) (k : K) :
    gomap.get (Copy src) k = gomap.get src k := by
  unfold Copy
  rw [gomap.get_foldl_set src [] hn k]
  cases gomap.get src k <;> simp [gomap.get]

theorem view_diffStep_ne (deepEqual : V → V → Bool) (d : mapDiff K V) (kv : K × V) {k : K}
    (h : k ≠ kv.1) : view (diffStep deepEqual d kv) k = view d k := by
  unfold diffStep view
  cases hr : gomap.get d.onlyInRight kv.1 with
  | none => simp [gomap.get_set_ne _ _ h]
  | some rv =>
    cases hv : deepEqual kv.2 rv
    · simp [hv, gomap.get_set_ne _ _ h, gomap.get_delete_ne _ h]
    · simp [hv, gomap.get_set_ne _ _ h, gomap.get_delete_ne _ h]

theorem view_diffStep_same (deepEqual : V → V → Bool) (d : mapDiff K V) (k : K) (v : V) :
    view (diffStep deepEqual d (k, v)) k = viewStep deepEqual (view d k) v := by
  unfold diffStep view viewStep
  cases hr : gomap.get d.onlyInRight k with
  | none => simp [hr, gomap.get_set_same]
  | some rv =>
    cases hv : deepEqual v rv
    · simp [hr, hv, gomap.get_set_same, gomap.get_delete_same]
    · simp [hr, hv, gomap.get_set_same, gomap.get_delete_same]

theorem view_foldl_not_mem (deepEqual : V → V → Bool) (left : List (K × V))
    (d : mapDiff K V) {k : K} (h : k ∉ gomap.keys left) :
    view (left.foldl (diffStep deepEqual) d) k = view d k := by
  induction left generalizing d with
  | nil => rfl
  | cons a left ih =>
    simp only [gomap.keys, List.map_cons, List.mem_cons, not_or] at h
    rw [List.foldl_cons, ih _ h.2, view_diffStep_ne deepEqual d a h.1]

theorem view_foldl_mem (deepEqual : V → V → Bool) (left : List (K × V)) (d : mapDiff K V)
    (hn : (gomap.keys left).Nodup) {k : K} {v : V} (h : (k, v) ∈ left) :
    view (left.foldl (diffStep deepEqual) d) k = viewStep deepEqual (view d k) v := by
  induction left generalizing d with
  | nil => simp at h
  | cons a left ih =>
    simp only [gomap.keys, List.map_cons, List.nodup_cons] at hn
    rw [List.foldl_cons]
    rcases List.mem_cons.1 h with h1 | h1
    · subst h1
      rw [view_foldl_not_mem deepEqual left _ hn.1, view_diffStep_same]
    · have hne : k ≠ a.1 := by
        intro hk
        exact hn.1 (hk ▸ List.mem_map.2 ⟨(k, v), h1, rfl⟩)
      rw [ih _ hn.2 h1, view_diffStep_ne deepEqual d a hne]

/-- The four lookups of a key in `Difference(left, right)`. -/
theorem view_Difference (deepEqual : V → V → Bool) (left right : List (K × V))
    (hl : (gomap.keys left).Nodup) (hr : (gomap.keys right).Nodup) (k : K) :
    view (Difference deepEqual left right) k =
      match gomap.get left k with
      | some v => viewStep deepEqual (none, gomap.get right k, none, none) v
      | none => (none, gomap.get right k, none, none) := by
  have h0 : view ({ onlyInLeft := [], onlyInRight := Copy right, inCommon := [], diff := [] } :
      mapDiff K V) k = (none, gomap.get right k, none, none) := by
    simp [view, gomap.get, get_Copy right hr]
  unfold Difference
  cases hg : gomap.get left k with
  | none =>
    rw [view_foldl_not_mem deepEqual left _ ((gomap.get_eq_none_iff left k).1 hg), h0]
  | some v =>
    rw [view_foldl_mem deepEqual left _ hl (gomap.mem_of_get hg), h0]

/-- C13: for maps `left` and `right` (each key bound once) and whatever comparison
`reflect.DeepEqual` is on their values, `Difference(left, right)` partitions the union of
their keys: `OnlyInLeft` is `left` restricted to the keys absent from `right`,
`OnlyInRight` is `right` restricted to the keys absent from `left`, `InCommon` binds the
keys present in both with deeply equal values to the value on the left, the keys of
`Differences` are the keys present in both with values that are not deeply equal, and no
key is in two of the four maps. -/
theorem C13_Difference_partitions (deepEqual : V → V → Bool) (left right : List (K × V))
    (hl : (gomap.keys left).Nodup) (hr : (gomap.keys right).Nodup) :
    (∀ k v, gomap.get (Difference deepEqual left right).OnlyInLeft k = some v ↔
      gomap.get left k = some v ∧ gomap.get right k = none) ∧
    (∀ k v, gomap.get (Difference deepEqual left right).OnlyInRight k = some v ↔
      gomap.get right k = some v ∧ gomap.get left k = none) ∧
    (∀ k v, gomap.get (Difference deepEqual left right).InCommon k = some v ↔
      gomap.get left k = some v ∧ ∃ b, gomap.get right k = some b ∧ deepEqual v b = true) ∧
    (∀ k, gomap.get (Difference deepEqual left right).Differences k ≠ none ↔
      ∃ a b, gomap.get left k = some a ∧ gomap.get right k = some b ∧
        deepEqual a b = false) ∧
    (∀ k,
      (gomap.get (Difference deepEqual left right).OnlyInLeft k ≠ none →
        gomap.get (Difference deepEqual left right).OnlyInRight k = none ∧
        gomap.get (Difference deepEqual left right).InCommon k = none ∧
        gomap.get (Difference deepEqual left right).Differences k = none) ∧
      (gomap.get (Difference deepEqual left right).OnlyInRight k ≠ none →
        gomap.get (Difference deepEqual left right).InCommon k = none ∧
        gomap.get (Difference deepEqual left right).Differences k = none) ∧
      (gomap.get (Difference deepEqual left right).InCommon k ≠ none →
        gomap.get (Difference deepEqual left right).Differences k = none)) := by
  have key : ∀ k, view (Difference deepEqual left right) k =
      match gomap.get left k with
      | some v => viewStep deepEqual (none, gomap.get right k, none, none) v
      | none => (none, gomap.get right k, none, none) :=
    view_Difference deepEqual left right hl hr
  have k1 : ∀ k, gomap.get (Difference deepEqual left right).OnlyInLeft k =
      (view (Difference deepEqual left right) k).1 := fun _ => rfl
  have k2 : ∀ k, gomap.get (Difference deepEqual left right).OnlyInRight k =
      (view (Difference deepEqual left right) k).2.1 := fun _ => rfl
  have k3 : ∀ k, gomap.get (Difference deepEqual left right).InCommon k =
      (view (Difference deepEqual left right) k).2.2.1 := fun _ => rfl
  have k4 : ∀ k, gomap.get (Difference deepEqual left right).Differences k =
      (view (Difference deepEqual left right) k).2.2.2 := fun _ => rfl
  refine ⟨?_, ?_, ?_, ?_, ?_⟩
  · intro k v
    rw [k1, key]
    cases gomap.get left k with
    | none => simp
    | some a =>
      cases gomap.get right k with
      | none => simp [viewStep]
      | some b => cases hab : deepEqual a b <;> simp [viewStep, hab]
  · intro k v
    rw [k2, key]
    cases gomap.get left k with
    | none => simp
    | some a =>
      cases gomap.get right k with
      | none => simp [viewStep]
      | some b => cases hab : deepEqual a b <;> simp [viewStep, hab]
  · intro k v
    rw [k3, key]
    cases gomap.get left k with
    | none => simp
    | some a =>
      cases gomap.get right k with
      | none => simp [viewStep]
      | some b =>
        cases hab : deepEqual a b
        · simp only [viewStep, hab, Bool.false_eq_true, if_false]
          constructor
          · intro h; simp at h
          · rintro ⟨h1, b1, h2, h3⟩
            simp only [Option.some.injEq] at h1 h2
            subst h1 h2
            rw [hab] at h3
            simp at h3
        · simp only [viewStep, hab, if_true, Option.some.injEq]
          constructor
          · intro h; subst h; exact ⟨rfl, b, rfl, hab⟩
          · rintro ⟨h1, _⟩; exact h1
  · intro k
    rw [k4, key]
    cases gomap.get left k with
    | none => simp
    | some a =>
      cases gomap.get right k with
      | none => simp [viewStep]
      | some b => cases hab : deepEqual a b <;> simp [viewStep, hab]
  · intro k
    rw [k1, k2, k3, k4, key]
    cases gomap.get left k with
    | none => simp
    | some a =>
      cases gomap.get right k with
      | none => simp [viewStep]
      | some b => cases hab : deepEqual a b <;> simp [viewStep, hab]

/-- On a value that is not deeply equal to itself the key goes to `Differences`, not to
`InCommon`, although both maps bind it to the same value. -/
theorem Difference_of_irreflexive :
    gomap.get (Difference exDeepEqualNaN [("k", "NaN")] [("k", "NaN")]).InCommon "k" = none ∧
    (gomap.get (Difference exDeepEqualNaN [("k", "NaN")] [("k", "NaN")]).Differences "k").map
      valueDiff.LeftValue = some "NaN" ∧
    gomap.get (Difference exDeepEqualNaN [("k", "v")] [("k", "v")]).InCommon "k" = some "v" := by
  decide

/-- Instance of C13 on the maps of `TestDifference`, compared as strings. -/
theorem C13_Difference_partitions_witness :
    (gomap.keys exLeft).Nodup ∧ (gomap.keys exRight).Nodup ∧
    (∀ k v, gomap.get (Difference exDeepEqual exLeft exRight).OnlyInLeft k = some v ↔
      gomap.get exLeft k = some v ∧ gomap.get exRight k = none) ∧
    (∀ k v, gomap.get (Difference exDeepEqual exLeft exRight).OnlyInRight k = some v ↔
      gomap.get exRight k = some v ∧ gomap.get exLeft k = none) ∧
    (∀ k v, gomap.get (Difference exDeepEqual exLeft exRight).InCommon k = some v ↔
      gomap.get exLeft k = some v ∧
        ∃ b, gomap.get exRight k = some b ∧ exDeepEqual v b = true) ∧
    (∀ k, gomap.get (Difference exDeepEqual exLeft exRight).Differences k ≠ none ↔
      ∃ a b, gomap.get exLeft k = some a ∧ gomap.get exRight k = some b ∧
        exDeepEqual a b = false) ∧
    (∀ k,
      (gomap.get (Difference exDeepEqual exLeft exRight).OnlyInLeft k ≠ none →
        gomap.get (Difference exDeepEqual exLeft exRight).OnlyInRight k = none ∧
        gomap.get (Difference exDeepEqual exLeft exRight).InCommon k = none ∧
        gomap.get (Difference exDeepEqual exLeft exRight).Differences k = none) ∧
      (gomap.get (Difference exDeepEqual exLeft exRight).OnlyInRight k ≠ none →
        gomap.get (Difference exDeepEqual exLeft exRight).InCommon k = none ∧
        gomap.get (Difference exDeepEqual exLeft exRight).Differences k = none) ∧
      (gomap.get (Difference exDeepEqual exLeft exRight).InCommon k ≠ none →
        gomap.get (Difference exDeepEqual exLeft exRight).Differences k = none)) :=
  ⟨by decide, by decide,
    C13_Difference_partitions exDeepEqual exLeft exRight (by decide) (by decide)⟩

end maps

/-! # Theorems on request parameters -/

namespace gomap

variable {K V : Type} [DecidableEq K]

theorem keys_set_of_not_mem (m : List (K × V)) (key : K) (value : V) (h : key ∉ keys m) :
    keys (set m key value) = keys m ++ [key] := by
  induction m with
  | nil => simp [set, keys]
  | cons a m ih =>
    obtain ⟨k, v⟩ := a
    simp only [keys, List.map_cons, List.mem_cons, not_or] at h
    have := ih h.2
    simp only [keys] at this
    simp [set, keys, h.1, this]

theorem keys_set_of_mem (m : List (K × V)) (key : K) (value : V) (h : key ∈ keys m) :
    keys (set m key value) = keys m := by
  induction m with
  | nil => simp [keys] at h
  | cons a m ih =>
    obtain ⟨k, v⟩ := a
    by_cases hk : key = k
    · simp [set, keys, hk]
    · simp only [keys, List.map_cons, List.mem_cons, hk, false_or] at h
      have := ih h
      simp only [keys] at this
      simp [set, keys, hk, this]

theorem keys_delete (m : List (K × V)) (key : K) :
    keys (delete m key) = (keys m).filter (fun k => decide (k ≠ key)) := by
  simp only [keys, delete, List.filter_map]
  congr 1

theorem get_isSome_iff (m : List (K × V)) (key : K) : (∃ v, get m key = some v) ↔ key ∈ keys m := by
  constructor
  · rintro ⟨v, hv⟩
    by_contra hc
    rw [(get_eq_none_iff m key).2 hc] at hv
    simp at hv
  · intro h
    cases hg : get m key with
    | none => exact absurd h ((get_eq_none_iff m key).1 hg)
    | some v => exact ⟨v, rfl⟩

end gomap

namespace http

/-- On a sorted slice `remove` erases the value. -/
theorem remove_eq_erase (sorted : List Str) (value : Str) (hs : sorted.Sorted (· ≤ ·)) :
    remove sorted value = sorted.erase value := by
  induction sorted with
  | nil => simp [remove, SearchStrings]
  | cons a t ih =>
    have hst : t.Sorted (· ≤ ·) := hs.of_cons
    have hle : ∀ b ∈ t, a ≤ b := fun b hb => List.rel_of_sorted_cons hs b hb
    by_cases hva : value ≤ a
    · have hi : SearchStrings (a :: t) value = 0 := by
        simp [SearchStrings, List.findIdx_cons, hva]
      unfold remove
      rw [hi]
      by_cases hv : value = a
      · subst hv; simp
      · have hnot : value ∉ t := by
          intro hm
          exact hv (le_antisymm hva (hle value hm))
        have hav : a ≠ value := fun h => hv h.symm
        simp [hv, List.erase_cons, hav, List.erase_of_not_mem hnot]
    · have hi : SearchStrings (a :: t) value = SearchStrings t value + 1 := by
        simp [SearchStrings, List.findIdx_cons, hva]
      have hav : a ≠ value := fun h => hva (h ▸ le_refl _)
      have hrec : remove (a :: t) value = a :: remove t value := by
        unfold remove
        rw [hi]
        simp only [List.getElem?_cons_succ, List.take_succ_cons, List.drop_succ_cons]
        cases t[SearchStrings t value]? with
        | none => rfl
        | some s => by_cases hv : value = s <;> simp [hv]
      rw [hrec, ih hst]
      simp [List.erase_cons, hav]

theorem sorted_sortStrings (a : List Str) : (sortStrings a).Sorted (· ≤ ·) :=
  List.sorted_insertionSort (· ≤ ·) a

theorem perm_sortStrings (a : List Str) : (sortStrings a).Perm a :=
  List.perm_insertionSort (· ≤ ·) a

theorem PInv_new : PInv NewParam := by
  refine ⟨?_, ?_, ?_⟩ <;> simp [NewParam, gomap.keys]

theorem PInv_set_mem {p : Param} (hi : PInv p) {key : Str} (vs : List Str)
    (h : key ∈ gomap.keys p.data) : PInv { p with data := gomap.set p.data key vs } := by
  refine ⟨?_, hi.sorted, ?_⟩
  · simp only [gomap.keys_set_of_mem _ _ _ h]; exact hi.nodup
  · simp only [gomap.keys_set_of_mem _ _ _ h]; exact hi.perm

theorem PInv_add_new {p : Param} (hi : PInv p) {key : Str} (vs : List Str)
    (h : key ∉ gomap.keys p.data) :
    PInv { data := gomap.set p.data key vs, keys := sortStrings (p.keys ++ [key]) } := by
  refine ⟨?_, sorted_sortStrings _, ?_⟩
  · simp only [gomap.keys_set_of_not_mem _ _ _ h]
    rw [List.nodup_append]
    refine ⟨hi.nodup, List.nodup_singleton _, ?_⟩
    intro x hx hx2
    rw [List.mem_singleton] at hx2
    exact h (hx2 ▸ hx)
  · simp only [gomap.keys_set_of_not_mem _ _ _ h]
    exact (perm_sortStrings _).trans (hi.perm.append_right _)

theorem remove_keys_eq_filter {p : Param} (hi : PInv p) (key : Str) :
    remove p.keys key = p.keys.filter (fun k => decide (k ≠ key)) := by
  have hn : p.keys.Nodup := hi.perm.nodup_iff.2 hi.nodup
  rw [remove_eq_erase _ _ hi.sorted, hn.erase_eq_filter]
  apply List.filter_congr
  intro x _
  by_cases h : x = key <;> simp [h]

theorem PInv_delete {p : Param} (hi : PInv p) (key : Str) :
    PInv { data := gomap.delete p.data key, keys := remove p.keys key } := by
  refine ⟨?_, ?_, ?_⟩
  · simp only [gomap.keys_delete]
    exact hi.nodup.filter _
  · simp only [remove_keys_eq_filter hi]
    exact hi.sorted.sublist (List.filter_sublist _)
  · simp only [remove_keys_eq_filter hi, gomap.keys_delete]
    exact hi.perm.filter _

theorem mem_keys_of_get {m : List (Str × List Str)} {key : Str} {vs : List Str}
    (h : gomap.get m key = some vs) : key ∈ gomap.keys m :=
  (gomap.get_isSome_iff m key).1 ⟨vs, h⟩

theorem PInv_pstep {p p1 : Param} (hi : PInv p) (op : POp) (h : pstep p op = some p1) :
    PInv p1 := by
  cases op with
  | Add key values =>
    simp only [pstep, Param.Add] at h
    split at h
    · simp only [Option.map_some', Option.some.injEq] at h; exact h ▸ hi
    · split at h
      · rename_i exist hg
        split at h
        · simp at h
        · split at h
          · simp only [Option.map_some', Option.some.injEq] at h; exact h ▸ hi
          · simp only [Option.map_some', Option.some.injEq] at h
            exact h ▸ PInv_set_mem hi _ (mem_keys_of_get hg)
      · rename_i hg
        simp only [Option.map_some', Option.some.injEq] at h
        exact h ▸ PInv_add_new hi _ ((gomap.get_eq_none_iff _ _).1 hg)
  | Replace key values =>
    simp only [pstep, Param.Replace, Option.some.injEq] at h
    split at h
    · exact h ▸ hi
    · split at h
      · rename_i hg
        exact h ▸ PInv_set_mem hi _ (mem_keys_of_get hg)
      · rename_i hg
        exact h ▸ PInv_add_new hi _ ((gomap.get_eq_none_iff _ _).1 hg)
  | Remove key values =>
    simp only [pstep, Param.Remove, Option.some.injEq] at h
    split at h
    · rename_i exist hg
      split at h
      · exact h ▸ PInv_delete hi key
      · exact h ▸ PInv_set_mem hi _ (mem_keys_of_get hg)
    · exact h ▸ hi
  | RemoveAll key =>
    simp only [pstep, Param.RemoveAll, Option.some.injEq] at h
    split at h
    · exact h ▸ PInv_delete hi key
    · exact h ▸ hi

theorem PInv_of_reachable {p : Param} (h : PReachable p) : PInv p := by
  induction h with
  | new => exact PInv_new
  | step op _ hs ih => exact PInv_pstep ih op hs

theorem joinAmp_cons (s : Str) (t : List Str) :
    joinAmp (s :: t) = s ++ t.flatMap (fun x => '&' :: x) := by
  induction t generalizing s with
  | nil => simp [joinAmp]
  | cons a t ih =>
    rw [joinAmp, ih a]
    simp
    intro h; simp at h

theorem foldl_sep_of_ne_nil (pieces : List Str) (buf : Str) (hb : buf ≠ []) :
    pieces.foldl (fun buf s => (if buf.length > 0 then buf ++ ['&'] else buf) ++ s) buf =
      buf ++ pieces.flatMap (fun x => '&' :: x) := by
  induction pieces generalizing buf with
  | nil => simp
  | cons s t ih =>
    have hlen : buf.length > 0 := List.length_pos.2 hb
    rw [List.foldl_cons, if_pos hlen, ih _ (by simp [hb])]
    simp

theorem foldl_sep_nil (pieces : List Str) (hp : ∀ s ∈ pieces, s ≠ []) :
    pieces.foldl (fun buf s => (if buf.length > 0 then buf ++ ['&'] else buf) ++ s) [] =
      joinAmp pieces := by
  cases pieces with
  | nil => rfl
  | cons s t =>
    rw [List.foldl_cons, joinAmp_cons]
    simp only [List.length_nil, gt_iff_lt, lt_self_iff_false, if_false, List.nil_append]
    exact foldl_sep_of_ne_nil t s (hp s (List.mem_cons_self _ _))

theorem foldl_foldl_flatMap {α β γ : Type} (f : γ → β → γ) (g : α → List β) (l : List α)
    (init : γ) :
    l.foldl (fun acc a => (g a).foldl f acc) init = (l.flatMap g).foldl f init := by
  induction l generalizing init with
  | nil => rfl
  | cons a l ih => simp [List.flatMap_cons, List.foldl_append, ih]

/-- The buffer loop of `QueryString` joins the pairs with `&`. -/
theorem QueryString_eq_joinAmp (escape : Str → Str) (p : Param) :
    p.QueryString escape =
      joinAmp (p.keys.flatMap fun k => (p.Get k).map fun v => escape k ++ ['='] ++ escape v) := by
  rw [← foldl_sep_nil]
  · unfold Param.QueryString
    rw [← foldl_foldl_flatMap]
    congr 1
    funext buf k
    rw [List.foldl_map]
    congr 1
    funext x y
    simp only [List.append_assoc]
  · intro s hs
    obtain ⟨k, _, hk⟩ := List.mem_flatMap.1 hs
    obtain ⟨v, _, hv⟩ := List.mem_map.1 hk
    rw [← hv]
    simp

theorem keys_eq_sortStrings {p : Param} (hi : PInv p) :
    p.keys = sortStrings (gomap.keys p.data) :=
  List.eq_of_perm_of_sorted (hi.perm.trans (perm_sortStrings _).symm) hi.sorted
    (sorted_sortStrings _)

/-- C18: for every `Param` obtained from `NewParam()` by completed `Add`, `Replace`,
`Remove` and `RemoveAll` calls, `QueryString()` is what `url.Values.Encode()` gives on the
map `data`: the pairs `escape(key)=escape(value)` joined by `&` (none leading or
trailing), the keys in ascending order and the values of a key in their stored order. -/
theorem C18_QueryString_eq_Encode (escape : Str → Str) (p : Param) (hr : PReachable p) :
    p.QueryString escape = Encode escape p.data := by
  rw [QueryString_eq_joinAmp, keys_eq_sortStrings (PInv_of_reachable hr)]
  rfl

/-- Instance of C18 on the `Param` built in `TestParam`, with the identity for
`url.QueryEscape`. -/
theorem C18_QueryString_eq_Encode_witness :
    PReachable exParamTest ∧ exParamTest.QueryString id = Encode id exParamTest.data :=
  ⟨PReachable.step (POp.Add "api_key".toList ["apikeycontent".toList])
      (PReachable.step (POp.Add "key".toList ["1".toList, "2".toList, "7".toList, "9".toList])
        PReachable.new rfl) rfl,
    C18_QueryString_eq_Encode id exParamTest
      (PReachable.step (POp.Add "api_key".toList ["apikeycontent".toList])
        (PReachable.step
          (POp.Add "key".toList ["1".toList, "2".toList, "7".toList, "9".toList])
          PReachable.new rfl) rfl)⟩

theorem exParamXX_reachable : PReachable exParamXX :=
  PReachable.step (POp.Add "key".toList ["x".toList, "x".toList]) PReachable.new rfl

theorem exParam1_reachable : PReachable exParam1 :=
  PReachable.step (POp.Add "key".toList ["1".toList]) PReachable.new rfl

/-- C14: `Add("key", "x", "x")` on a new `Param` completes and returns `true`, and
afterwards `Get("key")` holds the value `"x"` twice. -/
theorem C14_duplicate_values_are_kept :
    (NewParam.Add "key".toList ["x".toList, "x".toList]).map Prod.fst = some true ∧
    PReachable exParamXX ∧ exParamXX.Get "key".toList = ["x".toList, "x".toList] :=
  ⟨rfl, exParamXX_reachable, by decide⟩

/-- C15: after `Add("key", "1")` on a new `Param`, `Add("key", "2")` with the non-empty
key `"key"` and the value `"2"` does not complete: `sort.SearchStrings` returns the length
of the slice and `exist[i]` is out of range. -/
theorem C15_Add_above_all_values_panics :
    PReachable exParam1 ∧ exParam1.Get "key".toList = ["1".toList] ∧
    SearchStrings (exParam1.Get "key".toList) "2".toList = 1 ∧
    exParam1.Add "key".toList ["2".toList] = none :=
  ⟨exParam1_reachable, by decide, by decide, rfl⟩

/-- C16: on the `Param` obtained by `Add("key", "x", "x")`, `Remove("key", "x")` leaves
the value `"x"` in `Get("key")`. -/
theorem C16_Remove_leaves_a_duplicate :
    PReachable exParamXX ∧
    (exParamXX.Remove "key".toList ["x".toList]).Get "key".toList = ["x".toList] :=
  ⟨exParamXX_reachable, by decide⟩

/-- C17 (as stated, refuted): on a new `Param`, where the key `"key2"` is not present,
`Add("key2", "hello world")` returns `true` and `Replace("key2", "hello world")` returns
`false`. -/
theorem C17_Replace_result_differs_counterexample :
    gomap.get NewParam.data "key2".toList = none ∧
    (NewParam.Add "key2".toList ["hello world".toList]).map Prod.fst = some true ∧
    (NewParam.Replace "key2".toList ["hello world".toList]).1 = false :=
  ⟨rfl, rfl, rfl⟩

/-- C17 (amended): for every `Param`, every key not present in it and every list of
values, `Add` completes and leaves the `Param` in the state `Replace` leaves it in (same
data, same key list); `Replace` returns `false`, and `Add` returns `true` exactly when
the key is not empty and at least one value is given. -/
theorem C17_Replace_adds_like_Add_but_returns_false (p : Param) (key : Str)
    (values : List Str) (h : gomap.get p.data key = none) :
    ∃ b, p.Add key values = some (b, (p.Replace key values).2) ∧
      (p.Replace key values).1 = false ∧ (b = true ↔ key ≠ [] ∧ values ≠ []) := by
  by_cases hc : key = [] ∨ values = []
  · refine ⟨false, by simp [Param.Add, Param.Replace, hc], by simp [Param.Replace, hc], ?_⟩
    simp only [Bool.false_eq_true, false_iff, not_and_or, not_not]
    exact hc
  · refine ⟨true, by simp [Param.Add, Param.Replace, hc, h],
      by simp [Param.Replace, hc, h], ?_⟩
    simp only [not_or] at hc
    simp only [true_iff]
    exact hc

/-- Instance of C17 (amended): `Replace("key2", "hello world")` and
`Add("key2", "hello world")` on the `Param` built in `TestParam`. -/
theorem C17_Replace_adds_like_Add_but_returns_false_witness :
    gomap.get exParamTest.data "key2".toList = none ∧
    ∃ b, exParamTest.Add "key2".toList ["hello world".toList] =
        some (b, (exParamTest.Replace "key2".toList ["hello world".toList]).2) ∧
      (exParamTest.Replace "key2".toList ["hello world".toList]).1 = false ∧
      (b = true ↔ "key2".toList ≠ [] ∧ ["hello world".toList] ≠ []) :=
  ⟨by decide, C17_Replace_adds_like_Add_but_returns_false exParamTest "key2".toList
    ["hello world".toList] (by decide)⟩

end http
